import Mathlib

/-!
# bigquery_datasets: `cmd/list_datasets/main.go`

A shallow embedding of the catalog reporter.  The remote service is a value
(`Client`): the replies its two pagers and its metadata lookup give, in call
order.  Every function that talks to the service returns, next to its result,
the list of calls it made (`Run.calls`), so that statements such as "no later
table is fetched" are statements about that list.

Model choices
* `time.Time` is an `Int` (an instant); `After` is the strict `>` on instants.
* `uint64` row counts are `Nat`; no arithmetic is done on them.
* Go `int` (`maxTables`) is `Int`: the counter is only decremented while it is
  `>= 0`, so it never leaves `[-1, maxTables]` and cannot overflow.
* A pager is the list of replies of successive `Next()` calls; once the list
  is used up `Next()` answers `iterator.Done`.
* `map[string][]TableInfo` is an association list with at most one entry per
  key (`GoMap.set` overwrites).
* `sort.Slice` is library code: `listTablesByDataset` takes it as a parameter.
  `SortSliceContract` is what its documentation promises; `goSortSlice` is a
  port of its implementation in the Go standard library (Go 1.19 and later).
  The port is proved to return on every slice (`Slice_returns`) and to meet
  the contract (`goSortSlice_contract`); it is what the examples run, and what
  a statement on the order of elements that compare equal is about.
* `os.Args` is a list of strings; by the documentation of package `os` it
  starts with the program name.
-/

namespace ListDatasets

/-! ## Data model -/

/-- A Go `error` value other than `iterator.Done`: a root cause, or a cause
wrapped by `errors.WithMessage`. -/
inductive GoError where
  | cause (msg : String)
  | withMessage (err : GoError) (message : String)
deriving DecidableEq, Repr

/-- The text of `err.Error()`; `errors.WithMessage` puts its message first. -/
def GoError.Error : GoError → String
  | .cause msg => msg
  | .withMessage err message => message ++ ": " ++ err.Error

/-- The error an error was wrapped around (`errors.Cause`, one level). -/
def GoError.unwrap : GoError → Option GoError
  | .cause _ => none
  | .withMessage err _ => some err

/-- The `bigquery.TimePartitioning` descriptor; only its presence is read. -/
structure TimePartitioning where
  Field : String
deriving DecidableEq, Repr

/-- The `bigquery.RangePartitioning` descriptor; only its presence is read. -/
structure RangePartitioning where
  Field : String
deriving DecidableEq, Repr

/-- One column of a table schema (`bigquery.FieldSchema`). -/
structure FieldSchema where
  Name : String
  FieldType : String
  Description : String
deriving DecidableEq, Repr

/-- The value `bigquery.MaterializedView` of `bigquery.TableType`. -/
def MaterializedView : String := "MATERIALIZED_VIEW"

/-- The part of `bigquery.TableMetadata` the program reads.  The two
partitioning fields are pointers in Go: `none` is `nil`. -/
structure TableMetadata where
  LastModifiedTime : Int
  NumRows : Nat
  TimePartitioning : Option TimePartitioning
  RangePartitioning : Option RangePartitioning
  TableType : String
  Schema : List FieldSchema
deriving DecidableEq, Repr

/-- The record built for one table (`type TableInfo struct`). -/
structure TableInfo where
  DatasetID : String
  TableID : String
  LastModifiedTime : Int
  NumRows : Nat
  IsPartitioned : Bool
  PartitioningType : String
  IsMaterialized : Bool
deriving DecidableEq, Repr

/-- The reply of one `Next()` call that is not `iterator.Done`. -/
inductive NextResult (α : Type) where
  | item (a : α)
  | failure (err : GoError)
deriving DecidableEq, Repr

deriving instance DecidableEq for Except

/-- A table handle as the table pager yields it, with the reply its
`Metadata(ctx)` call gives. -/
structure Table where
  TableID : String
  Metadata : Except GoError TableMetadata

/-- A dataset as the dataset pager yields it, with the replies the table
pager opened for it gives (`client.Dataset(id).Tables(ctx)`). -/
structure Dataset where
  DatasetID : String
  Tables : List (NextResult Table)

/-- The service as seen through a `*bigquery.Client`. -/
structure Client where
  Datasets : List (NextResult Dataset)
  TableMetadata : String → String → Except GoError TableMetadata

/-! ## Calls made to the service -/

/-- What a pager call answered, as recorded in the call log. -/
inductive Reply where
  | item (id : String)
  | done
  | failure (err : GoError)
deriving DecidableEq, Repr

/-- One call to the service, with its reply. -/
inductive Call where
  | datasetsNext (reply : Reply)
  | tablesNext (datasetID : String) (reply : Reply)
  | metadata (datasetID tableID : String) (failed : Option GoError)
deriving DecidableEq, Repr

/-- A result together with the calls made to obtain it, oldest first. -/
structure Run (α : Type) where
  calls : List Call
  result : Except GoError α
deriving DecidableEq

/-- Record one call in front of a run. -/
def Run.after {α : Type} (c : Call) (r : Run α) : Run α :=
  { calls := c :: r.calls, result := r.result }

/-- Continue a run: on an error nothing more is called. -/
def Run.andThen {α β : Type} (r : Run α) (f : α → Run β) : Run β :=
  match r.result with
  | .error err => { calls := r.calls, result := .error err }
  | .ok a => { calls := r.calls ++ (f a).calls, result := (f a).result }

/-! ## `strings.Contains` -/

/-- Whether `substr` occurs in the character list at some position. -/
def containsChars (substr : List Char) : List Char → Bool
  | [] => substr.isEmpty
  | c :: cs => substr.isPrefixOf (c :: cs) || containsChars substr cs

/-- The library function `strings.Contains(s, substr)`. -/
def stringsContains (s substr : String) : Bool :=
  containsChars substr.data s.data

/-! ## The map `map[string][]TableInfo` -/

/-- A Go map from dataset identifier to table list. -/
abbrev GoMap := List (String × List TableInfo)

/-- The assignment `m[k] = v`. -/
def GoMap.set : GoMap → String → List TableInfo → GoMap
  | [], k, v => [(k, v)]
  | (k0, v0) :: rest, k, v =>
    if k0 = k then (k, v) :: rest else (k0, v0) :: GoMap.set rest k v

/-- The lookup `v, ok := m[k]`. -/
def GoMap.get : GoMap → String → Option (List TableInfo)
  | [], _ => none
  | (k0, v0) :: rest, k => if k0 = k then some v0 else GoMap.get rest k

/-- The keys of the map. -/
def GoMap.keys (m : GoMap) : List String := m.map Prod.fst

/-! ## `listTablesByDataset` -/

/-- The method `t.After(u)` of `time.Time`. -/
def After (t u : Int) : Bool := decide (u < t)

/-- The `less` closure handed to `sort.Slice` (lines 148-150). -/
def lessByLastModified (a b : TableInfo) : Bool :=
  After a.LastModifiedTime b.LastModifiedTime

/-- The `TableInfo` built from a table and its metadata (lines 129-143). -/
def mkTableInfo (datasetID : String) (tableID : String) (md : TableMetadata) : TableInfo :=
  let tableInfo : TableInfo :=
    { DatasetID := datasetID
      TableID := tableID
      LastModifiedTime := md.LastModifiedTime
      NumRows := md.NumRows
      IsPartitioned := md.TimePartitioning.isSome || md.RangePartitioning.isSome
      PartitioningType := ""
      IsMaterialized := md.TableType == MaterializedView }
  if md.TimePartitioning.isSome then
    { tableInfo with PartitioningType := "Time" }
  else if md.RangePartitioning.isSome then
    { tableInfo with PartitioningType := "Range" }
  else
    tableInfo

/-- How a pager reply is recorded in the call log. -/
def tableReply : NextResult Table → Reply
  | .item table => .item table.TableID
  | .failure err => .failure err

/-- How a dataset pager reply is recorded in the call log. -/
def datasetReply : NextResult Dataset → Reply
  | .item dataset => .item dataset.DatasetID
  | .failure err => .failure err

/-- The error a failed metadata fetch gave, if it failed. -/
def metadataFailure : Except GoError TableMetadata → Option GoError
  | .ok _ => none
  | .error err => some err

/-- The inner loop (lines 113-145): one iteration per reply of the table
pager.  The checks come in the order of the source: `Done`, then the cap,
then the decrement, then the pager error, then the metadata fetch. -/
def tablesLoop (datasetID : String) :
    List (NextResult Table) → Int → List TableInfo → Run (List TableInfo)
  | [], _, datasetTables =>
    { calls := [.tablesNext datasetID .done], result := .ok datasetTables }
  | r :: rest, maxTablesForDataset, datasetTables =>
    Run.after (.tablesNext datasetID (tableReply r)) <|
      if maxTablesForDataset < 0 then
        { calls := [], result := .ok datasetTables }
      else
        match r with
        | .failure err =>
          { calls := [], result := .error (err.withMessage "Failed to get next table") }
        | .item table =>
          Run.after (.metadata datasetID table.TableID (metadataFailure table.Metadata)) <|
            match table.Metadata with
            | .error err =>
              { calls := [], result := .error (err.withMessage "Failed to get table metadata") }
            | .ok md =>
              tablesLoop datasetID rest (maxTablesForDataset - 1)
                (datasetTables ++ [mkTableInfo datasetID table.TableID md])

/-- The outer loop (lines 95-152): one iteration per reply of the dataset
pager. -/
def datasetsLoop (sortSlice : (TableInfo → TableInfo → Bool) → List TableInfo → List TableInfo)
    (maxTables : Int) : List (NextResult Dataset) → GoMap → Run GoMap
  | [], datasets => { calls := [.datasetsNext .done], result := .ok datasets }
  | r :: rest, datasets =>
    Run.after (.datasetsNext (datasetReply r)) <|
      match r with
      | .failure err =>
        { calls := [], result := .error (err.withMessage "Failed to get next dataset") }
      | .item dataset =>
        if stringsContains dataset.DatasetID "_test" then
          datasetsLoop sortSlice maxTables rest datasets
        else
          (tablesLoop dataset.DatasetID dataset.Tables maxTables []).andThen fun datasetTables =>
            datasetsLoop sortSlice maxTables rest
              (datasets.set dataset.DatasetID (sortSlice lessByLastModified datasetTables))

/-- The function `listTablesByDataset(ctx, client, maxTables)`.  The result
`.error e` is Go's `(nil, e)`; `.ok m` is `(m, nil)`. -/
def listTablesByDataset
    (sortSlice : (TableInfo → TableInfo → Bool) → List TableInfo → List TableInfo)
    (client : Client) (maxTables : Int) : Run GoMap :=
  datasetsLoop sortSlice maxTables client.Datasets []

/-! ## `sort.Slice` -/

/-- What `sort.Slice` asks of its `less` function (the requirements of
`sort.Interface.Less`): a strict ordering in which "neither is less" is
transitive. -/
structure LessOrder {α : Type} (less : α → α → Bool) : Prop where
  asymm : ∀ a b, less a b = true → less b a = false
  trans : ∀ a b c, less a b = true → less b c = true → less a c = true
  negTrans : ∀ a b c, less a b = false → less b c = false → less a c = false

/-- What `sort.Slice` promises: the slice is rearranged (nothing added or
lost) so that no element is `less` than one standing before it.  The order
of elements that compare equal is not promised. -/
def SortSliceContract
    (sortSlice : (TableInfo → TableInfo → Bool) → List TableInfo → List TableInfo) : Prop :=
  ∀ less l, LessOrder less →
    (sortSlice less l).Perm l ∧ (sortSlice less l).Pairwise (fun a b => less b a = false)

/-! ## The library function `sort.Slice`

A port of `sort.Slice` of the Go standard library as it stands since Go 1.19
(package `sort`, files `slice.go`, `sort.go`, `zsortfunc.go`): pattern-defeating
quicksort over a `less` and a `swap` on indices.  The slice is a list; an
index that does not exist is never read by the algorithm.  Loops whose trip
count the source does not fix take a fuel argument and return `none` when it
runs out.  The step of the pseudo-random generator used by
`breakPatterns_func` is a parameter (`next`). -/

/-- The call `data.Less(i, j)`. -/
def lessAt {α : Type} (less : α → α → Bool) (data : List α) (i j : Nat) : Bool :=
  match data[i]?, data[j]? with
  | some x, some y => less x y
  | _, _ => false

/-- The call `data.Swap(i, j)`. -/
def swapAt {α : Type} (data : List α) (i j : Nat) : List α :=
  match data[i]?, data[j]? with
  | some x, some y => (data.set i y).set j x
  | _, _ => data

/-- The inner loop of `insertionSort_func`:
`for j := i; j > a && data.Less(j, j-1); j-- { data.Swap(j, j-1) }`. -/
def insertionSort_inner {α : Type} (less : α → α → Bool) (a : Nat) : Nat → List α → List α
  | 0, data => data
  | j + 1, data =>
    if a < j + 1 ∧ lessAt less data (j + 1) j = true then
      insertionSort_inner less a j (swapAt data (j + 1) j)
    else data

/-- The function `insertionSort_func(data, a, b)`:
`for i := a + 1; i < b; i++ { ... }`. -/
def insertionSort_func {α : Type} (less : α → α → Bool) (data : List α) (a b : Nat) : List α :=
  (List.range' (a + 1) (b - (a + 1))).foldl (fun data i => insertionSort_inner less a i data) data

/-- The function `siftDown_func(data, lo, hi, first)`; `root` starts at `lo`. -/
def siftDown_func {α : Type} (less : α → α → Bool) (hi first : Nat) :
    Nat → List α → Nat → Option (List α)
  | 0, _, _ => none
  | fuel + 1, data, root =>
    let child := 2 * root + 1
    if child ≥ hi then some data
    else
      let child :=
        if child + 1 < hi ∧ lessAt less data (first + child) (first + child + 1) = true then child + 1
        else child
      if lessAt less data (first + root) (first + child) = false then some data
      else siftDown_func less hi first fuel (swapAt data (first + root) (first + child)) child

/-- The function `heapSort_func(data, a, b)`. -/
def heapSort_func {α : Type} (less : α → α → Bool) (data : List α) (a b : Nat) :
    Option (List α) :=
  let first := a
  let lo := 0
  let hi := b - a
  (List.range ((hi - 1) / 2 + 1)).reverse.foldlM
      (fun data i => siftDown_func less hi first (hi + 1) data i) data
    >>= fun data =>
  (List.range hi).reverse.foldlM
      (fun data i => siftDown_func less i first (hi + 1) (swapAt data first (first + i)) lo) data

/-- The loop `for i <= j && p(i) { i++ }`; the result is the new `i`. -/
def scanUp (p : Nat → Bool) (j : Nat) : Nat → Nat → Option Nat
  | 0, i => if i ≤ j ∧ p i = true then none else some i
  | fuel + 1, i => if i ≤ j ∧ p i = true then scanUp p j fuel (i + 1) else some i

/-- The loop `for i <= j && p(j) { j-- }`; the result is the new `j`. -/
def scanDown (p : Nat → Bool) (i : Nat) : Nat → Nat
  | 0 => 0
  | j + 1 => if i ≤ j + 1 ∧ p (j + 1) = true then scanDown p i j else j + 1

/-- The second loop of `partition_func`, from the state `(data, i, j)`. -/
def partition_loop {α : Type} (less : α → α → Bool) (a : Nat) :
    Nat → List α → Nat → Nat → Option (List α × Nat)
  | 0, _, _, _ => none
  | fuel + 1, data, i, j => do
    let i ← scanUp (fun i => lessAt less data i a) j (j + 1 - i) i
    let j := scanDown (fun j => !lessAt less data j a) i j
    if i > j then some (data, j)
    else partition_loop less a fuel (swapAt data i j) (i + 1) (j - 1)

/-- The function `partition_func(data, a, b, pivot)`: the slice after the
partition, the new pivot index and whether the slice was already
partitioned. -/
def partition_func {α : Type} (less : α → α → Bool) (data : List α) (a b pivot : Nat) :
    Option (List α × Nat × Bool) := do
  let data := swapAt data a pivot
  let i := a + 1
  let j := b - 1
  let i ← scanUp (fun i => lessAt less data i a) j (j + 1 - i) i
  let j := scanDown (fun j => !lessAt less data j a) i j
  if i > j then some (swapAt data j a, j, true)
  else
    let data := swapAt data i j
    let (data, j) ← partition_loop less a (b - a + 1) data (i + 1) (j - 1)
    some (swapAt data j a, j, false)

/-- The loop of `partitionEqual_func`, from the state `(data, i, j)`. -/
def partitionEqual_loop {α : Type} (less : α → α → Bool) (a : Nat) :
    Nat → List α → Nat → Nat → Option (List α × Nat)
  | 0, _, _, _ => none
  | fuel + 1, data, i, j => do
    let i ← scanUp (fun i => !lessAt less data a i) j (j + 1 - i) i
    let j := scanDown (fun j => lessAt less data a j) i j
    if i > j then some (data, i)
    else partitionEqual_loop less a fuel (swapAt data i j) (i + 1) (j - 1)

/-- The function `partitionEqual_func(data, a, b, pivot)`. -/
def partitionEqual_func {α : Type} (less : α → α → Bool) (data : List α) (a b pivot : Nat) :
    Option (List α × Nat) :=
  partitionEqual_loop less a (b - a + 1) (swapAt data a pivot) (a + 1) (b - 1)

/-- A shifting loop of `partialInsertionSort_func`, downwards:
`for j := ...; j >= 1; j-- { if !data.Less(j, j-1) { break }; data.Swap(j, j-1) }`. -/
def shiftLeft {α : Type} (less : α → α → Bool) : Nat → List α → List α
  | 0, data => data
  | j + 1, data =>
    if lessAt less data (j + 1) j = false then data
    else shiftLeft less j (swapAt data (j + 1) j)

/-- A shifting loop of `partialInsertionSort_func`, upwards:
`for j := ...; j < b; j++ { if !data.Less(j, j-1) { break }; data.Swap(j, j-1) }`. -/
def shiftRight {α : Type} (less : α → α → Bool) (b : Nat) : Nat → Nat → List α → List α
  | 0, _, data => data
  | fuel + 1, j, data =>
    if j < b then
      if lessAt less data j (j - 1) = false then data
      else shiftRight less b fuel (j + 1) (swapAt data j (j - 1))
    else data

/-- The loop `for j := 0; j < maxSteps; j++` of `partialInsertionSort_func`;
`steps` is `maxSteps - j`. -/
def partialInsertionSort_loop {α : Type} (less : α → α → Bool) (a b : Nat) :
    Nat → List α → Nat → Option (List α × Bool)
  | 0, data, _ => some (data, false)
  | steps + 1, data, i => do
    let i ← scanUp (fun i => !lessAt less data i (i - 1)) (b - 1) (b - i) i
    if i = b then some (data, true)
    else if b - a < 50 then some (data, false)
    else
      let data := swapAt data i (i - 1)
      let data := if i - a ≥ 2 then shiftLeft less (i - 1) data else data
      let data := if b - i ≥ 2 then shiftRight less b (b - i) (i + 1) data else data
      partialInsertionSort_loop less a b steps data i

/-- The function `partialInsertionSort_func(data, a, b)`, with `maxSteps = 5`
and `shortestShifting = 50`. -/
def partialInsertionSort_func {α : Type} (less : α → α → Bool) (data : List α) (a b : Nat) :
    Option (List α × Bool) :=
  partialInsertionSort_loop less a b 5 data (a + 1)

/-- The function `bits.Len(x)`: the number of bits needed to write `x`. -/
def bitsLen : Nat → Nat → Nat
  | 0, _ => 0
  | fuel + 1, x => if x = 0 then 0 else bitsLen fuel (x / 2) + 1

/-- The function `nextPowerOfTwo(length)`. -/
def nextPowerOfTwo (length : Nat) : Nat := 2 ^ bitsLen length length

/-- The function `breakPatterns_func(data, a, b)`; `next` is one step of the
generator `xorshift`, seeded with `length`. -/
def breakPatterns_func {α : Type} (next : Nat → Nat) (data : List α) (a b : Nat) : List α :=
  let length := b - a
  if length ≥ 8 then
    let modulus := nextPowerOfTwo length
    let idx := a + (length / 4) * 2 - 1
    let pick := fun (random : Nat) =>
      let other := random &&& (modulus - 1)
      if other ≥ length then other - length else other
    let r0 := next length
    let r1 := next r0
    let r2 := next r1
    let data := swapAt data (idx - 1 + 0) (a + pick r0)
    let data := swapAt data (idx - 1 + 1) (a + pick r1)
    swapAt data (idx - 1 + 2) (a + pick r2)
  else data

/-- The type `sortedHint`. -/
inductive sortedHint where
  | unknownHint
  | increasingHint
  | decreasingHint
deriving DecidableEq, Repr

/-- The function `order2_func(data, a, b, swaps)`: the pair in order and the
new value of `*swaps`. -/
def order2_func {α : Type} (less : α → α → Bool) (data : List α) (a b swaps : Nat) :
    Nat × Nat × Nat :=
  if lessAt less data b a = true then (b, a, swaps + 1) else (a, b, swaps)

/-- The function `median_func(data, a, b, c, swaps)`: the index of the median
and the new value of `*swaps`. -/
def median_func {α : Type} (less : α → α → Bool) (data : List α) (a b c swaps : Nat) :
    Nat × Nat :=
  let r1 := order2_func less data a b swaps
  let r2 := order2_func less data r1.2.1 c r1.2.2
  let r3 := order2_func less data r1.1 r2.1 r2.2.2
  (r3.2.1, r3.2.2)

/-- The function `medianAdjacent_func(data, a, swaps)`. -/
def medianAdjacent_func {α : Type} (less : α → α → Bool) (data : List α) (a swaps : Nat) :
    Nat × Nat :=
  median_func less data (a - 1) a (a + 1) swaps

/-- The function `choosePivot_func(data, a, b)`, with `shortestNinther = 50`
and `maxSwaps = 4 * 3`. -/
def choosePivot_func {α : Type} (less : α → α → Bool) (data : List α) (a b : Nat) :
    Nat × sortedHint :=
  let l := b - a
  let i := a + l / 4 * 1
  let j := a + l / 4 * 2
  let k := a + l / 4 * 3
  let chosen : Nat × Nat :=
    if l ≥ 8 then
      if l ≥ 50 then
        let mi := medianAdjacent_func less data i 0
        let mj := medianAdjacent_func less data j mi.2
        let mk := medianAdjacent_func less data k mj.2
        median_func less data mi.1 mj.1 mk.1 mk.2
      else median_func less data i j k 0
    else (j, 0)
  if chosen.2 = 0 then (chosen.1, .increasingHint)
  else if chosen.2 = 4 * 3 then (chosen.1, .decreasingHint)
  else (chosen.1, .unknownHint)

/-- The function `reverseRange_func(data, a, b)`. -/
def reverseRange_func {α : Type} (data : List α) (a b : Nat) : List α :=
  (List.range ((b - a) / 2)).foldl (fun data k => swapAt data (a + k) (b - 1 - k)) data

/-- The loop of `pdqsort_func(data, a, b, limit)`, from the state
`(data, a, b, limit, wasBalanced, wasPartitioned)`, with `maxInsertion = 12`. -/
def pdqsort_loop {α : Type} (next : Nat → Nat) (less : α → α → Bool) :
    Nat → List α → Nat → Nat → Nat → Bool → Bool → Option (List α)
  | 0, _, _, _, _, _, _ => none
  | fuel + 1, data, a, b, limit, wasBalanced, wasPartitioned =>
    let length := b - a
    if length ≤ 12 then some (insertionSort_func less data a b)
    else if limit = 0 then heapSort_func less data a b
    else do
      let (data, limit) :=
        if !wasBalanced then (breakPatterns_func next data a b, limit - 1) else (data, limit)
      let (pivot, hint) := choosePivot_func less data a b
      let (data, pivot, hint) :=
        if hint = .decreasingHint then
          (reverseRange_func data a b, (b - 1) - (pivot - a), sortedHint.increasingHint)
        else (data, pivot, hint)
      let (data, sorted) ←
        if wasBalanced && wasPartitioned && hint = .increasingHint then
          partialInsertionSort_func less data a b
        else some (data, false)
      if sorted then some data
      else if a > 0 ∧ lessAt less data (a - 1) pivot = false then do
        let (data, mid) ← partitionEqual_func less data a b pivot
        pdqsort_loop next less fuel data mid b limit wasBalanced wasPartitioned
      else do
        let (data, mid, alreadyPartitioned) ← partition_func less data a b pivot
        let leftLen := mid - a
        let rightLen := b - mid
        let balanceThreshold := length / 8
        if leftLen < rightLen then do
          let data ← pdqsort_loop next less fuel data a mid limit true true
          pdqsort_loop next less fuel data (mid + 1) b limit
            (decide (leftLen ≥ balanceThreshold)) alreadyPartitioned
        else do
          let data ← pdqsort_loop next less fuel data (mid + 1) b limit true true
          pdqsort_loop next less fuel data a mid limit
            (decide (rightLen ≥ balanceThreshold)) alreadyPartitioned

/-- The function `sort.Slice(x, less)`: `none` only if the fuel ran out. -/
def Slice {α : Type} (next : Nat → Nat) (less : α → α → Bool) (x : List α) : Option (List α) :=
  let length := x.length
  let limit := bitsLen length length
  pdqsort_loop next less (length + 1) x 0 length limit true true

/-- The sort `sort.Slice` as a function on slices of `TableInfo`. -/
def goSortSlice (next : Nat → Nat) (less : TableInfo → TableInfo → Bool) (l : List TableInfo) :
    List TableInfo :=
  (Slice next less l).getD l

/-! ## Notions used in the statements about `sort.Slice` -/

/-- Every element of `data[a:b]` satisfies `P`. -/
def RangeAll {α : Type} (P : α → Prop) (data : List α) (a b : Nat) : Prop :=
  ∀ k x, a ≤ k → k < b → data[k]? = some x → P x

/-- The slice `data[a:b]` is in order: no element is `less` than one standing
before it. -/
def RangeSorted {α : Type} (less : α → α → Bool) (data : List α) (a b : Nat) : Prop :=
  ∀ i j x y, a ≤ i → i < j → j < b → data[i]? = some x → data[j]? = some y → less y x = false

/-- No element of `data[a:b]` is `less` than an element standing before
index `a`. -/
def RangeAbove {α : Type} (less : α → α → Bool) (data : List α) (a b : Nat) : Prop :=
  ∀ k x, k < a → data[k]? = some x → RangeAll (fun y => less y x = false) data a b

/-- The slice `after` is `before` rearranged inside `[a, b)`: the same elements
overall, nothing moved outside the range, and whatever holds of all elements
of the range before holds of all of them after. -/
structure Rearranged {α : Type} (before after : List α) (a b : Nat) : Prop where
  perm : after.Perm before
  frame : ∀ k, k < a ∨ b ≤ k → after[k]? = before[k]?
  inside : ∀ P : α → Prop, RangeAll P before a b → RangeAll P after a b

/-- The slice `data[a:b]` is partitioned around the element `pv` standing at
index `mid`: the elements before it are less than `pv`, the elements after it
are not. -/
structure Partitioned {α : Type} (less : α → α → Bool) (data : List α) (a b mid : Nat) (pv : α) :
    Prop where
  mid_ge : a ≤ mid
  mid_lt : mid < b
  pivot : data[mid]? = some pv
  left : RangeAll (fun x => less x pv = true) data a mid
  right : RangeAll (fun x => less x pv = false) data (mid + 1) b

/-- In the heap `data[first : first + n]`, whose node `k` has its children at
`2k + 1` and `2k + 2`: the element at node `k` is not less than the elements
at its children. -/
def HeapAt {α : Type} (less : α → α → Bool) (data : List α) (first n k : Nat) : Prop :=
  ∀ c x y, c = 2 * k + 1 ∨ c = 2 * k + 2 → c < n →
    data[first + k]? = some x → data[first + c]? = some y → less x y = false

/-! ## `main` -/

/-- An argument of a `Printf`-style call, before formatting. -/
inductive Arg where
  | str (s : String)
  | int (n : Int)
  | time (t : Int)
  | err (e : GoError)
deriving DecidableEq, Repr

/-- What `main` does that can be observed from outside, in order. -/
inductive Event where
  | printf (format : String) (args : List Arg)
  | println (line : String)
  | fatalf (format : String) (args : List Arg)
  | runtimePanic (text : String)
  | newClient (projectID keyPath : String)
  | call (c : Call)
deriving DecidableEq, Repr

/-- The events of a run of `main` and the status the process exits with
(`os.Exit(1)` and `log.Fatalf` give 1, a run-time panic 2, a return 0). -/
structure MainRun where
  events : List Event
  exitCode : Nat
deriving DecidableEq, Repr

/-- What `main` is started in: the client constructor
`bigquery.NewClient(ctx, projectID, option.WithCredentialsFile(keyPath))`,
the library sort, and the order in which `range` visits the keys of a map
(not fixed by the language). -/
structure Env where
  NewClient : String → String → Except GoError Client
  sortSlice : (TableInfo → TableInfo → Bool) → List TableInfo → List TableInfo
  rangeOrder : List String → List String

/-- The lines 81-83 of `main`: one line per schema column. -/
def printSchema (schema : List FieldSchema) : List Event :=
  schema.map fun f =>
    .printf "        %-20s: %s, Description=%s\n" [.str f.Name, .str f.FieldType, .str f.Description]

/-- The lines 65-84 of `main`: the table lines of one dataset.  `some code`
is a fatal exit. -/
def printTables (client : Client) (datasetID : String) :
    List TableInfo → List Event × Option Nat
  | [] => ([], none)
  | table :: rest =>
    let partitionedStatus :=
      if table.IsPartitioned then "Partitioned (" ++ table.PartitioningType ++ ")"
      else "Not Partitioned"
    let materializedStatus := if table.IsMaterialized then ", Materialized" else ""
    let line := Event.printf "  %35v, %12d, %s, %s%s\n"
      [.time table.LastModifiedTime, .int table.NumRows, .str table.TableID,
        .str partitionedStatus, .str materializedStatus]
    let fetch := Event.call
      (.metadata datasetID table.TableID (metadataFailure (client.TableMetadata datasetID table.TableID)))
    match client.TableMetadata datasetID table.TableID with
    | .error err => ([line, fetch, .fatalf "Failed to get table metadata: %v" [.err err]], some 1)
    | .ok md =>
      let (events, code) := printTables client datasetID rest
      ([line, fetch] ++ printSchema md.Schema ++ events, code)

/-- The lines 63-85 of `main`: the report, dataset by dataset, in the order
`range` visits the keys. -/
def printDatasets (client : Client) (datasets : GoMap) : List String → List Event × Option Nat
  | [] => ([], none)
  | datasetID :: rest =>
    let tables := (datasets.get datasetID).getD []
    let header := Event.printf "\nDataset: %s, Tables: %d\n" [.str datasetID, .int tables.length]
    match printTables client datasetID tables with
    | (events, some code) => (header :: events, some code)
    | (events, none) =>
      let (more, code) := printDatasets client datasets rest
      (header :: events ++ more, code)

/-- The constant `maxTables` of `main`. -/
def maxTables : Int := 100

/-- The function `main`, given `os.Args` and the environment. -/
def main (osArgs : List String) (env : Env) : MainRun :=
  match osArgs with
  | [_, projectID, keyPath] =>
    if !stringsContains keyPath projectID then
      { events := [.fatalf
          "The project ID %s does not appear in the key path %s (and is usually an error)"
          [.str projectID, .str keyPath]]
        exitCode := 1 }
    else
      match env.NewClient projectID keyPath with
      | .error err =>
        { events := [.newClient projectID keyPath,
            .fatalf "Failed to create bigquery client: %v" [.err err]]
          exitCode := 1 }
      | .ok client =>
        let run := listTablesByDataset env.sortSlice client maxTables
        match run.result with
        | .error err =>
          { events := .newClient projectID keyPath :: run.calls.map Event.call
              ++ [.fatalf "Failed to list tables: %v" [.err err]]
            exitCode := 1 }
        | .ok datasets =>
          let (report, code) := printDatasets client datasets (env.rangeOrder datasets.keys)
          { events := .newClient projectID keyPath :: run.calls.map Event.call
              ++ .printf "Project: %s\n\n" [.str projectID] :: report
            exitCode := code.getD 0 }
  | [] =>
    { events := [.runtimePanic "index out of range [0] with length 0"], exitCode := 2 }
  | program :: _ =>
    { events := [.printf "Usage: %s <projectID> <keyPath>" [.str program],
        .println "",
        .println "Given a Bigquery projectID, list the tables for all datasets accessible by the given credentials"]
      exitCode := 1 }

/-! ## Notions used in the statements -/

/-- The record `info` is the one the loop builds for the pager reply `r` of
dataset `datasetID`: `r` is a table whose metadata fetch succeeded, and
`info` is made from that table and that metadata. -/
def builtFrom (datasetID : String) (r : NextResult Table) (info : TableInfo) : Prop :=
  ∃ table md, r = .item table ∧ table.Metadata = .ok md
    ∧ info = mkTableInfo datasetID table.TableID md

/-- Whether a call is a metadata fetch. -/
def Call.isMetadata : Call → Bool
  | .metadata _ _ _ => true
  | _ => false

/-! ## Inputs used in the examples -/

/-- Metadata of an unpartitioned base table last modified at `t`. -/
def plainMetadata (t : Int) : TableMetadata :=
  { LastModifiedTime := t
    NumRows := 0
    TimePartitioning := none
    RangePartitioning := none
    TableType := "TABLE"
    Schema := [] }

/-- A pager reply: table `id`, whose metadata fetch succeeds. -/
def tableAt (id : String) (t : Int) : NextResult Table :=
  .item { TableID := id, Metadata := .ok (plainMetadata t) }

/-- A pager reply: table `id`, whose metadata fetch fails with `err`. -/
def tableFailing (id : String) (err : GoError) : NextResult Table :=
  .item { TableID := id, Metadata := .error err }

/-- A client whose dataset pager gives the listed replies. -/
def clientOf (datasets : List (NextResult Dataset)) : Client :=
  { Datasets := datasets, TableMetadata := fun _ _ => .ok (plainMetadata 0) }

/-- The instant `T0` of the scenarios. -/
def T0 : Int := 1700000000

/-- One hour, in the unit of the instants. -/
def hour : Int := 3600

/-- Scenarios 1 and 2 together: `alpha_test` next to `alpha`, whose tables
are `t1` at `T0` and `t2` at `T0 + 1h`. -/
def scenarioAlpha : Client :=
  clientOf
    [.item { DatasetID := "alpha_test", Tables := [tableAt "x" T0] },
     .item { DatasetID := "alpha", Tables := [tableAt "t1" T0, tableAt "t2" (T0 + hour)] }]

/-- A dataset `empty` without tables, listed after `alpha_test`. -/
def scenarioEmpty : Client :=
  clientOf
    [.item { DatasetID := "alpha_test", Tables := [tableAt "x" T0] },
     .item { DatasetID := "empty", Tables := [] }]

/-- Metadata last modified at `t` with the given partitioning descriptors. -/
def metadataWith (t : Int) (tp : Option TimePartitioning) (rp : Option RangePartitioning) :
    TableMetadata :=
  { LastModifiedTime := t
    NumRows := 7
    TimePartitioning := tp
    RangePartitioning := rp
    TableType := "TABLE"
    Schema := [] }

/-- A dataset `beta` with one table of each partitioning kind, all last
modified at `T0`. -/
def scenarioPartitioned : Client :=
  clientOf
    [.item { DatasetID := "beta", Tables :=
      [.item { TableID := "byTime",
               Metadata := .ok (metadataWith T0 (some { Field := "day" }) none) },
       .item { TableID := "byRange",
               Metadata := .ok (metadataWith T0 none (some { Field := "id" })) },
       .item { TableID := "both",
               Metadata := .ok (metadataWith T0 (some { Field := "day" }) (some { Field := "id" })) },
       .item { TableID := "plain", Metadata := .ok (metadataWith T0 none none) }] }]

/-- The records of the tables of `beta`, in pager order. -/
def scenarioPartitionedInfos : List TableInfo :=
  [mkTableInfo "beta" "byTime" (metadataWith T0 (some { Field := "day" }) none),
   mkTableInfo "beta" "byRange" (metadataWith T0 none (some { Field := "id" })),
   mkTableInfo "beta" "both" (metadataWith T0 (some { Field := "day" }) (some { Field := "id" })),
   mkTableInfo "beta" "plain" (metadataWith T0 none none)]

/-- Scenario 5: the metadata fetch for the second table of `alpha` fails; a
third table and a further dataset would follow. -/
def scenarioMetadataFails : Client :=
  clientOf
    [.item { DatasetID := "first", Tables := [tableAt "a" T0] },
     .item { DatasetID := "alpha", Tables :=
       [tableAt "t1" T0, tableFailing "t2" (.cause "permission denied"), tableAt "t3" T0] },
     .item { DatasetID := "omega", Tables := [tableAt "z" T0] }]

/-- A dataset `gamma` with four tables, followed by a dataset `delta`. -/
def scenarioCapReached : Client :=
  clientOf
    [.item { DatasetID := "gamma", Tables :=
       [tableAt "g1" T0, tableAt "g2" T0, tableAt "g3" T0, tableAt "g4" T0] },
     .item { DatasetID := "delta", Tables := [tableAt "d1" T0] }]

/-- A dataset `alpha` whose table pager gives one table and then fails,
followed by a dataset `omega`. -/
def scenarioPagerFailsAfterCap : Client :=
  clientOf
    [.item { DatasetID := "alpha", Tables :=
       [tableAt "t1" T0, .failure (.cause "backend error")] },
     .item { DatasetID := "omega", Tables := [tableAt "z" T0] }]

/-- A generator step for the examples: slices this short do not reach
`breakPatterns_func`. -/
def stepIdentity : Nat → Nat := fun r => r

/-- An environment in which client construction succeeds with `client`. -/
def envOf (client : Client) : Env :=
  { NewClient := fun _ _ => .ok client
    sortSlice := goSortSlice stepIdentity
    rangeOrder := id }

/-- The record of table `id` of dataset `alpha`, last modified at `t`. -/
def alphaInfo (id : String) (t : Int) : TableInfo :=
  mkTableInfo "alpha" id (plainMetadata t)

/-- A dataset `alpha` with three tables, the first and the third last
modified at the same instant. -/
def scenarioTies : Client :=
  clientOf
    [.item { DatasetID := "alpha", Tables :=
       [tableAt "t1" T0, tableAt "t2" (T0 + hour), tableAt "t3" T0] }]

/-- Thirteen tables: `t1` ... `t12` last modified at `T0`, `t13` an hour
later. -/
def thirteenTables : List (NextResult Table) :=
  [tableAt "t1" T0, tableAt "t2" T0, tableAt "t3" T0, tableAt "t4" T0, tableAt "t5" T0,
   tableAt "t6" T0, tableAt "t7" T0, tableAt "t8" T0, tableAt "t9" T0, tableAt "t10" T0,
   tableAt "t11" T0, tableAt "t12" T0, tableAt "t13" (T0 + hour)]

/-- A dataset `alpha` with the thirteen tables. -/
def scenarioThirteen : Client :=
  clientOf [.item { DatasetID := "alpha", Tables := thirteenTables }]

/-- The records of the thirteen tables, in enumeration order. -/
def thirteenInfos : List TableInfo :=
  [alphaInfo "t1" T0, alphaInfo "t2" T0, alphaInfo "t3" T0, alphaInfo "t4" T0,
   alphaInfo "t5" T0, alphaInfo "t6" T0, alphaInfo "t7" T0, alphaInfo "t8" T0,
   alphaInfo "t9" T0, alphaInfo "t10" T0, alphaInfo "t11" T0, alphaInfo "t12" T0,
   alphaInfo "t13" (T0 + hour)]

/-- The order in which `sort.Slice` leaves the thirteen records. -/
def thirteenSorted : List TableInfo :=
  [alphaInfo "t13" (T0 + hour), alphaInfo "t7" T0, alphaInfo "t3" T0, alphaInfo "t4" T0,
   alphaInfo "t5" T0, alphaInfo "t6" T0, alphaInfo "t1" T0, alphaInfo "t8" T0,
   alphaInfo "t9" T0, alphaInfo "t10" T0, alphaInfo "t11" T0, alphaInfo "t12" T0,
   alphaInfo "t2" T0]

/-! # Theorems -/

/-! ## `strings.Contains` -/

theorem containsChars_iff (substr s : List Char) :
    containsChars substr s = true ↔ ∃ before rest, s = before ++ substr ++ rest := by
  induction s with
  | nil =>
    simp only [containsChars, List.isEmpty_iff]
    constructor
    · intro h; exact ⟨[], [], by simp [h]⟩
    · rintro ⟨before, rest, h⟩
      have h1 := congrArg List.length h
      simp only [List.length_nil, List.length_append] at h1
      exact List.length_eq_zero.mp (by omega)
  | cons c cs ih =>
    simp only [containsChars, Bool.or_eq_true, List.isPrefixOf_iff_prefix, ih]
    constructor
    · rintro (⟨rest, h⟩ | ⟨before, rest, h⟩)
      · exact ⟨[], rest, by simpa using h.symm⟩
      · exact ⟨c :: before, rest, by simp [h]⟩
    · rintro ⟨before, rest, h⟩
      cases before with
      | nil => exact Or.inl ⟨rest, by simpa using h.symm⟩
      | cons b before =>
        simp only [List.cons_append, List.cons.injEq] at h
        exact Or.inr ⟨before, rest, h.2⟩

/-! ## The map -/

theorem GoMap.get_set_self (m : GoMap) (k : String) (v : List TableInfo) :
    (m.set k v).get k = some v := by
  induction m with
  | nil => simp [GoMap.set, GoMap.get]
  | cons e rest ih =>
    obtain ⟨k0, v0⟩ := e
    by_cases h : k0 = k
    · simp [GoMap.set, GoMap.get, h]
    · simp [GoMap.set, GoMap.get, h, ih]

theorem GoMap.get_set_other (m : GoMap) (k k1 : String) (v : List TableInfo) (h : k ≠ k1) :
    (m.set k v).get k1 = m.get k1 := by
  induction m with
  | nil => simp [GoMap.set, GoMap.get, h]
  | cons e rest ih =>
    obtain ⟨k0, v0⟩ := e
    by_cases h0 : k0 = k
    · subst h0; simp [GoMap.set, GoMap.get, h]
    · by_cases h1 : k0 = k1
      · subst h1; simp [GoMap.set, GoMap.get, h0]
      · simp [GoMap.set, GoMap.get, h0, h1, ih]

theorem GoMap.mem_keys_iff (m : GoMap) (k : String) : k ∈ m.keys ↔ (m.get k).isSome = true := by
  induction m with
  | nil => simp [GoMap.keys, GoMap.get]
  | cons e rest ih =>
    obtain ⟨k0, v0⟩ := e
    by_cases h : k0 = k
    · simp [GoMap.keys, GoMap.get, h]
    · have h2 : ¬ k = k0 := fun e => h e.symm
      simp only [GoMap.keys] at ih
      simp [GoMap.keys, GoMap.get, h, h2, ih]

theorem GoMap.keys_set_nodup (m : GoMap) (k : String) (v : List TableInfo)
    (h : m.keys.Nodup) : (m.set k v).keys.Nodup := by
  induction m with
  | nil => simp [GoMap.set, GoMap.keys]
  | cons e rest ih =>
    obtain ⟨k0, v0⟩ := e
    simp only [GoMap.keys, List.map_cons, List.nodup_cons] at h
    by_cases h0 : k0 = k
    · subst h0
      simpa [GoMap.set, GoMap.keys] using h
    · have hk : k0 ∉ (GoMap.set rest k v).keys := by
        rw [GoMap.mem_keys_iff, GoMap.get_set_other _ _ _ _ (fun e => h0 e.symm),
          ← GoMap.mem_keys_iff]
        exact h.1
      simp only [GoMap.set, h0, if_false, GoMap.keys, List.map_cons, List.nodup_cons]
      exact ⟨hk, ih h.2⟩

/-! ## The comparison and the sort -/

theorem lessByLastModified_order : LessOrder lessByLastModified := by
  constructor
  · intro a b h
    simp only [lessByLastModified, After, decide_eq_true_eq, decide_eq_false_iff_not] at *
    omega
  · intro a b c h1 h2
    simp only [lessByLastModified, After, decide_eq_true_eq] at *
    omega
  · intro a b c h1 h2
    simp only [lessByLastModified, After, decide_eq_false_iff_not] at *
    omega

/-! ## The table loop -/

theorem tablesLoop_nil (d : String) (cap : Int) (acc : List TableInfo) :
    tablesLoop d [] cap acc = { calls := [.tablesNext d .done], result := .ok acc } := by
  simp [tablesLoop]

theorem tablesLoop_capped (d : String) (r : NextResult Table) (rest : List (NextResult Table))
    (cap : Int) (acc : List TableInfo) (h : cap < 0) :
    tablesLoop d (r :: rest) cap acc
      = { calls := [.tablesNext d (tableReply r)], result := .ok acc } := by
  simp [tablesLoop, Run.after, h]

theorem tablesLoop_failure (d : String) (err : GoError) (rest : List (NextResult Table))
    (cap : Int) (acc : List TableInfo) (h : 0 ≤ cap) :
    tablesLoop d (.failure err :: rest) cap acc
      = { calls := [.tablesNext d (.failure err)],
          result := .error (err.withMessage "Failed to get next table") } := by
  have h1 : ¬ cap < 0 := by omega
  simp [tablesLoop, Run.after, h1, tableReply]

theorem tablesLoop_metadata_error (d : String) (table : Table) (err : GoError)
    (rest : List (NextResult Table)) (cap : Int) (acc : List TableInfo) (h : 0 ≤ cap)
    (hm : table.Metadata = .error err) :
    tablesLoop d (.item table :: rest) cap acc
      = { calls := [.tablesNext d (.item table.TableID), .metadata d table.TableID (some err)],
          result := .error (err.withMessage "Failed to get table metadata") } := by
  have h1 : ¬ cap < 0 := by omega
  simp [tablesLoop, Run.after, h1, tableReply, hm, metadataFailure]

theorem tablesLoop_item (d : String) (table : Table) (md : TableMetadata)
    (rest : List (NextResult Table)) (cap : Int) (acc : List TableInfo) (h : 0 ≤ cap)
    (hm : table.Metadata = .ok md) :
    tablesLoop d (.item table :: rest) cap acc
      = Run.after (.tablesNext d (.item table.TableID))
          (Run.after (.metadata d table.TableID none)
            (tablesLoop d rest (cap - 1) (acc ++ [mkTableInfo d table.TableID md]))) := by
  have h1 : ¬ cap < 0 := by omega
  simp [tablesLoop, Run.after, h1, tableReply, hm, metadataFailure]

/-- The five ways one iteration of the table loop can go. -/
theorem tablesLoop_cases (d : String) (tables : List (NextResult Table)) (cap : Int)
    (acc : List TableInfo) :
    (tables = [] ∧ tablesLoop d tables cap acc
        = { calls := [.tablesNext d .done], result := .ok acc })
    ∨ (∃ r rest, tables = r :: rest ∧ cap < 0 ∧ tablesLoop d tables cap acc
        = { calls := [.tablesNext d (tableReply r)], result := .ok acc })
    ∨ (∃ err rest, tables = .failure err :: rest ∧ 0 ≤ cap ∧ tablesLoop d tables cap acc
        = { calls := [.tablesNext d (.failure err)],
            result := .error (err.withMessage "Failed to get next table") })
    ∨ (∃ table err rest, tables = .item table :: rest ∧ 0 ≤ cap ∧ table.Metadata = .error err
        ∧ tablesLoop d tables cap acc
        = { calls := [.tablesNext d (.item table.TableID), .metadata d table.TableID (some err)],
            result := .error (err.withMessage "Failed to get table metadata") })
    ∨ (∃ table md rest, tables = .item table :: rest ∧ 0 ≤ cap ∧ table.Metadata = .ok md
        ∧ tablesLoop d tables cap acc
        = Run.after (.tablesNext d (.item table.TableID))
            (Run.after (.metadata d table.TableID none)
              (tablesLoop d rest (cap - 1) (acc ++ [mkTableInfo d table.TableID md])))) := by
  cases tables with
  | nil => exact Or.inl ⟨rfl, tablesLoop_nil d cap acc⟩
  | cons r rest =>
    right
    by_cases h : cap < 0
    · exact Or.inl ⟨r, rest, rfl, h, tablesLoop_capped d r rest cap acc h⟩
    · have h0 : 0 ≤ cap := by omega
      right
      cases r with
      | failure err => exact Or.inl ⟨err, rest, rfl, h0, tablesLoop_failure d err rest cap acc h0⟩
      | item table =>
        right
        cases hm : table.Metadata with
        | error err =>
          exact Or.inl ⟨table, err, rest, rfl, h0, hm,
            tablesLoop_metadata_error d table err rest cap acc h0 hm⟩
        | ok md =>
          exact Or.inr ⟨table, md, rest, rfl, h0, hm, tablesLoop_item d table md rest cap acc h0 hm⟩

/-- On success the loop has appended, to what it started with, the records of
the first `cap + 1` replies (or of all of them, if there are fewer), each a
table whose metadata fetch succeeded, in pager order. -/
theorem tablesLoop_ok (d : String) (tables : List (NextResult Table)) :
    ∀ (cap : Int) (acc out : List TableInfo),
      (tablesLoop d tables cap acc).result = .ok out →
      ∃ recs, out = acc ++ recs
        ∧ List.Forall₂ (builtFrom d) (tables.take (cap + 1).toNat) recs := by
  induction tables with
  | nil =>
    intro cap acc out h
    simp only [tablesLoop_nil, Except.ok.injEq] at h
    exact ⟨[], by simp [h], by simp⟩
  | cons r rest ih =>
    intro cap acc out h
    rcases tablesLoop_cases d (r :: rest) cap acc with
      ⟨hn, _⟩ | ⟨r1, rest1, _, hc, e⟩ | ⟨err, rest1, _, _, e⟩ | ⟨t, err, rest1, _, _, _, e⟩
      | ⟨t, md, rest1, ht, hc, hm, e⟩
    · cases hn
    · rw [e] at h
      simp only [Except.ok.injEq] at h
      have hz : (cap + 1).toNat = 0 := by omega
      exact ⟨[], by simp [h], by simp [hz]⟩
    · rw [e] at h; cases h
    · rw [e] at h; cases h
    · rw [e] at h
      simp only [Run.after] at h
      cases ht
      obtain ⟨recs, hout, hall⟩ := ih (cap - 1) _ out h
      refine ⟨mkTableInfo d t.TableID md :: recs, by simp [hout], ?_⟩
      have hs : (cap + 1).toNat = (cap - 1 + 1).toNat + 1 := by omega
      rw [hs, List.take_succ_cons]
      exact List.Forall₂.cons ⟨t, md, rfl, hm, rfl⟩ hall

theorem metadataCount_step (d tid : String) (reply : Reply) (failed : Option GoError)
    (l : List Call) :
    ((Call.tablesNext d reply :: Call.metadata d tid failed :: l).filter Call.isMetadata).length
      = (l.filter Call.isMetadata).length + 1 := by
  simp [List.filter, Call.isMetadata]

/-- The loop fetches metadata at most `cap + 1` times, whatever the pager
and the fetches answer. -/
theorem tablesLoop_metadata_count (d : String) (tables : List (NextResult Table)) :
    ∀ (cap : Int) (acc : List TableInfo),
      ((tablesLoop d tables cap acc).calls.filter Call.isMetadata).length ≤ (cap + 1).toNat := by
  induction tables with
  | nil => intro cap acc; simp [tablesLoop_nil, Call.isMetadata]
  | cons r rest ih =>
    intro cap acc
    rcases tablesLoop_cases d (r :: rest) cap acc with
      ⟨hn, _⟩ | ⟨r1, rest1, _, hc, e⟩ | ⟨err, rest1, _, _, e⟩ | ⟨t, err, rest1, _, hc, _, e⟩
      | ⟨t, md, rest1, ht, hc, hm, e⟩
    · cases hn
    · rw [e]; simp [Call.isMetadata]
    · rw [e]; simp [Call.isMetadata]
    · rw [e]; simp [Call.isMetadata]; omega
    · rw [e]
      cases ht
      have := ih (cap - 1) (acc ++ [mkTableInfo d t.TableID md])
      simp only [Run.after, metadataCount_step]
      omega

/-- On success every fetched table is recorded and every recorded table was
fetched: the number of metadata calls is the number of records added. -/
theorem tablesLoop_metadata_count_ok (d : String) (tables : List (NextResult Table)) :
    ∀ (cap : Int) (acc out : List TableInfo),
      (tablesLoop d tables cap acc).result = .ok out →
      ((tablesLoop d tables cap acc).calls.filter Call.isMetadata).length + acc.length
        = out.length := by
  induction tables with
  | nil =>
    intro cap acc out h
    simp only [tablesLoop_nil, Except.ok.injEq] at h
    simp [tablesLoop_nil, Call.isMetadata, h]
  | cons r rest ih =>
    intro cap acc out h
    rcases tablesLoop_cases d (r :: rest) cap acc with
      ⟨hn, _⟩ | ⟨r1, rest1, _, hc, e⟩ | ⟨err, rest1, _, _, e⟩ | ⟨t, err, rest1, _, hc, _, e⟩
      | ⟨t, md, rest1, ht, hc, hm, e⟩
    · cases hn
    · rw [e] at h ⊢
      simp only [Except.ok.injEq] at h
      simp [Call.isMetadata, h]
    · rw [e] at h; cases h
    · rw [e] at h; cases h
    · rw [e] at h ⊢
      cases ht
      simp only [Run.after] at h
      have := ih (cap - 1) (acc ++ [mkTableInfo d t.TableID md]) out h
      simp only [Run.after, metadataCount_step]
      simp only [List.length_append, List.length_singleton] at this
      omega

/-- A failed metadata fetch ends the table loop at once, with the wrapped
error. -/
theorem tablesLoop_metadata_failed (d : String) (tables : List (NextResult Table)) :
    ∀ (cap : Int) (acc : List TableInfo) (ds tid : String) (err : GoError),
      Call.metadata ds tid (some err) ∈ (tablesLoop d tables cap acc).calls →
      (tablesLoop d tables cap acc).result
          = .error (err.withMessage "Failed to get table metadata")
        ∧ ∃ before, (tablesLoop d tables cap acc).calls
            = before ++ [Call.metadata ds tid (some err)]
          ∧ ∀ c ∈ before, ∀ ds1 tid1 err1, c ≠ Call.metadata ds1 tid1 (some err1) := by
  induction tables with
  | nil => intro cap acc ds tid err h; simp [tablesLoop_nil] at h
  | cons r rest ih =>
    intro cap acc ds tid err h
    rcases tablesLoop_cases d (r :: rest) cap acc with
      ⟨hn, _⟩ | ⟨r1, rest1, _, hc, e⟩ | ⟨err1, rest1, _, _, e⟩ | ⟨t, err1, rest1, _, hc, _, e⟩
      | ⟨t, md, rest1, ht, hc, hm, e⟩
    · cases hn
    · rw [e] at h; simp at h
    · rw [e] at h; simp at h
    · rw [e] at h ⊢
      simp only [List.mem_cons, Call.metadata.injEq, Option.some.injEq,
        false_or, List.not_mem_nil, or_false] at h
      rcases h with h | ⟨h1, h2, h3⟩
      · cases h
      subst h1 h2 h3
      refine ⟨rfl, [.tablesNext ds (.item t.TableID)], rfl, ?_⟩
      intro c hc1 ds1 tid1 err2
      simp only [List.mem_singleton] at hc1
      subst hc1
      simp
    · rw [e] at h ⊢
      cases ht
      simp only [Run.after, List.mem_cons, false_or, Call.metadata.injEq] at h
      have h2 : Call.metadata ds tid (some err)
          ∈ (tablesLoop d rest (cap - 1) (acc ++ [mkTableInfo d t.TableID md])).calls := by
        rcases h with h | h | h
        · cases h
        · exact absurd h.2.2 (by simp)
        · exact h
      obtain ⟨hr, before, hcalls, hb⟩ := ih (cap - 1) _ ds tid err h2
      refine ⟨hr, .tablesNext d (.item t.TableID) :: .metadata d t.TableID none :: before, ?_, ?_⟩
      · simp [Run.after, hcalls]
      · intro c hc1 ds1 tid1 err2
        simp only [List.mem_cons] at hc1
        rcases hc1 with hc1 | hc1 | hc1
        · subst hc1; simp
        · subst hc1; simp
        · exact hb c hc1 ds1 tid1 err2

/-- When the pager has `cap + 1` good tables in front, the loop records
exactly those, asks the pager once more, and ends normally whatever that
last call and the rest of the pager answer. -/
theorem tablesLoop_cap_reached (d : String) (front : List (NextResult Table)) :
    ∀ (back : List (NextResult Table)) (cap : Int) (acc recs : List TableInfo),
      front.length = (cap + 1).toNat →
      List.Forall₂ (builtFrom d) front recs →
      (tablesLoop d (front ++ back) cap acc).result = .ok (acc ++ recs)
        ∧ ((tablesLoop d (front ++ back) cap acc).calls.filter Call.isMetadata).length
            = front.length
        ∧ (tablesLoop d (front ++ back) cap acc).calls.getLast?
            = some (.tablesNext d (match back.head? with
                | none => .done
                | some r => tableReply r)) := by
  induction front with
  | nil =>
    intro back cap acc recs hlen hall
    cases hall
    have hc : cap < 0 := by simp at hlen; omega
    cases back with
    | nil => simp [tablesLoop_nil, Call.isMetadata]
    | cons r rest => simp [tablesLoop_capped d r rest cap acc hc, Call.isMetadata]
  | cons r front ih =>
    intro back cap acc recs hlen hall
    cases hall with
    | cons hr hrest =>
      obtain ⟨t, md, hrt, hm, hinfo⟩ := hr
      subst hrt hinfo
      have hc : 0 ≤ cap := by simp at hlen; omega
      have hlen1 : front.length = (cap - 1 + 1).toNat := by simp at hlen ⊢; omega
      obtain ⟨h1, h2, h3⟩ := ih back (cap - 1) (acc ++ [mkTableInfo d t.TableID md]) _ hlen1 hrest
      rw [List.cons_append, tablesLoop_item d t md _ cap acc hc hm]
      refine ⟨by simpa [Run.after] using h1, ?_, ?_⟩
      · simp only [Run.after, metadataCount_step, h2, List.length_cons]
      · simp only [Run.after]
        rw [List.getLast?_cons_cons, List.getLast?_cons]
        rw [h3]
        simp

/-! ## The dataset loop -/

theorem Run.andThen_result_ok {α β : Type} (r : Run α) (f : α → Run β) (b : β) :
    (r.andThen f).result = .ok b ↔ ∃ a, r.result = .ok a ∧ (f a).result = .ok b := by
  unfold Run.andThen
  cases h : r.result with
  | error err => simp
  | ok a => simp

theorem Run.andThen_ok {α β : Type} (r : Run α) (f : α → Run β) (a : α)
    (h : r.result = .ok a) :
    r.andThen f = { calls := r.calls ++ (f a).calls, result := (f a).result } := by
  unfold Run.andThen
  rw [h]

theorem Run.andThen_error {α β : Type} (r : Run α) (f : α → Run β) (err : GoError)
    (h : r.result = .error err) :
    r.andThen f = { calls := r.calls, result := .error err } := by
  unfold Run.andThen
  rw [h]

theorem datasetsLoop_nil
    (sortSlice : (TableInfo → TableInfo → Bool) → List TableInfo → List TableInfo)
    (cap : Int) (acc : GoMap) :
    datasetsLoop sortSlice cap [] acc = { calls := [.datasetsNext .done], result := .ok acc } := by
  simp [datasetsLoop]

theorem datasetsLoop_failure
    (sortSlice : (TableInfo → TableInfo → Bool) → List TableInfo → List TableInfo)
    (cap : Int) (err : GoError) (rest : List (NextResult Dataset)) (acc : GoMap) :
    datasetsLoop sortSlice cap (.failure err :: rest) acc
      = { calls := [.datasetsNext (.failure err)],
          result := .error (err.withMessage "Failed to get next dataset") } := by
  simp [datasetsLoop, Run.after, datasetReply]

theorem datasetsLoop_skip
    (sortSlice : (TableInfo → TableInfo → Bool) → List TableInfo → List TableInfo)
    (cap : Int) (d : Dataset) (rest : List (NextResult Dataset)) (acc : GoMap)
    (h : stringsContains d.DatasetID "_test" = true) :
    datasetsLoop sortSlice cap (.item d :: rest) acc
      = Run.after (.datasetsNext (.item d.DatasetID)) (datasetsLoop sortSlice cap rest acc) := by
  simp [datasetsLoop, datasetReply, h]

theorem datasetsLoop_visit
    (sortSlice : (TableInfo → TableInfo → Bool) → List TableInfo → List TableInfo)
    (cap : Int) (d : Dataset) (rest : List (NextResult Dataset)) (acc : GoMap)
    (h : stringsContains d.DatasetID "_test" = false) :
    datasetsLoop sortSlice cap (.item d :: rest) acc
      = Run.after (.datasetsNext (.item d.DatasetID))
          ((tablesLoop d.DatasetID d.Tables cap []).andThen fun datasetTables =>
            datasetsLoop sortSlice cap rest
              (acc.set d.DatasetID (sortSlice lessByLastModified datasetTables))) := by
  simp [datasetsLoop, datasetReply, h]

/-- What a successful run of the dataset loop over `r :: rest` went through. -/
theorem datasetsLoop_ok_cons
    (sortSlice : (TableInfo → TableInfo → Bool) → List TableInfo → List TableInfo)
    (cap : Int) (r : NextResult Dataset) (rest : List (NextResult Dataset)) (acc m : GoMap)
    (h : (datasetsLoop sortSlice cap (r :: rest) acc).result = .ok m) :
    ∃ d, r = .item d ∧
      ((stringsContains d.DatasetID "_test" = true
          ∧ (datasetsLoop sortSlice cap rest acc).result = .ok m)
        ∨ (stringsContains d.DatasetID "_test" = false
          ∧ ∃ out, (tablesLoop d.DatasetID d.Tables cap []).result = .ok out
            ∧ (datasetsLoop sortSlice cap rest
                (acc.set d.DatasetID (sortSlice lessByLastModified out))).result = .ok m)) := by
  cases r with
  | failure err => rw [datasetsLoop_failure] at h; cases h
  | item d =>
    refine ⟨d, rfl, ?_⟩
    cases ht : stringsContains d.DatasetID "_test" with
    | true =>
      rw [datasetsLoop_skip _ _ _ _ _ ht] at h
      exact Or.inl ⟨rfl, h⟩
    | false =>
      rw [datasetsLoop_visit _ _ _ _ _ ht] at h
      simp only [Run.after] at h
      exact Or.inr ⟨rfl, (Run.andThen_result_ok _ _ _).mp h⟩

/-- A property of map entries that holds of the entries present at the start
and of every sorted table list the loop stores holds of all entries at the
end. -/
theorem datasetsLoop_entries
    (sortSlice : (TableInfo → TableInfo → Bool) → List TableInfo → List TableInfo)
    (cap : Int) (P : String → List TableInfo → Prop) (datasets : List (NextResult Dataset)) :
    ∀ (acc m : GoMap),
      (∀ k v, acc.get k = some v → P k v) →
      (∀ d, NextResult.item d ∈ datasets → stringsContains d.DatasetID "_test" = false →
        ∀ out, (tablesLoop d.DatasetID d.Tables cap []).result = .ok out →
          P d.DatasetID (sortSlice lessByLastModified out)) →
      (datasetsLoop sortSlice cap datasets acc).result = .ok m →
      ∀ k v, m.get k = some v → P k v := by
  induction datasets with
  | nil =>
    intro acc m hacc _ h
    simp only [datasetsLoop_nil, Except.ok.injEq] at h
    subst h
    exact hacc
  | cons r rest ih =>
    intro acc m hacc hstep h
    obtain ⟨d, hr, hcase⟩ := datasetsLoop_ok_cons sortSlice cap r rest acc m h
    subst hr
    have hstep1 : ∀ d1, NextResult.item d1 ∈ rest →
        stringsContains d1.DatasetID "_test" = false →
        ∀ out, (tablesLoop d1.DatasetID d1.Tables cap []).result = .ok out →
          P d1.DatasetID (sortSlice lessByLastModified out) :=
      fun d1 hd1 => hstep d1 (List.mem_cons_of_mem _ hd1)
    rcases hcase with ⟨_, hrest⟩ | ⟨ht, out, hout, hrest⟩
    · exact ih acc m hacc hstep1 hrest
    · refine ih _ m ?_ hstep1 hrest
      intro k v hk
      by_cases hkd : d.DatasetID = k
      · subst hkd
        rw [GoMap.get_set_self] at hk
        cases hk
        exact hstep d (List.mem_cons_self _ _) ht out hout
      · rw [GoMap.get_set_other _ _ _ _ hkd] at hk
        exact hacc k v hk

/-- The keys at the end of a successful run of the loop: those present at
the start, and the identifiers of the datasets listed that do not contain
`"_test"`. -/
theorem datasetsLoop_keys
    (sortSlice : (TableInfo → TableInfo → Bool) → List TableInfo → List TableInfo)
    (cap : Int) (datasets : List (NextResult Dataset)) :
    ∀ (acc m : GoMap),
      (datasetsLoop sortSlice cap datasets acc).result = .ok m →
      ∀ k, k ∈ m.keys ↔
        (k ∈ acc.keys ∨ ((∃ d, NextResult.item d ∈ datasets ∧ d.DatasetID = k)
          ∧ stringsContains k "_test" = false)) := by
  induction datasets with
  | nil =>
    intro acc m h k
    simp only [datasetsLoop_nil, Except.ok.injEq] at h
    subst h
    simp
  | cons r rest ih =>
    intro acc m h k
    obtain ⟨d, hr, hcase⟩ := datasetsLoop_ok_cons sortSlice cap r rest acc m h
    subst hr
    rcases hcase with ⟨ht, hrest⟩ | ⟨ht, out, hout, hrest⟩
    · rw [ih acc m hrest k]
      constructor
      · rintro (h1 | ⟨⟨d1, hd1, hk⟩, hn⟩)
        · exact Or.inl h1
        · exact Or.inr ⟨⟨d1, List.mem_cons_of_mem _ hd1, hk⟩, hn⟩
      · rintro (h1 | ⟨⟨d1, hd1, hk⟩, hn⟩)
        · exact Or.inl h1
        · rcases List.mem_cons.mp hd1 with he | hd1
          · cases he
            rw [hk, hn] at ht
            cases ht
          · exact Or.inr ⟨⟨d1, hd1, hk⟩, hn⟩
    · rw [ih _ m hrest k]
      have hset : k ∈ (acc.set d.DatasetID (sortSlice lessByLastModified out)).keys
          ↔ (k ∈ acc.keys ∨ d.DatasetID = k) := by
        rw [GoMap.mem_keys_iff, GoMap.mem_keys_iff]
        by_cases hkd : d.DatasetID = k
        · subst hkd; simp [GoMap.get_set_self]
        · simp [GoMap.get_set_other _ _ _ _ hkd, hkd]
      rw [hset]
      constructor
      · rintro ((h1 | h1) | ⟨⟨d1, hd1, hk⟩, hn⟩)
        · exact Or.inl h1
        · exact Or.inr ⟨⟨d, List.mem_cons_self _ _, h1⟩, h1 ▸ ht⟩
        · exact Or.inr ⟨⟨d1, List.mem_cons_of_mem _ hd1, hk⟩, hn⟩
      · rintro (h1 | ⟨⟨d1, hd1, hk⟩, hn⟩)
        · exact Or.inl (Or.inl h1)
        · rcases List.mem_cons.mp hd1 with he | hd1
          · cases he
            exact Or.inl (Or.inr hk)
          · exact Or.inr ⟨⟨d1, hd1, hk⟩, hn⟩

/-- The loop leaves alone the entry of a key that no listed dataset bears. -/
theorem datasetsLoop_get_other
    (sortSlice : (TableInfo → TableInfo → Bool) → List TableInfo → List TableInfo)
    (cap : Int) (k : String) (datasets : List (NextResult Dataset)) :
    ∀ (acc m : GoMap),
      (∀ d, NextResult.item d ∈ datasets → d.DatasetID ≠ k) →
      (datasetsLoop sortSlice cap datasets acc).result = .ok m →
      m.get k = acc.get k := by
  induction datasets with
  | nil =>
    intro acc m _ h
    simp only [datasetsLoop_nil, Except.ok.injEq] at h
    rw [h]
  | cons r rest ih =>
    intro acc m hne h
    obtain ⟨d, hr, hcase⟩ := datasetsLoop_ok_cons sortSlice cap r rest acc m h
    subst hr
    have hne1 : ∀ d1, NextResult.item d1 ∈ rest → d1.DatasetID ≠ k :=
      fun d1 hd1 => hne d1 (List.mem_cons_of_mem _ hd1)
    rcases hcase with ⟨_, hrest⟩ | ⟨_, out, _, hrest⟩
    · exact ih acc m hne1 hrest
    · rw [ih _ m hne1 hrest]
      exact GoMap.get_set_other _ _ _ _ (hne d (List.mem_cons_self _ _))

/-- The entry of a dataset that is listed, does not contain `"_test"`, and is
not listed again later: the sorted table list of that visit. -/
theorem datasetsLoop_get_visited
    (sortSlice : (TableInfo → TableInfo → Bool) → List TableInfo → List TableInfo)
    (cap : Int) (d : Dataset) (later : List (NextResult Dataset))
    (earlier : List (NextResult Dataset)) :
    ∀ (acc m : GoMap),
      (∀ d1, NextResult.item d1 ∈ later → d1.DatasetID ≠ d.DatasetID) →
      stringsContains d.DatasetID "_test" = false →
      (datasetsLoop sortSlice cap (earlier ++ .item d :: later) acc).result = .ok m →
      ∃ out, (tablesLoop d.DatasetID d.Tables cap []).result = .ok out
        ∧ m.get d.DatasetID = some (sortSlice lessByLastModified out) := by
  induction earlier with
  | nil =>
    intro acc m hlater ht h
    obtain ⟨d1, hr, hcase⟩ := datasetsLoop_ok_cons sortSlice cap _ later acc m h
    cases hr
    rcases hcase with ⟨ht1, _⟩ | ⟨_, out, hout, hrest⟩
    · rw [ht] at ht1; cases ht1
    · refine ⟨out, hout, ?_⟩
      rw [datasetsLoop_get_other sortSlice cap _ later _ m hlater hrest, GoMap.get_set_self]
  | cons r rest ih =>
    intro acc m hlater ht h
    obtain ⟨d1, hr, hcase⟩ := datasetsLoop_ok_cons sortSlice cap r _ acc m h
    rcases hcase with ⟨_, hrest⟩ | ⟨_, out, _, hrest⟩
    · exact ih acc m hlater ht hrest
    · exact ih _ m hlater ht hrest

/-! ## What the sort contract gives -/

theorem After_false_iff (t u : Int) : After t u = false ↔ t ≤ u := by
  simp [After]

theorem sortSlice_sorted_desc
    (sortSlice : (TableInfo → TableInfo → Bool) → List TableInfo → List TableInfo)
    (hsort : SortSliceContract sortSlice) (l : List TableInfo) :
    (sortSlice lessByLastModified l).Pairwise
      (fun a b => a.LastModifiedTime ≥ b.LastModifiedTime) := by
  refine ((hsort lessByLastModified l lessByLastModified_order).2).imp ?_
  intro a b h
  exact (After_false_iff _ _).mp h

theorem sortSlice_nil
    (sortSlice : (TableInfo → TableInfo → Bool) → List TableInfo → List TableInfo)
    (hsort : SortSliceContract sortSlice) :
    sortSlice lessByLastModified [] = [] :=
  List.Perm.eq_nil (hsort lessByLastModified [] lessByLastModified_order).1

theorem sortSlice_pair
    (sortSlice : (TableInfo → TableInfo → Bool) → List TableInfo → List TableInfo)
    (hsort : SortSliceContract sortSlice) (a b : TableInfo)
    (hab : lessByLastModified b a = true) :
    sortSlice lessByLastModified [a, b] = [b, a] := by
  obtain ⟨hp, hs⟩ := hsort lessByLastModified [a, b] lessByLastModified_order
  obtain ⟨x, y, hl⟩ := List.length_eq_two.mp (by simpa using hp.length_eq)
  rw [hl] at hp hs ⊢
  have hxy : lessByLastModified y x = false := by
    simpa using hs
  have hx : x ∈ [a, b] := hp.subset (List.mem_cons_self _ _)
  simp only [List.mem_cons, List.mem_singleton, List.not_mem_nil, or_false] at hx
  rcases hx with hx | hx
  · subst hx
    have hy : y = b := by
      have := hp.cons_inv
      simpa using this.eq_singleton
    subst hy
    rw [hab] at hxy
    cases hxy
  · subst hx
    have hy : y = a := by
      have h2 : [x, y].Perm [x, a] := hp.trans (List.Perm.swap x a [])
      simpa using h2.cons_inv.eq_singleton
    rw [hy]

/-! ## `sort.Slice` returns -/

theorem scanUp_some (p : Nat → Bool) (j : Nat) :
    ∀ (fuel i : Nat), j + 1 ≤ fuel + i → ∃ r, scanUp p j fuel i = some r ∧ i ≤ r := by
  intro fuel
  induction fuel with
  | zero =>
    intro i h
    have : ¬ (i ≤ j ∧ p i = true) := by omega
    exact ⟨i, by simp [scanUp, this], Nat.le_refl _⟩
  | succ fuel ih =>
    intro i h
    by_cases hc : i ≤ j ∧ p i = true
    · obtain ⟨r, hr, hle⟩ := ih (i + 1) (by omega)
      exact ⟨r, by simp [scanUp, hc, hr], by omega⟩
    · exact ⟨i, by simp [scanUp, hc], Nat.le_refl _⟩

theorem scanDown_le (p : Nat → Bool) (i : Nat) : ∀ j, scanDown p i j ≤ j := by
  intro j
  induction j with
  | zero => simp [scanDown]
  | succ j ih =>
    by_cases hc : i ≤ j + 1 ∧ p (j + 1) = true
    · simp only [scanDown, hc, and_self, if_true]; omega
    · simp [scanDown, hc]

theorem scanDown_ge (p : Nat → Bool) (i a : Nat) (hi : a + 1 ≤ i) :
    ∀ j, a ≤ j → a ≤ scanDown p i j := by
  intro j
  induction j with
  | zero => intro h; simpa [scanDown] using h
  | succ j ih =>
    intro h
    by_cases hc : i ≤ j + 1 ∧ p (j + 1) = true
    · simp only [scanDown, hc, and_self, if_true]
      exact ih (by omega)
    · simpa [scanDown, hc] using h

theorem partition_loop_some {α : Type} (less : α → α → Bool) (a : Nat) :
    ∀ (fuel : Nat) (data : List α) (i j : Nat),
      a + 1 ≤ i → a ≤ j → 0 < fuel → j + 3 ≤ fuel + i →
      ∃ d m, partition_loop less a fuel data i j = some (d, m) ∧ a ≤ m ∧ m ≤ j := by
  intro fuel
  induction fuel with
  | zero => intro data i j _ _ h; omega
  | succ fuel ih =>
    intro data i j hi hj _ hfuel
    obtain ⟨i1, hi1, hle⟩ :=
      scanUp_some (fun i => lessAt less data i a) j (j + 1 - i) i (by omega)
    have hj1 := scanDown_le (fun j => !lessAt less data j a) i1 j
    have hj2 := scanDown_ge (fun j => !lessAt less data j a) i1 a (by omega) j hj
    simp only [partition_loop, hi1, Option.bind_eq_bind, Option.some_bind]
    by_cases hc : i1 > scanDown (fun j => !lessAt less data j a) i1 j
    · exact ⟨data, _, by simp [hc], hj2, hj1⟩
    · obtain ⟨d, m, hd, hm1, hm2⟩ := ih (swapAt data i1
        (scanDown (fun j => !lessAt less data j a) i1 j)) (i1 + 1)
        (scanDown (fun j => !lessAt less data j a) i1 j - 1)
        (by omega) (by omega) (by omega) (by omega)
      exact ⟨d, m, by simp [hc, hd], hm1, by omega⟩

theorem partition_func_some {α : Type} (less : α → α → Bool) (data : List α) (a b pivot : Nat)
    (hab : a < b) :
    ∃ d mid already, partition_func less data a b pivot = some (d, mid, already)
      ∧ a ≤ mid ∧ mid < b := by
  obtain ⟨i1, hi1, hle⟩ :=
    scanUp_some (fun i => lessAt less (swapAt data a pivot) i a) (b - 1)
      (b - 1 + 1 - (a + 1)) (a + 1) (by omega)
  have hj1 := scanDown_le (fun j => !lessAt less (swapAt data a pivot) j a) i1 (b - 1)
  have hj2 := scanDown_ge (fun j => !lessAt less (swapAt data a pivot) j a) i1 a (by omega)
    (b - 1) (by omega)
  simp only [partition_func, hi1, Option.bind_eq_bind, Option.some_bind]
  by_cases hc : i1 > scanDown (fun j => !lessAt less (swapAt data a pivot) j a) i1 (b - 1)
  · rw [if_pos hc]
    exact ⟨_, _, true, rfl, hj2, by omega⟩
  · obtain ⟨d, m, hd, hm1, hm2⟩ := partition_loop_some less a (b - a + 1)
      (swapAt (swapAt data a pivot) i1
        (scanDown (fun j => !lessAt less (swapAt data a pivot) j a) i1 (b - 1)))
      (i1 + 1) (scanDown (fun j => !lessAt less (swapAt data a pivot) j a) i1 (b - 1) - 1)
      (by omega) (by omega) (by omega) (by omega)
    rw [if_neg hc, hd]
    exact ⟨_, m, false, rfl, hm1, by omega⟩

theorem partitionEqual_loop_some {α : Type} (less : α → α → Bool) (a : Nat) :
    ∀ (fuel : Nat) (data : List α) (i j : Nat),
      0 < fuel → j + 3 ≤ fuel + i →
      ∃ d m, partitionEqual_loop less a fuel data i j = some (d, m) ∧ i ≤ m := by
  intro fuel
  induction fuel with
  | zero => intro data i j h; omega
  | succ fuel ih =>
    intro data i j _ hfuel
    obtain ⟨i1, hi1, hle⟩ :=
      scanUp_some (fun i => !lessAt less data a i) j (j + 1 - i) i (by omega)
    have hj1 := scanDown_le (fun j => lessAt less data a j) i1 j
    simp only [partitionEqual_loop, hi1, Option.bind_eq_bind, Option.some_bind]
    by_cases hc : i1 > scanDown (fun j => lessAt less data a j) i1 j
    · exact ⟨data, _, by simp [hc], hle⟩
    · obtain ⟨d, m, hd, hm⟩ := ih (swapAt data i1 (scanDown (fun j => lessAt less data a j) i1 j))
        (i1 + 1) (scanDown (fun j => lessAt less data a j) i1 j - 1) (by omega) (by omega)
      exact ⟨d, m, by simp [hc, hd], by omega⟩

theorem partitionEqual_func_some {α : Type} (less : α → α → Bool) (data : List α)
    (a b pivot : Nat) (hab : a < b) :
    ∃ d mid, partitionEqual_func less data a b pivot = some (d, mid) ∧ a + 1 ≤ mid := by
  obtain ⟨d, m, hd, hm⟩ := partitionEqual_loop_some less a (b - a + 1) (swapAt data a pivot)
    (a + 1) (b - 1) (by omega) (by omega)
  exact ⟨d, m, by simp [partitionEqual_func, hd], hm⟩

theorem partialInsertionSort_loop_some {α : Type} (less : α → α → Bool) (a b : Nat) :
    ∀ (steps : Nat) (data : List α) (i : Nat), 1 ≤ i →
      ∃ r, partialInsertionSort_loop less a b steps data i = some r := by
  intro steps
  induction steps with
  | zero => intro data i _; exact ⟨_, rfl⟩
  | succ steps ih =>
    intro data i hi
    obtain ⟨i1, hi1, hle⟩ :=
      scanUp_some (fun i => !lessAt less data i (i - 1)) (b - 1) (b - i) i (by omega)
    simp only [partialInsertionSort_loop, hi1, Option.bind_eq_bind, Option.some_bind]
    by_cases h1 : i1 = b
    · rw [if_pos h1]
      exact ⟨_, rfl⟩
    · by_cases h2 : b - a < 50
      · rw [if_neg h1, if_pos h2]
        exact ⟨_, rfl⟩
      · rw [if_neg h1, if_neg h2]
        exact ih _ i1 (by omega)

theorem siftDown_func_some {α : Type} (less : α → α → Bool) (hi first : Nat) :
    ∀ (fuel : Nat) (data : List α) (root : Nat), 0 < fuel → hi < fuel + root →
      ∃ d, siftDown_func less hi first fuel data root = some d := by
  intro fuel
  induction fuel with
  | zero => intro data root h; omega
  | succ fuel ih =>
    intro data root _ hfuel
    simp only [siftDown_func]
    by_cases h1 : 2 * root + 1 ≥ hi
    · rw [if_pos h1]
      exact ⟨data, rfl⟩
    · rw [if_neg h1]
      by_cases h2 : 2 * root + 1 + 1 < hi
          ∧ lessAt less data (first + (2 * root + 1)) (first + (2 * root + 1) + 1) = true
      · rw [if_pos h2]
        by_cases h3 : lessAt less data (first + root) (first + (2 * root + 1 + 1)) = false
        · rw [if_pos h3]
          exact ⟨data, rfl⟩
        · rw [if_neg h3]
          exact ih _ _ (by omega) (by omega)
      · rw [if_neg h2]
        by_cases h3 : lessAt less data (first + root) (first + (2 * root + 1)) = false
        · rw [if_pos h3]
          exact ⟨data, rfl⟩
        · rw [if_neg h3]
          exact ih _ _ (by omega) (by omega)

theorem foldlM_some {β γ : Type} (f : β → γ → Option β) (l : List γ)
    (h : ∀ acc x, x ∈ l → ∃ r, f acc x = some r) :
    ∀ init, ∃ r, l.foldlM f init = some r := by
  induction l with
  | nil => intro init; exact ⟨init, rfl⟩
  | cons x l ih =>
    intro init
    obtain ⟨r, hr⟩ := h init x (List.mem_cons_self _ _)
    obtain ⟨r2, hr2⟩ := ih (fun acc y hy => h acc y (List.mem_cons_of_mem _ hy)) r
    exact ⟨r2, by simp [List.foldlM, hr, hr2]⟩

theorem heapSort_func_some {α : Type} (less : α → α → Bool) (data : List α) (a b : Nat) :
    ∃ d, heapSort_func less data a b = some d := by
  obtain ⟨d1, hd1⟩ := foldlM_some
    (fun data i => siftDown_func less (b - a) a (b - a + 1) data i)
    (List.range ((b - a - 1) / 2 + 1)).reverse
    (fun acc x _ => siftDown_func_some less (b - a) a (b - a + 1) acc x (by omega) (by omega))
    data
  obtain ⟨d2, hd2⟩ := foldlM_some
    (fun data i => siftDown_func less i a (b - a + 1) (swapAt data a (a + i)) 0)
    (List.range (b - a)).reverse
    (fun acc x hx => by
      have hx1 : x < b - a := by simpa using hx
      exact siftDown_func_some less x a (b - a + 1) _ 0 (by omega) (by omega))
    d1
  refine ⟨d2, ?_⟩
  unfold heapSort_func
  simp only []
  rw [hd1]
  exact hd2

/-- After the choice of the pivot: the rest of one iteration of the loop of
`pdqsort_func` returns, provided the recursive calls on shorter ranges do. -/
theorem pdqsort_rest_some {α : Type} (next : Nat → Nat) (less : α → α → Bool) (fuel : Nat)
    (ih : ∀ (data : List α) (a b limit : Nat) (wasBalanced wasPartitioned : Bool),
      b - a < fuel →
      ∃ d, pdqsort_loop next less fuel data a b limit wasBalanced wasPartitioned = some d)
    (a b limit pivot : Nat) (wb wp : Bool) (hfuel : b - a < fuel + 1) (hab : a < b)
    (y : List α × Bool) :
    ∃ d, (match y with
      | (data, sorted) =>
        if sorted = true then some data
        else
          if a > 0 ∧ lessAt less data (a - 1) pivot = false then do
            let __discr ← partitionEqual_func less data a b pivot
            match __discr with
              | (data, mid) => pdqsort_loop next less fuel data mid b limit wb wp
          else do
            let __discr ← partition_func less data a b pivot
            match __discr with
              | (data, mid, alreadyPartitioned) =>
                let leftLen := mid - a;
                let rightLen := b - mid;
                let balanceThreshold := (b - a) / 8;
                if leftLen < rightLen then do
                  let data ← pdqsort_loop next less fuel data a mid limit true true
                  pdqsort_loop next less fuel data (mid + 1) b limit
                      (decide (leftLen ≥ balanceThreshold)) alreadyPartitioned
                else do
                  let data ← pdqsort_loop next less fuel data (mid + 1) b limit true true
                  pdqsort_loop next less fuel data a mid limit
                      (decide (rightLen ≥ balanceThreshold)) alreadyPartitioned) = some d := by
  obtain ⟨data, sorted⟩ := y
  cases sorted with
  | true => exact ⟨data, rfl⟩
  | false =>
    by_cases heq : a > 0 ∧ lessAt less data (a - 1) pivot = false
    · obtain ⟨d1, mid, hd1, hmid⟩ := partitionEqual_func_some less data a b pivot hab
      obtain ⟨d2, hd2⟩ := ih d1 mid b limit wb wp (by omega)
      refine ⟨d2, ?_⟩
      simp only [Bool.false_eq_true, if_false]
      rw [if_pos heq, hd1]
      exact hd2
    · obtain ⟨d1, mid, already, hd1, hmid1, hmid2⟩ := partition_func_some less data a b pivot hab
      simp only [Bool.false_eq_true, if_false]
      rw [if_neg heq, hd1]
      by_cases hlr : mid - a < b - mid
      · obtain ⟨d2, hd2⟩ := ih d1 a mid limit true true (by omega)
        obtain ⟨d3, hd3⟩ := ih d2 (mid + 1) b limit
          (decide (mid - a ≥ (b - a) / 8)) already (by omega)
        refine ⟨d3, ?_⟩
        show (if mid - a < b - mid then _ else _) = some d3
        rw [if_pos hlr, hd2]
        exact hd3
      · obtain ⟨d2, hd2⟩ := ih d1 (mid + 1) b limit true true (by omega)
        obtain ⟨d3, hd3⟩ := ih d2 a mid limit
          (decide (b - mid ≥ (b - a) / 8)) already (by omega)
        refine ⟨d3, ?_⟩
        show (if mid - a < b - mid then _ else _) = some d3
        rw [if_neg hlr, hd2]
        exact hd3

theorem pdqsort_loop_some {α : Type} (next : Nat → Nat) (less : α → α → Bool) :
    ∀ (fuel : Nat) (data : List α) (a b limit : Nat) (wasBalanced wasPartitioned : Bool),
      b - a < fuel →
      ∃ d, pdqsort_loop next less fuel data a b limit wasBalanced wasPartitioned = some d := by
  intro fuel
  induction fuel with
  | zero => intro data a b limit wb wp h; omega
  | succ fuel ih =>
    intro data a b limit wb wp hfuel
    rw [pdqsort_loop]
    by_cases h12 : b - a ≤ 12
    · rw [if_pos h12]
      exact ⟨_, rfl⟩
    rw [if_neg h12]
    by_cases hl : limit = 0
    · rw [if_pos hl]
      exact heapSort_func_some less data a b
    rw [if_neg hl]
    split
    split
    split
    rename_i _ data1 limit1 _ _ pivot0 hint0 _ _ data2 pivot2 hint2 _
    by_cases hcond : (wb && wp && decide (hint2 = sortedHint.increasingHint)) = true
    · obtain ⟨r, hr⟩ := partialInsertionSort_loop_some less a b 5 data2 (a + 1) (by omega)
      show ∃ d, (if (wb && wp && decide (hint2 = sortedHint.increasingHint)) = true
        then partialInsertionSort_func less data2 a b >>= _ else _) = some d
      rw [if_pos hcond]
      unfold partialInsertionSort_func
      rw [hr]
      exact pdqsort_rest_some next less fuel ih a b limit1 pivot2 wb wp hfuel (by omega) r
    · show ∃ d, (if (wb && wp && decide (hint2 = sortedHint.increasingHint)) = true
        then _ else some (data2, false) >>= _) = some d
      rw [if_neg hcond]
      exact pdqsort_rest_some next less fuel ih a b limit1 pivot2 wb wp hfuel (by omega)
        (data2, false)

/-- The function `sort.Slice` returns on every slice, for every `less`: the
fuel given to the loops is enough. -/
theorem Slice_returns {α : Type} (next : Nat → Nat) (less : α → α → Bool) (x : List α) :
    ∃ sorted, Slice next less x = some sorted :=
  pdqsort_loop_some next less (x.length + 1) x 0 x.length _ true true (by omega)

/-! ## `sort.Slice` meets its contract -/

/-! ## Swaps -/

theorem swapAt_of_lt {α : Type} (d : List α) (i j : Nat) (hi : i < d.length) (hj : j < d.length) :
    swapAt d i j = (d.set i (d.get ⟨j, hj⟩)).set j (d.get ⟨i, hi⟩) := by
  simp [swapAt, List.getElem?_eq_getElem hi, List.getElem?_eq_getElem hj]

theorem swapAt_of_not_lt {α : Type} (d : List α) (i j : Nat)
    (h : ¬ (i < d.length ∧ j < d.length)) : swapAt d i j = d := by
  unfold swapAt
  by_cases hi : i < d.length
  · have hj : d.length ≤ j := by omega
    simp [List.getElem?_eq_none hj]
  · simp [List.getElem?_eq_none (Nat.le_of_not_lt hi)]

theorem swapAt_length {α : Type} (d : List α) (i j : Nat) : (swapAt d i j).length = d.length := by
  by_cases h : i < d.length ∧ j < d.length
  · rw [swapAt_of_lt d i j h.1 h.2]; simp
  · rw [swapAt_of_not_lt d i j h]

theorem getElem?_swapAt {α : Type} (d : List α) (i j k : Nat)
    (hi : i < d.length) (hj : j < d.length) :
    (swapAt d i j)[k]? = if k = j then d[i]? else if k = i then d[j]? else d[k]? := by
  rw [swapAt_of_lt d i j hi hj, List.getElem?_set, List.getElem?_set]
  by_cases h1 : j = k
  · subst h1
    simp [hi, hj]
  · by_cases h2 : i = k
    · subst h2
      have : ¬ i = j := fun e => h1 e.symm
      simp [h1, this, hi, hj]
    · have h1' : ¬ k = j := fun e => h1 e.symm
      have h2' : ¬ k = i := fun e => h2 e.symm
      simp [h1, h2, h1', h2']

theorem swapAt_perm {α : Type} (d : List α) (i j : Nat) : (swapAt d i j).Perm d := by
  classical
  by_cases h : i < d.length ∧ j < d.length
  · obtain ⟨hi, hj⟩ := h
    rw [swapAt_of_lt d i j hi hj, List.perm_iff_count]
    intro x
    by_cases hij : i = j
    · subst hij
      simp only [List.get_eq_getElem, List.set_set]
      rw [List.count_set _ _ _ _ hi]
      have h1 : (if d[i] == x then 1 else 0) ≤ d.count x := by
        split
        · rename_i hx
          have hx1 : d[i] = x := by simpa using hx
          rw [← hx1]
          exact List.count_pos_iff.mpr (List.getElem_mem _)
        · exact Nat.zero_le _
      generalize (if d[i] == x then 1 else 0) = u at h1 ⊢
      omega
    · have hj1 : j < (d.set i (d.get ⟨j, hj⟩)).length := by simpa using hj
      rw [List.count_set _ _ _ _ hj1, List.count_set _ _ _ _ hi, List.getElem_set_ne hij]
      simp only [List.get_eq_getElem]
      have h1 : (if d[i] == x then 1 else 0) ≤ d.count x := by
        split
        · rename_i hx
          have hx1 : d[i] = x := by simpa using hx
          rw [← hx1]
          exact List.count_pos_iff.mpr (List.getElem_mem _)
        · exact Nat.zero_le _
      generalize (if d[i] == x then 1 else 0) = u at h1 ⊢
      generalize (if d[j] == x then 1 else 0) = v
      omega
  · rw [swapAt_of_not_lt d i j h]

/-! ## Rearrangements -/

theorem Rearranged.refl {α : Type} (d : List α) (a b : Nat) : Rearranged d d a b :=
  ⟨List.Perm.refl _, fun _ _ => rfl, fun _ h => h⟩

theorem Rearranged.trans {α : Type} {d1 d2 d3 : List α} {a b : Nat}
    (h12 : Rearranged d1 d2 a b) (h23 : Rearranged d2 d3 a b) : Rearranged d1 d3 a b :=
  ⟨h23.perm.trans h12.perm, fun k hk => (h23.frame k hk).trans (h12.frame k hk),
    fun P h => h23.inside P (h12.inside P h)⟩

theorem Rearranged.length_eq {α : Type} {d1 d2 : List α} {a b : Nat}
    (h : Rearranged d1 d2 a b) : d2.length = d1.length := h.perm.length_eq

theorem Rearranged.mono {α : Type} {d1 d2 : List α} {a b a1 b1 : Nat}
    (h : Rearranged d1 d2 a1 b1) (ha : a ≤ a1) (hb : b1 ≤ b) : Rearranged d1 d2 a b := by
  refine ⟨h.perm, fun k hk => h.frame k (by omega), ?_⟩
  intro P hP k x hak hkb hx
  by_cases hin : a1 ≤ k ∧ k < b1
  · exact h.inside P (fun k x h1 h2 h3 => hP k x (by omega) (by omega) h3) k x hin.1 hin.2 hx
  · rw [h.frame k (by omega)] at hx
    exact hP k x hak hkb hx

theorem Rearranged.of_swapAt {α : Type} (d : List α) (a b i j : Nat)
    (hi : a ≤ i ∧ i < b) (hj : a ≤ j ∧ j < b) : Rearranged d (swapAt d i j) a b := by
  by_cases h : i < d.length ∧ j < d.length
  · obtain ⟨hil, hjl⟩ := h
    refine ⟨swapAt_perm d i j, ?_, ?_⟩
    · intro k hk
      rw [getElem?_swapAt d i j k hil hjl]
      have h1 : ¬ k = j := by omega
      have h2 : ¬ k = i := by omega
      simp [h1, h2]
    · intro P hP k x hak hkb hx
      rw [getElem?_swapAt d i j k hil hjl] at hx
      by_cases h1 : k = j
      · rw [if_pos h1] at hx
        exact hP i x hi.1 hi.2 hx
      · rw [if_neg h1] at hx
        by_cases h2 : k = i
        · rw [if_pos h2] at hx
          exact hP j x hj.1 hj.2 hx
        · rw [if_neg h2] at hx
          exact hP k x hak hkb hx
  · rw [swapAt_of_not_lt d i j h]
    exact Rearranged.refl d a b

theorem RangeAbove.of_rearranged {α : Type} {less : α → α → Bool} {d1 d2 : List α} {a b : Nat}
    (h : Rearranged d1 d2 a b) (habove : RangeAbove less d1 a b) : RangeAbove less d2 a b := by
  intro k x hk hx
  rw [h.frame k (Or.inl hk)] at hx
  exact h.inside _ (habove k x hk hx)

/-! ## The ordering -/

theorem LessOrder.irrefl {α : Type} {less : α → α → Bool} (h : LessOrder less) (x : α) :
    less x x = false := by
  cases hx : less x x with
  | false => rfl
  | true => have := h.asymm x x hx; rw [hx] at this; cases this

theorem lessAt_eq {α : Type} (less : α → α → Bool) (d : List α) (i j : Nat) (x y : α)
    (hi : d[i]? = some x) (hj : d[j]? = some y) : lessAt less d i j = less x y := by
  simp [lessAt, hi, hj]

theorem getElem?_of_lt {α : Type} (d : List α) (k : Nat) (h : k < d.length) :
    ∃ x, d[k]? = some x := ⟨d[k], List.getElem?_eq_getElem h⟩

/-! ## Insertion sort on a range -/

theorem RangeSorted.narrow {α : Type} {less : α → α → Bool} {d : List α} {a b a1 b1 : Nat}
    (h : RangeSorted less d a b) (ha : a ≤ a1) (hb : b1 ≤ b) : RangeSorted less d a1 b1 :=
  fun i j x y h1 h2 h3 hx hy => h i j x y (by omega) h2 (by omega) hx hy

theorem RangeSorted.of_frame {α : Type} {less : α → α → Bool} {d d1 : List α} {a b : Nat}
    (h : RangeSorted less d a b) (hsame : ∀ k, a ≤ k → k < b → d1[k]? = d[k]?) :
    RangeSorted less d1 a b := by
  intro i j x y h1 h2 h3 hx hy
  rw [hsame i (by omega) (by omega)] at hx
  rw [hsame j (by omega) (by omega)] at hy
  exact h i j x y h1 h2 h3 hx hy

/-- The inner loop of the insertion sort: the element at `j` is moved down
into the ordered part before it. -/
theorem insertionSort_inner_spec {α : Type} {less : α → α → Bool} (hless : LessOrder less)
    (a i : Nat) :
    ∀ (j : Nat) (d : List α), a ≤ j → j ≤ i → i < d.length →
      RangeSorted less d a j →
      RangeSorted less d j (i + 1) →
      (∀ p q x y, a ≤ p → p < j → j < q → q ≤ i → d[p]? = some x → d[q]? = some y →
        less y x = false) →
      Rearranged d (insertionSort_inner less a j d) a (i + 1)
        ∧ RangeSorted less (insertionSort_inner less a j d) a (i + 1) := by
  intro j
  induction j with
  | zero =>
    intro d ha _ _ _ h2 _
    have : a = 0 := by omega
    subst this
    exact ⟨Rearranged.refl _ _ _, by simpa [insertionSort_inner] using h2⟩
  | succ j ih =>
    intro d ha hji hi h1 h2 h3
    obtain ⟨x1, hx1⟩ := getElem?_of_lt d (j + 1) (by omega)
    obtain ⟨x0, hx0⟩ := getElem?_of_lt d j (by omega)
    have hlt : lessAt less d (j + 1) j = less x1 x0 := lessAt_eq less d _ _ x1 x0 hx1 hx0
    by_cases hc : a < j + 1 ∧ lessAt less d (j + 1) j = true
    · have hxx : less x1 x0 = true := by rw [← hlt]; exact hc.2
      have hget : ∀ k, (swapAt d (j + 1) j)[k]?
          = if k = j then d[j + 1]? else if k = j + 1 then d[j]? else d[k]? :=
        fun k => getElem?_swapAt d (j + 1) j k (by omega) (by omega)
      have hstep := ih (swapAt d (j + 1) j) (by omega) (by omega)
        (by rw [swapAt_length]; exact hi)
        (by
          refine (h1.narrow (Nat.le_refl _) (Nat.le_succ _)).of_frame ?_
          intro k _ hk
          rw [hget k, if_neg (by omega), if_neg (by omega)])
        (by
          intro p q x y hp hpq hq hx hy
          rw [hget p] at hx
          rw [hget q] at hy
          have hq1 : ¬ q = j := by omega
          rw [if_neg hq1] at hy
          by_cases hpj : p = j
          · rw [if_pos hpj, hx1] at hx
            cases hx
            by_cases hqj : q = j + 1
            · rw [if_pos hqj, hx0] at hy
              cases hy
              exact hless.asymm _ _ hxx
            · rw [if_neg hqj] at hy
              exact h2 (j + 1) q _ _ (by omega) (by omega) hq hx1 hy
          · rw [if_neg hpj] at hx
            by_cases hpj1 : p = j + 1
            · rw [if_pos hpj1, hx0] at hx
              cases hx
              rw [if_neg (by omega)] at hy
              exact h3 j q _ _ (by omega) (by omega) (by omega) (by omega) hx0 hy
            · rw [if_neg hpj1] at hx
              rw [if_neg (by omega)] at hy
              exact h2 p q _ _ (by omega) hpq hq hx hy)
        (by
          intro p q x y hp hpj hjq hqi hx hy
          rw [hget p, if_neg (by omega), if_neg (by omega)] at hx
          rw [hget q, if_neg (by omega)] at hy
          by_cases hqj : q = j + 1
          · rw [if_pos hqj, hx0] at hy
            cases hy
            exact h1 p j _ _ hp hpj (by omega) hx hx0
          · rw [if_neg hqj] at hy
            exact h3 p q _ _ hp (by omega) (by omega) hqi hx hy)
      have hswap : Rearranged d (swapAt d (j + 1) j) a (i + 1) :=
        Rearranged.of_swapAt d a (i + 1) (j + 1) j (by omega) (by omega)
      simp only [insertionSort_inner, if_pos hc]
      exact ⟨hswap.trans hstep.1, hstep.2⟩
    · simp only [insertionSort_inner, if_neg hc]
      refine ⟨Rearranged.refl _ _ _, ?_⟩
      by_cases haj : a < j + 1
      · have hxx : less x1 x0 = false := by
          rw [← hlt]
          cases hl : lessAt less d (j + 1) j with
          | false => rfl
          | true => exact absurd ⟨haj, hl⟩ hc
        intro p q x y hp hpq hq hx hy
        by_cases hq1 : q < j + 1
        · exact h1 p q _ _ hp hpq hq1 hx hy
        · by_cases hp1 : j + 1 ≤ p
          · exact h2 p q _ _ hp1 hpq hq hx hy
          · by_cases hq2 : q = j + 1
            · subst hq2
              rw [hx1] at hy
              cases hy
              by_cases hp2 : p = j
              · subst hp2
                rw [hx0] at hx
                cases hx
                exact hxx
              · exact hless.negTrans _ _ _ hxx (h1 p j _ _ hp (by omega) (by omega) hx hx0)
            · exact h3 p q _ _ hp (by omega) (by omega) (by omega) hx hy
      · exact h2.narrow (by omega) (Nat.le_refl _)

theorem insertionSort_fold_spec {α : Type} {less : α → α → Bool} (hless : LessOrder less)
    (a : Nat) :
    ∀ (n s : Nat) (d : List α), a < s → s + n ≤ d.length → RangeSorted less d a s →
      Rearranged d ((List.range' s n).foldl (fun data i => insertionSort_inner less a i data) d)
          a (s + n)
        ∧ RangeSorted less
            ((List.range' s n).foldl (fun data i => insertionSort_inner less a i data) d)
            a (s + n) := by
  intro n
  induction n with
  | zero =>
    intro s d _ _ h
    exact ⟨Rearranged.refl _ _ _, by simpa using h⟩
  | succ n ih =>
    intro s d has hlen h
    have hinner := insertionSort_inner_spec hless a s s d (by omega) (Nat.le_refl _) (by omega) h
      (by intro i j x y h1 h2 h3; omega)
      (by intro p q x y _ _ h1 h2; omega)
    have hrest := ih (s + 1) (insertionSort_inner less a s d) (by omega)
      (by rw [hinner.1.length_eq]; omega) hinner.2
    simp only [List.range'_succ, List.foldl_cons]
    have e : s + 1 + n = s + (n + 1) := by omega
    rw [e] at hrest
    exact ⟨(hinner.1.mono (Nat.le_refl _) (by omega)).trans hrest.1, hrest.2⟩

/-- The function `insertionSort_func(data, a, b)` rearranges `data[a:b]` into
order. -/
theorem insertionSort_func_spec {α : Type} {less : α → α → Bool} (hless : LessOrder less)
    (d : List α) (a b : Nat) (hb : b ≤ d.length) :
    Rearranged d (insertionSort_func less d a b) a b
      ∧ RangeSorted less (insertionSort_func less d a b) a b := by
  unfold insertionSort_func
  by_cases hab : a + 1 < b
  · have h := insertionSort_fold_spec hless a (b - (a + 1)) (a + 1) d (by omega) (by omega)
      (by intro i j x y h1 h2 h3; omega)
    have e : a + 1 + (b - (a + 1)) = b := by omega
    rw [e] at h
    exact h
  · have e : b - (a + 1) = 0 := by omega
    rw [e]
    exact ⟨Rearranged.refl _ _ _, by intro i j x y h1 h2 h3; omega⟩

/-! ## The partition -/

theorem scanUp_spec (p : Nat → Bool) (j : Nat) :
    ∀ (fuel i r : Nat), scanUp p j fuel i = some r →
      i ≤ r ∧ (∀ k, i ≤ k → k < r → p k = true) ∧ (r ≤ j → p r = false)
        ∧ (i ≤ j + 1 → r ≤ j + 1) := by
  intro fuel
  induction fuel with
  | zero =>
    intro i r h
    by_cases hc : i ≤ j ∧ p i = true
    · simp [scanUp, hc] at h
    · simp only [scanUp, if_neg hc, Option.some.injEq] at h
      subst h
      refine ⟨Nat.le_refl _, fun k h1 h2 => by omega, ?_, fun h => h⟩
      intro hij
      cases hp : p i with
      | false => rfl
      | true => exact absurd ⟨hij, hp⟩ hc
  | succ fuel ih =>
    intro i r h
    by_cases hc : i ≤ j ∧ p i = true
    · simp only [scanUp, if_pos hc] at h
      obtain ⟨h1, h2, h3, h4⟩ := ih (i + 1) r h
      refine ⟨by omega, ?_, h3, fun _ => h4 (by omega)⟩
      intro k hk1 hk2
      by_cases hki : k = i
      · subst hki; exact hc.2
      · exact h2 k (by omega) hk2
    · simp only [scanUp, if_neg hc, Option.some.injEq] at h
      subst h
      refine ⟨Nat.le_refl _, fun k h1 h2 => by omega, ?_, fun h => h⟩
      intro hij
      cases hp : p i with
      | false => rfl
      | true => exact absurd ⟨hij, hp⟩ hc

theorem scanDown_spec (p : Nat → Bool) (i : Nat) (hi : 1 ≤ i) :
    ∀ j, scanDown p i j ≤ j
      ∧ (∀ k, scanDown p i j < k → k ≤ j → p k = true)
      ∧ (i ≤ scanDown p i j → p (scanDown p i j) = false)
      ∧ (i ≤ j + 1 → i ≤ scanDown p i j + 1) := by
  intro j
  induction j with
  | zero =>
    refine ⟨by simp [scanDown], ?_, ?_, ?_⟩
    · intro k h1 h2; simp [scanDown] at h1; omega
    · intro h; simp [scanDown] at h; omega
    · intro h; simp [scanDown]; omega
  | succ j ih =>
    by_cases hc : i ≤ j + 1 ∧ p (j + 1) = true
    · obtain ⟨h1, h2, h3, h4⟩ := ih
      simp only [scanDown, if_pos hc]
      refine ⟨by omega, ?_, h3, fun _ => h4 hc.1⟩
      intro k hk1 hk2
      by_cases hkj : k = j + 1
      · subst hkj; exact hc.2
      · exact h2 k hk1 (by omega)
    · simp only [scanDown, if_neg hc]
      refine ⟨Nat.le_refl _, fun k h1 h2 => by omega, ?_, fun h => by omega⟩
      intro hij
      cases hp : p (j + 1) with
      | false => rfl
      | true => exact absurd ⟨hij, hp⟩ hc

theorem lessAt_true_elim {α : Type} {less : α → α → Bool} {d : List α} {i j : Nat} {x y : α}
    (h : lessAt less d i j = true) (hx : d[i]? = some x) (hy : d[j]? = some y) :
    less x y = true := by
  rw [lessAt_eq less d i j x y hx hy] at h
  exact h

theorem lessAt_false_elim {α : Type} {less : α → α → Bool} {d : List α} {i j : Nat} {x y : α}
    (h : lessAt less d i j = false) (hx : d[i]? = some x) (hy : d[j]? = some y) :
    less x y = false := by
  rw [lessAt_eq less d i j x y hx hy] at h
  exact h

/-- The second loop of `partition_func`: from a state in which the elements
before `i` are less than the pivot and the elements after `j` are not, to a
state in which this covers the whole range. -/
theorem partition_loop_spec {α : Type} (less : α → α → Bool) (a b : Nat) (pv : α) :
    ∀ (fuel : Nat) (d : List α) (i j : Nat) (d1 : List α) (m : Nat),
      partition_loop less a fuel d i j = some (d1, m) →
      a + 1 ≤ i → i ≤ j + 1 → j < b → b ≤ d.length →
      d[a]? = some pv →
      RangeAll (fun x => less x pv = true) d (a + 1) i →
      RangeAll (fun x => less x pv = false) d (j + 1) b →
      Rearranged d d1 (a + 1) b ∧ d1[a]? = some pv ∧ a ≤ m ∧ m < b
        ∧ RangeAll (fun x => less x pv = true) d1 (a + 1) (m + 1)
        ∧ RangeAll (fun x => less x pv = false) d1 (m + 1) b := by
  intro fuel
  induction fuel with
  | zero => intro d i j d1 m h; simp [partition_loop] at h
  | succ fuel ih =>
    intro d i j d1 m h hai hij hjb hb hpv hL hR
    simp only [partition_loop, Option.bind_eq_bind] at h
    cases hs : scanUp (fun i => lessAt less d i a) j (j + 1 - i) i with
    | none => rw [hs] at h; simp at h
    | some i1 =>
      rw [hs] at h
      simp only [Option.some_bind] at h
      obtain ⟨hu1, hu2, hu3, hu4⟩ := scanUp_spec _ j _ i i1 hs
      obtain ⟨hd1, hd2, hd3, hd4⟩ :=
        scanDown_spec (fun j => !lessAt less d j a) i1 (by omega) j
      have hL1 : RangeAll (fun x => less x pv = true) d (a + 1) i1 := by
        intro k x hk1 hk2 hx
        by_cases hki : k < i
        · exact hL k x hk1 hki hx
        · exact lessAt_true_elim (hu2 k (by omega) hk2) hx hpv
      have hR1 : RangeAll (fun x => less x pv = false) d
          (scanDown (fun j => !lessAt less d j a) i1 j + 1) b := by
        intro k x hk1 hk2 hx
        by_cases hkj : j < k
        · exact hR k x (by omega) hk2 hx
        · have := hd2 k (by omega) (by omega)
          simp only [Bool.not_eq_true'] at this
          exact lessAt_false_elim this hx hpv
      generalize scanDown (fun j => !lessAt less d j a) i1 j = j1 at h hd1 hd2 hd3 hd4 hR1
      by_cases hc : i1 > j1
      · simp only [if_pos hc, Option.some.injEq, Prod.mk.injEq] at h
        obtain ⟨h1, h2⟩ := h
        subst h1 h2
        have hu5 := hu4 hij
        have hd5 := hd4 hu5
        have e : i1 = j1 + 1 := by omega
        rw [e] at hL1
        exact ⟨Rearranged.refl _ _ _, hpv, by omega, by omega, hL1, hR1⟩
      · simp only [if_neg hc] at h
        have hi1 : lessAt less d i1 a = false := hu3 (by omega)
        have hj1 : lessAt less d j1 a = true := by
          have := hd3 (by omega)
          simpa using this
        have hne : i1 ≠ j1 := by
          intro e
          rw [e, hj1] at hi1
          cases hi1
        obtain ⟨xi, hxi⟩ := getElem?_of_lt d i1 (by omega)
        obtain ⟨xj, hxj⟩ := getElem?_of_lt d j1 (by omega)
        have hget : ∀ k, (swapAt d i1 j1)[k]?
            = if k = j1 then d[i1]? else if k = i1 then d[j1]? else d[k]? :=
          fun k => getElem?_swapAt d i1 j1 k (by omega) (by omega)
        have hres := ih (swapAt d i1 j1) (i1 + 1) (j1 - 1) d1 m h (by omega) (by omega) (by omega)
          (by rw [swapAt_length]; exact hb)
          (by rw [hget a, if_neg (by omega), if_neg (by omega)]; exact hpv)
          (by
            intro k x hk1 hk2 hx
            rw [hget k, if_neg (by omega)] at hx
            by_cases hki : k = i1
            · rw [if_pos hki, hxj] at hx
              cases hx
              exact lessAt_true_elim hj1 hxj hpv
            · rw [if_neg hki] at hx
              exact hL1 k x hk1 (by omega) hx)
          (by
            intro k x hk1 hk2 hx
            rw [hget k] at hx
            by_cases hkj : k = j1
            · rw [if_pos hkj, hxi] at hx
              cases hx
              exact lessAt_false_elim hi1 hxi hpv
            · rw [if_neg hkj, if_neg (by omega)] at hx
              exact hR1 k x (by omega) hk2 hx)
        obtain ⟨r1, r2, r3, r4, r5, r6⟩ := hres
        exact ⟨(Rearranged.of_swapAt d (a + 1) b i1 j1 (by omega) (by omega)).trans r1,
          r2, r3, r4, r5, r6⟩

/-- The function `partition_func(data, a, b, pivot)` rearranges `data[a:b]`
so that it is partitioned around the element that stood at `pivot`. -/
theorem partition_func_spec {α : Type} (less : α → α → Bool) (d : List α) (a b pivot : Nat)
    (d1 : List α) (mid : Nat) (already : Bool)
    (h : partition_func less d a b pivot = some (d1, mid, already))
    (hap : a ≤ pivot) (hpb : pivot < b) (hb : b ≤ d.length) :
    ∃ pv, d[pivot]? = some pv ∧ Rearranged d d1 a b ∧ Partitioned less d1 a b mid pv := by
  obtain ⟨pv, hpv⟩ := getElem?_of_lt d pivot (by omega)
  refine ⟨pv, hpv, ?_⟩
  have hr0 : Rearranged d (swapAt d a pivot) a b :=
    Rearranged.of_swapAt d a b a pivot (by omega) (by omega)
  have hpv0 : (swapAt d a pivot)[a]? = some pv := by
    rw [getElem?_swapAt d a pivot a (by omega) (by omega)]
    by_cases e : a = pivot
    · rw [if_pos e, e]; exact hpv
    · rw [if_neg e, if_pos rfl]; exact hpv
  have hlen0 : b ≤ (swapAt d a pivot).length := by rw [swapAt_length]; exact hb
  simp only [partition_func, Option.bind_eq_bind] at h
  generalize swapAt d a pivot = d0 at h hr0 hpv0 hlen0
  cases hs : scanUp (fun i => lessAt less d0 i a) (b - 1) (b - 1 + 1 - (a + 1)) (a + 1) with
  | none => rw [hs] at h; simp at h
  | some i1 =>
    rw [hs] at h
    simp only [Option.some_bind] at h
    obtain ⟨hu1, hu2, hu3, hu4⟩ := scanUp_spec _ (b - 1) _ (a + 1) i1 hs
    obtain ⟨hd1, hd2, hd3, hd4⟩ :=
      scanDown_spec (fun j => !lessAt less d0 j a) i1 (by omega) (b - 1)
    have hL1 : RangeAll (fun x => less x pv = true) d0 (a + 1) i1 := by
      intro k x hk1 hk2 hx
      exact lessAt_true_elim (hu2 k hk1 hk2) hx hpv0
    have hR1 : RangeAll (fun x => less x pv = false) d0
        (scanDown (fun j => !lessAt less d0 j a) i1 (b - 1) + 1) b := by
      intro k x hk1 hk2 hx
      have := hd2 k (by omega) (by omega)
      simp only [Bool.not_eq_true'] at this
      exact lessAt_false_elim this hx hpv0
    generalize scanDown (fun j => !lessAt less d0 j a) i1 (b - 1) = j1
      at h hd1 hd2 hd3 hd4 hR1
    have hu5 := hu4 (by omega)
    have hd5 := hd4 hu5
    have finish : ∀ (d2 : List α) (m : Nat), Rearranged d0 d2 (a + 1) b → d2[a]? = some pv →
        a ≤ m → m < b →
        RangeAll (fun x => less x pv = true) d2 (a + 1) (m + 1) →
        RangeAll (fun x => less x pv = false) d2 (m + 1) b →
        Rearranged d (swapAt d2 m a) a b ∧ Partitioned less (swapAt d2 m a) a b m pv := by
      intro d2 m hr hpv2 ham hmb hL hR
      have hlen2 : b ≤ d2.length := by rw [hr.length_eq]; exact hlen0
      have hget : ∀ k, (swapAt d2 m a)[k]?
          = if k = a then d2[m]? else if k = m then d2[a]? else d2[k]? :=
        fun k => getElem?_swapAt d2 m a k (by omega) (by omega)
      refine ⟨(hr0.trans (hr.mono (by omega) (Nat.le_refl _))).trans
        (Rearranged.of_swapAt d2 a b m a (by omega) (by omega)), ham, hmb, ?_, ?_, ?_⟩
      · rw [hget m]
        by_cases e : m = a
        · rw [if_pos e, e]; exact hpv2
        · rw [if_neg e, if_pos rfl]; exact hpv2
      · intro k x hk1 hk2 hx
        rw [hget k] at hx
        by_cases e : k = a
        · rw [if_pos e] at hx
          exact hL m x (by omega) (by omega) hx
        · rw [if_neg e, if_neg (by omega)] at hx
          exact hL k x (by omega) (by omega) hx
      · intro k x hk1 hk2 hx
        rw [hget k, if_neg (by omega), if_neg (by omega)] at hx
        exact hR k x hk1 hk2 hx
    by_cases hc : i1 > j1
    · simp only [if_pos hc, Option.some.injEq, Prod.mk.injEq] at h
      obtain ⟨h1, h2, _⟩ := h
      subst h1 h2
      have e : i1 = j1 + 1 := by omega
      rw [e] at hL1
      exact finish d0 j1 (Rearranged.refl _ _ _) hpv0 (by omega) (by omega) hL1 hR1
    · simp only [if_neg hc] at h
      have hi1 : lessAt less d0 i1 a = false := hu3 (by omega)
      have hj1 : lessAt less d0 j1 a = true := by
        have := hd3 (by omega)
        simpa using this
      have hne : i1 ≠ j1 := by
        intro e
        rw [e, hj1] at hi1
        cases hi1
      obtain ⟨xi, hxi⟩ := getElem?_of_lt d0 i1 (by omega)
      obtain ⟨xj, hxj⟩ := getElem?_of_lt d0 j1 (by omega)
      have hget : ∀ k, (swapAt d0 i1 j1)[k]?
          = if k = j1 then d0[i1]? else if k = i1 then d0[j1]? else d0[k]? :=
        fun k => getElem?_swapAt d0 i1 j1 k (by omega) (by omega)
      cases hp : partition_loop less a (b - a + 1) (swapAt d0 i1 j1) (i1 + 1) (j1 - 1) with
      | none => rw [hp] at h; simp at h
      | some r =>
        obtain ⟨d2, m⟩ := r
        rw [hp] at h
        simp only [Option.some_bind, Option.some.injEq, Prod.mk.injEq] at h
        obtain ⟨h1, h2, _⟩ := h
        subst h1 h2
        obtain ⟨r1, r2, r3, r4, r5, r6⟩ := partition_loop_spec less a b pv (b - a + 1)
          (swapAt d0 i1 j1) (i1 + 1) (j1 - 1) d2 m hp (by omega) (by omega) (by omega)
          (by rw [swapAt_length]; exact hlen0)
          (by rw [hget a, if_neg (by omega), if_neg (by omega)]; exact hpv0)
          (by
            intro k x hk1 hk2 hx
            rw [hget k, if_neg (by omega)] at hx
            by_cases hki : k = i1
            · rw [if_pos hki, hxj] at hx
              cases hx
              exact lessAt_true_elim hj1 hxj hpv0
            · rw [if_neg hki] at hx
              exact hL1 k x hk1 (by omega) hx)
          (by
            intro k x hk1 hk2 hx
            rw [hget k] at hx
            by_cases hkj : k = j1
            · rw [if_pos hkj, hxi] at hx
              cases hx
              exact lessAt_false_elim hi1 hxi hpv0
            · rw [if_neg hkj, if_neg (by omega)] at hx
              exact hR1 k x (by omega) hk2 hx)
        exact finish d2 m
          ((Rearranged.of_swapAt d0 (a + 1) b i1 j1 (by omega) (by omega)).trans r1) r2 r3 r4 r5 r6

/-- The loop of `partitionEqual_func`: from a state in which the pivot is not
less than the elements before `i` and is less than the elements after `j`,
to a state in which this covers the whole range. -/
theorem partitionEqual_loop_spec {α : Type} (less : α → α → Bool) (a b : Nat) (pv : α) :
    ∀ (fuel : Nat) (d : List α) (i j : Nat) (d1 : List α) (m : Nat),
      partitionEqual_loop less a fuel d i j = some (d1, m) →
      a + 1 ≤ i → i ≤ j + 1 → j < b → b ≤ d.length →
      d[a]? = some pv →
      RangeAll (fun x => less pv x = false) d (a + 1) i →
      RangeAll (fun x => less pv x = true) d (j + 1) b →
      Rearranged d d1 (a + 1) b ∧ d1[a]? = some pv ∧ a + 1 ≤ m ∧ m ≤ b
        ∧ RangeAll (fun x => less pv x = false) d1 (a + 1) m
        ∧ RangeAll (fun x => less pv x = true) d1 m b := by
  intro fuel
  induction fuel with
  | zero => intro d i j d1 m h; simp [partitionEqual_loop] at h
  | succ fuel ih =>
    intro d i j d1 m h hai hij hjb hb hpv hL hR
    simp only [partitionEqual_loop, Option.bind_eq_bind] at h
    cases hs : scanUp (fun i => !lessAt less d a i) j (j + 1 - i) i with
    | none => rw [hs] at h; simp at h
    | some i1 =>
      rw [hs] at h
      simp only [Option.some_bind] at h
      obtain ⟨hu1, hu2, hu3, hu4⟩ := scanUp_spec _ j _ i i1 hs
      obtain ⟨hd1, hd2, hd3, hd4⟩ :=
        scanDown_spec (fun j => lessAt less d a j) i1 (by omega) j
      have hL1 : RangeAll (fun x => less pv x = false) d (a + 1) i1 := by
        intro k x hk1 hk2 hx
        by_cases hki : k < i
        · exact hL k x hk1 hki hx
        · have := hu2 k (by omega) hk2
          simp only [Bool.not_eq_true'] at this
          exact lessAt_false_elim this hpv hx
      have hR1 : RangeAll (fun x => less pv x = true) d
          (scanDown (fun j => lessAt less d a j) i1 j + 1) b := by
        intro k x hk1 hk2 hx
        by_cases hkj : j < k
        · exact hR k x (by omega) hk2 hx
        · exact lessAt_true_elim (hd2 k (by omega) (by omega)) hpv hx
      generalize scanDown (fun j => lessAt less d a j) i1 j = j1 at h hd1 hd2 hd3 hd4 hR1
      by_cases hc : i1 > j1
      · simp only [if_pos hc, Option.some.injEq, Prod.mk.injEq] at h
        obtain ⟨h1, h2⟩ := h
        subst h1 h2
        have hu5 := hu4 hij
        have hd5 := hd4 hu5
        have e : j1 + 1 = i1 := by omega
        rw [e] at hR1
        exact ⟨Rearranged.refl _ _ _, hpv, by omega, by omega, hL1, hR1⟩
      · simp only [if_neg hc] at h
        have hi1 : lessAt less d a i1 = true := by
          have := hu3 (by omega)
          simpa using this
        have hj1 : lessAt less d a j1 = false := hd3 (by omega)
        have hne : i1 ≠ j1 := by
          intro e
          rw [e, hj1] at hi1
          cases hi1
        obtain ⟨xi, hxi⟩ := getElem?_of_lt d i1 (by omega)
        obtain ⟨xj, hxj⟩ := getElem?_of_lt d j1 (by omega)
        have hget : ∀ k, (swapAt d i1 j1)[k]?
            = if k = j1 then d[i1]? else if k = i1 then d[j1]? else d[k]? :=
          fun k => getElem?_swapAt d i1 j1 k (by omega) (by omega)
        have hres := ih (swapAt d i1 j1) (i1 + 1) (j1 - 1) d1 m h (by omega) (by omega) (by omega)
          (by rw [swapAt_length]; exact hb)
          (by rw [hget a, if_neg (by omega), if_neg (by omega)]; exact hpv)
          (by
            intro k x hk1 hk2 hx
            rw [hget k, if_neg (by omega)] at hx
            by_cases hki : k = i1
            · rw [if_pos hki, hxj] at hx
              cases hx
              exact lessAt_false_elim hj1 hpv hxj
            · rw [if_neg hki] at hx
              exact hL1 k x hk1 (by omega) hx)
          (by
            intro k x hk1 hk2 hx
            rw [hget k] at hx
            by_cases hkj : k = j1
            · rw [if_pos hkj, hxi] at hx
              cases hx
              exact lessAt_true_elim hi1 hpv hxi
            · rw [if_neg hkj, if_neg (by omega)] at hx
              exact hR1 k x (by omega) hk2 hx)
        obtain ⟨r1, r2, r3, r4, r5, r6⟩ := hres
        exact ⟨(Rearranged.of_swapAt d (a + 1) b i1 j1 (by omega) (by omega)).trans r1,
          r2, r3, r4, r5, r6⟩

/-- The function `partitionEqual_func(data, a, b, pivot)` rearranges
`data[a:b]` into the elements the pivot is not less than, followed by the
elements it is less than. -/
theorem partitionEqual_func_spec {α : Type} {less : α → α → Bool} (hless : LessOrder less)
    (d : List α) (a b pivot : Nat) (d1 : List α) (mid : Nat)
    (h : partitionEqual_func less d a b pivot = some (d1, mid))
    (hap : a ≤ pivot) (hpb : pivot < b) (hb : b ≤ d.length) :
    ∃ pv, d[pivot]? = some pv ∧ Rearranged d d1 a b ∧ a + 1 ≤ mid ∧ mid ≤ b
      ∧ RangeAll (fun x => less pv x = false) d1 a mid
      ∧ RangeAll (fun x => less pv x = true) d1 mid b := by
  obtain ⟨pv, hpv⟩ := getElem?_of_lt d pivot (by omega)
  refine ⟨pv, hpv, ?_⟩
  have hr0 : Rearranged d (swapAt d a pivot) a b :=
    Rearranged.of_swapAt d a b a pivot (by omega) (by omega)
  have hpv0 : (swapAt d a pivot)[a]? = some pv := by
    rw [getElem?_swapAt d a pivot a (by omega) (by omega)]
    by_cases e : a = pivot
    · rw [if_pos e, e]; exact hpv
    · rw [if_neg e, if_pos rfl]; exact hpv
  unfold partitionEqual_func at h
  obtain ⟨r1, r2, r3, r4, r5, r6⟩ := partitionEqual_loop_spec less a b pv (b - a + 1)
    (swapAt d a pivot) (a + 1) (b - 1) d1 mid h (Nat.le_refl _) (by omega) (by omega)
    (by rw [swapAt_length]; exact hb) hpv0
    (by intro k x h1 h2; omega) (by intro k x h1 h2; omega)
  refine ⟨hr0.trans (r1.mono (by omega) (Nat.le_refl _)), r3, r4, ?_, r6⟩
  intro k x hk1 hk2 hx
  by_cases e : k = a
  · subst e
    rw [r2] at hx
    cases hx
    exact hless.irrefl _
  · exact r5 k x (by omega) hk2 hx

/-! ## The pivot, the pattern breaker and the reversal -/

theorem order2_func_fst {α : Type} (less : α → α → Bool) (d : List α) (x y s : Nat) :
    ((order2_func less d x y s).1 = x ∧ (order2_func less d x y s).2.1 = y)
      ∨ ((order2_func less d x y s).1 = y ∧ (order2_func less d x y s).2.1 = x) := by
  unfold order2_func
  split
  · exact Or.inr ⟨rfl, rfl⟩
  · exact Or.inl ⟨rfl, rfl⟩

theorem median_func_mem {α : Type} (less : α → α → Bool) (d : List α) (x y z s : Nat) :
    (median_func less d x y z s).1 = x ∨ (median_func less d x y z s).1 = y
      ∨ (median_func less d x y z s).1 = z := by
  unfold median_func
  dsimp only
  have h1 := order2_func_fst less d x y s
  generalize order2_func less d x y s = r1 at h1 ⊢
  have h2 := order2_func_fst less d r1.2.1 z r1.2.2
  generalize order2_func less d r1.2.1 z r1.2.2 = r2 at h2 ⊢
  have h3 := order2_func_fst less d r1.1 r2.1 r2.2.2
  generalize order2_func less d r1.1 r2.1 r2.2.2 = r3 at h3 ⊢
  omega

theorem median_func_bounds {α : Type} (less : α → α → Bool) (d : List α) (x y z s lo hi : Nat)
    (hx : lo ≤ x ∧ x < hi) (hy : lo ≤ y ∧ y < hi) (hz : lo ≤ z ∧ z < hi) :
    lo ≤ (median_func less d x y z s).1 ∧ (median_func less d x y z s).1 < hi := by
  rcases median_func_mem less d x y z s with h | h | h <;> rw [h] <;> assumption

/-- The pivot chosen for a range of at least 8 elements lies in the range. -/
theorem choosePivot_func_bounds {α : Type} (less : α → α → Bool) (d : List α) (a b : Nat)
    (h8 : 8 ≤ b - a) :
    a ≤ (choosePivot_func less d a b).1 ∧ (choosePivot_func less d a b).1 < b := by
  have hfst : ∀ (c : Nat × Nat),
      (if c.2 = 0 then (c.1, sortedHint.increasingHint)
        else if c.2 = 4 * 3 then (c.1, sortedHint.decreasingHint)
        else (c.1, sortedHint.unknownHint)).1 = c.1 := by
    intro c
    split
    · rfl
    · split <;> rfl
  unfold choosePivot_func
  rw [hfst, if_pos h8]
  by_cases h50 : 50 ≤ b - a
  · rw [if_pos h50]
    unfold medianAdjacent_func
    apply median_func_bounds
    · apply median_func_bounds <;> omega
    · apply median_func_bounds <;> omega
    · apply median_func_bounds <;> omega
  · rw [if_neg h50]
    apply median_func_bounds <;> omega

theorem Rearranged.foldl_swapAt {α : Type} (a b : Nat) (f g : Nat → Nat) :
    ∀ (l : List Nat) (d : List α),
      (∀ k, k ∈ l → a ≤ f k ∧ f k < b ∧ a ≤ g k ∧ g k < b) →
      Rearranged d (l.foldl (fun data k => swapAt data (f k) (g k)) d) a b := by
  intro l
  induction l with
  | nil => intro d _; exact Rearranged.refl _ _ _
  | cons k l ih =>
    intro d h
    obtain ⟨h1, h2, h3, h4⟩ := h k (List.mem_cons_self _ _)
    simp only [List.foldl_cons]
    exact (Rearranged.of_swapAt d a b (f k) (g k) ⟨h1, h2⟩ ⟨h3, h4⟩).trans
      (ih _ (fun k hk => h k (List.mem_cons_of_mem _ hk)))

theorem reverseRange_func_spec {α : Type} (d : List α) (a b : Nat) :
    Rearranged d (reverseRange_func d a b) a b := by
  unfold reverseRange_func
  apply Rearranged.foldl_swapAt a b (fun k => a + k) (fun k => b - 1 - k)
  intro k hk
  have : k < (b - a) / 2 := by simpa using hk
  omega

theorem bitsLen_pow_le : ∀ (fuel x : Nat), 1 ≤ x → x ≤ fuel → 2 ^ bitsLen fuel x ≤ 2 * x := by
  intro fuel
  induction fuel with
  | zero => intro x h1 h2; omega
  | succ fuel ih =>
    intro x h1 h2
    have hx : ¬ x = 0 := by omega
    simp only [bitsLen, hx, if_false, Nat.pow_succ]
    by_cases h : x / 2 = 0
    · have h0 : bitsLen fuel (x / 2) = 0 := by
        rw [h]
        cases fuel <;> simp [bitsLen]
      rw [h0]
      omega
    · have := ih (x / 2) (by omega) (by omega)
      omega

theorem breakPatterns_func_spec {α : Type} (next : Nat → Nat) (d : List α) (a b : Nat) :
    Rearranged d (breakPatterns_func next d a b) a b := by
  unfold breakPatterns_func
  by_cases h8 : b - a ≥ 8
  · simp only [h8, if_true]
    have hpow : nextPowerOfTwo (b - a) ≤ 2 * (b - a) :=
      bitsLen_pow_le (b - a) (b - a) (by omega) (Nat.le_refl _)
    have hpick : ∀ r : Nat,
        (if r &&& (nextPowerOfTwo (b - a) - 1) ≥ b - a
          then (r &&& (nextPowerOfTwo (b - a) - 1)) - (b - a)
          else r &&& (nextPowerOfTwo (b - a) - 1)) < b - a := by
      intro r
      have := @Nat.and_le_right r (nextPowerOfTwo (b - a) - 1)
      split <;> omega
    have hdiv : 2 ≤ (b - a) / 4 := by omega
    have hmul : (b - a) / 4 * 2 ≤ b - a := by omega
    refine ((Rearranged.of_swapAt d a b _ _ ?_ ?_).trans
      (Rearranged.of_swapAt _ a b _ _ ?_ ?_)).trans (Rearranged.of_swapAt _ a b _ _ ?_ ?_)
    · omega
    · have := hpick (next (b - a)); omega
    · omega
    · have := hpick (next (next (b - a))); omega
    · omega
    · have := hpick (next (next (next (b - a)))); omega
  · simp only [h8, if_false]
    exact Rearranged.refl _ _ _

/-! ## The partial insertion sort -/

theorem RangeAbove.shorten {α : Type} {less : α → α → Bool} {d : List α} {a b b1 : Nat}
    (h : RangeAbove less d a b) (hb : b1 ≤ b) : RangeAbove less d a b1 :=
  fun k x hk hx i y hi1 hi2 hy => h k x hk hx i y hi1 (by omega) hy

theorem RangeSorted.extend {α : Type} {less : α → α → Bool} (hless : LessOrder less)
    {d : List α} {a k : Nat} (h : RangeSorted less d a k) (hak : a < k) (hk : k < d.length)
    (hadj : lessAt less d k (k - 1) = false) : RangeSorted less d a (k + 1) := by
  obtain ⟨z, hz⟩ := getElem?_of_lt d (k - 1) (by omega)
  intro p q x y hp hpq hq hx hy
  by_cases hqk : q < k
  · exact h p q x y hp hpq hqk hx hy
  · have e : q = k := by omega
    subst e
    have hyz : less y z = false := lessAt_false_elim hadj hy hz
    by_cases hpk : p = q - 1
    · subst hpk
      rw [hz] at hx
      cases hx
      exact hyz
    · exact hless.negTrans _ _ _ hyz (h p (q - 1) x z hp (by omega) (by omega) hx hz)

theorem RangeSorted.extend_many {α : Type} {less : α → α → Bool} (hless : LessOrder less)
    {d : List α} {a : Nat} :
    ∀ (n i : Nat), a < i → i + n ≤ d.length → RangeSorted less d a i →
      (∀ k, i ≤ k → k < i + n → lessAt less d k (k - 1) = false) →
      RangeSorted less d a (i + n) := by
  intro n
  induction n with
  | zero => intro i _ _ h _; exact h
  | succ n ih =>
    intro i hai hlen h hadj
    have h1 := h.extend hless hai (by omega) (hadj i (Nat.le_refl _) (by omega))
    have := ih (i + 1) (by omega) (by omega) h1 (fun k hk1 hk2 => hadj k (by omega) (by omega))
    have e : i + 1 + n = i + (n + 1) := by omega
    rw [e] at this
    exact this

/-- Below a range whose elements are not less than the elements before it, the
downward shifting loop stops where the inner loop of the insertion sort
stops. -/
theorem shiftLeft_eq_inner {α : Type} (less : α → α → Bool) (a i : Nat) :
    ∀ (j : Nat) (d : List α), a ≤ j → j ≤ i → i < d.length → RangeAbove less d a (i + 1) →
      shiftLeft less j d = insertionSort_inner less a j d := by
  intro j
  induction j with
  | zero => intro d _ _ _ _; rfl
  | succ j ih =>
    intro d haj hji hi habove
    obtain ⟨x1, hx1⟩ := getElem?_of_lt d (j + 1) (by omega)
    obtain ⟨x0, hx0⟩ := getElem?_of_lt d j (by omega)
    by_cases hlt : lessAt less d (j + 1) j = false
    · have hc : ¬ (a < j + 1 ∧ lessAt less d (j + 1) j = true) := by
        rw [hlt]; simp
      simp only [shiftLeft, insertionSort_inner, if_pos hlt, if_neg hc]
    · have htrue : lessAt less d (j + 1) j = true := by
        cases h : lessAt less d (j + 1) j with
        | true => rfl
        | false => exact absurd h hlt
      have ha : a < j + 1 := by
        by_cases e : a = j + 1
        · exfalso
          have h1 : less x1 x0 = false :=
            habove j x0 (by omega) hx0 (j + 1) x1 (by omega) (by omega) hx1
          rw [lessAt_true_elim htrue hx1 hx0] at h1
          cases h1
        · omega
      simp only [shiftLeft, insertionSort_inner, if_neg hlt, if_pos (And.intro ha htrue)]
      exact ih (swapAt d (j + 1) j) (by omega) (by omega) (by rw [swapAt_length]; exact hi)
        (RangeAbove.of_rearranged
          (Rearranged.of_swapAt d a (i + 1) (j + 1) j (by omega) (by omega)) habove)

theorem shiftRight_spec {α : Type} (less : α → α → Bool) (lo b : Nat) :
    ∀ (fuel j : Nat) (d : List α), lo < j →
      Rearranged d (shiftRight less b fuel j d) lo b := by
  intro fuel
  induction fuel with
  | zero => intro j d _; exact Rearranged.refl _ _ _
  | succ fuel ih =>
    intro j d hj
    simp only [shiftRight]
    by_cases hjb : j < b
    · rw [if_pos hjb]
      by_cases hlt : lessAt less d j (j - 1) = false
      · rw [if_pos hlt]; exact Rearranged.refl _ _ _
      · rw [if_neg hlt]
        exact (Rearranged.of_swapAt d lo b j (j - 1) (by omega) (by omega)).trans
          (ih (j + 1) _ (by omega))
    · rw [if_neg hjb]; exact Rearranged.refl _ _ _

theorem partialInsertionSort_loop_spec {α : Type} {less : α → α → Bool}
    (hless : LessOrder less) (a b : Nat) :
    ∀ (steps : Nat) (d : List α) (i : Nat) (d1 : List α) (sorted : Bool),
      partialInsertionSort_loop less a b steps d i = some (d1, sorted) →
      a + 1 ≤ i → i ≤ b → b ≤ d.length → RangeAbove less d a b → RangeSorted less d a i →
      Rearranged d d1 a b ∧ (sorted = true → RangeSorted less d1 a b) := by
  intro steps
  induction steps with
  | zero =>
    intro d i d1 sorted h _ _ _ _ _
    simp only [partialInsertionSort_loop, Option.some.injEq, Prod.mk.injEq] at h
    obtain ⟨h1, h2⟩ := h
    subst h1 h2
    exact ⟨Rearranged.refl _ _ _, fun h => by cases h⟩
  | succ steps ih =>
    intro d i d1 sorted h hai hib hb habove hsorted
    simp only [partialInsertionSort_loop, Option.bind_eq_bind] at h
    cases hs : scanUp (fun i => !lessAt less d i (i - 1)) (b - 1) (b - i) i with
    | none => rw [hs] at h; simp at h
    | some i1 =>
      rw [hs] at h
      simp only [Option.some_bind] at h
      obtain ⟨hu1, hu2, hu3, hu4⟩ := scanUp_spec _ (b - 1) _ i i1 hs
      have hi1b : i1 ≤ b := by have := hu4 (by omega); omega
      have hsorted1 : RangeSorted less d a i1 := by
        have := RangeSorted.extend_many hless (i1 - i) i (by omega) (by omega) hsorted
          (fun k hk1 hk2 => by
            have := hu2 k hk1 (by omega)
            simpa using this)
        have e : i + (i1 - i) = i1 := by omega
        rw [e] at this
        exact this
      by_cases h1 : i1 = b
      · rw [if_pos h1] at h
        simp only [Option.some.injEq, Prod.mk.injEq] at h
        obtain ⟨e1, e2⟩ := h
        subst e1 e2
        rw [h1] at hsorted1
        exact ⟨Rearranged.refl _ _ _, fun _ => hsorted1⟩
      · rw [if_neg h1] at h
        by_cases h2 : b - a < 50
        · rw [if_pos h2] at h
          simp only [Option.some.injEq, Prod.mk.injEq] at h
          obtain ⟨e1, e2⟩ := h
          subst e1 e2
          exact ⟨Rearranged.refl _ _ _, fun h => by cases h⟩
        · rw [if_neg h2] at h
          have hr1 : Rearranged d (swapAt d i1 (i1 - 1)) a b :=
            Rearranged.of_swapAt d a b i1 (i1 - 1) (by omega) (by omega)
          have hs1 : RangeSorted less (swapAt d i1 (i1 - 1)) a (i1 - 1) := by
            refine (hsorted1.narrow (Nat.le_refl _) (Nat.sub_le _ _)).of_frame ?_
            intro k _ hk
            rw [getElem?_swapAt d i1 (i1 - 1) k (by omega) (by omega),
              if_neg (by omega), if_neg (by omega)]
          generalize swapAt d i1 (i1 - 1) = d2 at h hr1 hs1
          have habove2 : RangeAbove less d2 a b := RangeAbove.of_rearranged hr1 habove
          have hlen2 : b ≤ d2.length := by rw [hr1.length_eq]; exact hb
          have hleft : Rearranged d2
                (if i1 - a ≥ 2 then shiftLeft less (i1 - 1) d2 else d2) a b
              ∧ RangeSorted less
                (if i1 - a ≥ 2 then shiftLeft less (i1 - 1) d2 else d2) a i1 := by
            by_cases h3 : i1 - a ≥ 2
            · rw [if_pos h3]
              rw [shiftLeft_eq_inner less a (i1 - 1) (i1 - 1) d2 (by omega) (Nat.le_refl _)
                (by omega) (by
                  have e : i1 - 1 + 1 = i1 := by omega
                  rw [e]
                  exact habove2.shorten hi1b)]
              have := insertionSort_inner_spec hless a (i1 - 1) (i1 - 1) d2 (by omega)
                (Nat.le_refl _) (by omega) hs1
                (by intro p q x y h1 h2 h3; omega)
                (by intro p q x y _ _ h1 h2; omega)
              have e : i1 - 1 + 1 = i1 := by omega
              rw [e] at this
              exact ⟨this.1.mono (Nat.le_refl _) hi1b, this.2⟩
            · rw [if_neg h3]
              refine ⟨Rearranged.refl _ _ _, ?_⟩
              intro p q x y hp hpq hq
              omega
          generalize (if i1 - a ≥ 2 then shiftLeft less (i1 - 1) d2 else d2) = d3 at h hleft
          have hright : Rearranged d3
              (if b - i1 ≥ 2 then shiftRight less b (b - i1) (i1 + 1) d3 else d3) i1 b := by
            by_cases h4 : b - i1 ≥ 2
            · rw [if_pos h4]
              exact shiftRight_spec less i1 b (b - i1) (i1 + 1) d3 (by omega)
            · rw [if_neg h4]
              exact Rearranged.refl _ _ _
          generalize (if b - i1 ≥ 2 then shiftRight less b (b - i1) (i1 + 1) d3 else d3) = d4
            at h hright
          have hr4 : Rearranged d d4 a b :=
            (hr1.trans hleft.1).trans (hright.mono (by omega) (Nat.le_refl _))
          have hs4 : RangeSorted less d4 a i1 :=
            hleft.2.of_frame (fun k _ hk => hright.frame k (Or.inl hk))
          obtain ⟨r1, r2⟩ := ih d4 i1 d1 sorted h (by omega) hi1b
            (by rw [hr4.length_eq]; exact hb) (RangeAbove.of_rearranged hr4 habove) hs4
          exact ⟨hr4.trans r1, r2⟩

/-- The function `partialInsertionSort_func(data, a, b)` rearranges
`data[a:b]`, and when it answers `true` the range is in order. -/
theorem partialInsertionSort_func_spec {α : Type} {less : α → α → Bool}
    (hless : LessOrder less) (d : List α) (a b : Nat) (d1 : List α) (sorted : Bool)
    (h : partialInsertionSort_func less d a b = some (d1, sorted))
    (hab : a < b) (hb : b ≤ d.length) (habove : RangeAbove less d a b) :
    Rearranged d d1 a b ∧ (sorted = true → RangeSorted less d1 a b) :=
  partialInsertionSort_loop_spec hless a b 5 d (a + 1) d1 sorted h (Nat.le_refl _) hab hb habove
    (by intro p q x y h1 h2 h3; omega)

/-! ## The heap sort -/

/-- The function `siftDown_func`: when every node but `root` is in heap order
and the parent of `root` is not less than the children of `root`, afterwards
every node is in heap order. -/
theorem siftDown_func_spec {α : Type} {less : α → α → Bool} (hless : LessOrder less)
    (hi first lo : Nat) :
    ∀ (fuel : Nat) (d : List α) (root : Nat) (d1 : List α),
      siftDown_func less hi first fuel d root = some d1 →
      lo ≤ root → first + hi ≤ d.length →
      (∀ k, lo ≤ k → k < hi → k ≠ root → HeapAt less d first hi k) →
      (∀ p c x y, lo ≤ p → (root = 2 * p + 1 ∨ root = 2 * p + 2) →
        (c = 2 * root + 1 ∨ c = 2 * root + 2) → c < hi →
        d[first + p]? = some x → d[first + c]? = some y → less x y = false) →
      Rearranged d d1 (first + lo) (first + hi)
        ∧ ∀ k, lo ≤ k → k < hi → HeapAt less d1 first hi k := by
  intro fuel
  induction fuel with
  | zero => intro d root d1 h; simp [siftDown_func] at h
  | succ fuel ih =>
    intro d root d1 h hlo hlen hP1 hP2
    simp only [siftDown_func] at h
    by_cases h1 : 2 * root + 1 ≥ hi
    · rw [if_pos h1] at h
      cases h
      refine ⟨Rearranged.refl _ _ _, ?_⟩
      intro k hk1 hk2
      by_cases e : k = root
      · subst e
        intro c x y hc hch
        omega
      · exact hP1 k hk1 hk2 e
    · rw [if_neg h1] at h
      obtain ⟨xr, hxr⟩ := getElem?_of_lt d (first + root) (by omega)
      -- the larger child
      have hchoice : ∃ c, (c = 2 * root + 1 ∨ c = 2 * root + 2) ∧ c < hi
          ∧ (if 2 * root + 1 + 1 < hi
                ∧ lessAt less d (first + (2 * root + 1)) (first + (2 * root + 1) + 1) = true
              then 2 * root + 1 + 1 else 2 * root + 1) = c
          ∧ ∀ c1 xc y, (c1 = 2 * root + 1 ∨ c1 = 2 * root + 2) → c1 < hi →
              d[first + c]? = some xc → d[first + c1]? = some y → less xc y = false := by
        by_cases h2 : 2 * root + 1 + 1 < hi
            ∧ lessAt less d (first + (2 * root + 1)) (first + (2 * root + 1) + 1) = true
        · refine ⟨2 * root + 2, Or.inr rfl, by omega, by rw [if_pos h2], ?_⟩
          intro c1 xc y hc1 hc1hi hxc hy
          rcases hc1 with e | e
          · subst e
            have : lessAt less d (first + (2 * root + 1)) (first + (2 * root + 2)) = true := h2.2
            exact hless.asymm _ _ (lessAt_true_elim this hy hxc)
          · subst e
            rw [hxc] at hy
            cases hy
            exact hless.irrefl _
        · refine ⟨2 * root + 1, Or.inl rfl, by omega, by rw [if_neg h2], ?_⟩
          intro c1 xc y hc1 hc1hi hxc hy
          rcases hc1 with e | e
          · subst e
            rw [hxc] at hy
            cases hy
            exact hless.irrefl _
          · subst e
            have h3 : lessAt less d (first + (2 * root + 1)) (first + (2 * root + 1) + 1)
                = false := by
              cases hl : lessAt less d (first + (2 * root + 1)) (first + (2 * root + 1) + 1) with
              | false => rfl
              | true => exact absurd ⟨by omega, hl⟩ h2
            exact lessAt_false_elim h3 hxc hy
      obtain ⟨c, hc, hchi, hceq, hdom⟩ := hchoice
      rw [hceq] at h
      obtain ⟨xc, hxc⟩ := getElem?_of_lt d (first + c) (by omega)
      by_cases h3 : lessAt less d (first + root) (first + c) = false
      · rw [if_pos h3] at h
        cases h
        refine ⟨Rearranged.refl _ _ _, ?_⟩
        intro k hk1 hk2
        by_cases e : k = root
        · subst e
          intro c1 x y hc1 hc1hi hx hy
          rw [hxr] at hx
          cases hx
          exact hless.negTrans _ _ _ (lessAt_false_elim h3 hxr hxc) (hdom c1 xc y hc1 hc1hi hxc hy)
        · exact hP1 k hk1 hk2 e
      · rw [if_neg h3] at h
        have hrc : less xr xc = true := by
          cases hl : lessAt less d (first + root) (first + c) with
          | false => exact absurd hl h3
          | true => exact lessAt_true_elim hl hxr hxc
        have hget : ∀ m, (swapAt d (first + root) (first + c))[first + m]?
            = if m = c then d[first + root]? else if m = root then d[first + c]?
              else d[first + m]? := by
          intro m
          rw [getElem?_swapAt d (first + root) (first + c) (first + m) (by omega) (by omega)]
          by_cases e1 : m = c
          · rw [if_pos e1, if_pos (by omega)]
          · rw [if_neg e1, if_neg (by omega)]
            by_cases e2 : m = root
            · rw [if_pos e2, if_pos (by omega)]
            · rw [if_neg e2, if_neg (by omega)]
        obtain ⟨r1, r2⟩ := ih (swapAt d (first + root) (first + c)) c d1 h (by omega)
          (by rw [swapAt_length]; exact hlen)
          (by
            intro k hk1 hk2 hkc c1 x y hc1 hc1hi hx hy
            rw [hget k, if_neg hkc] at hx
            rw [hget c1] at hy
            by_cases e : k = root
            · rw [if_pos e, hxc] at hx
              cases hx
              by_cases e1 : c1 = c
              · rw [if_pos e1, hxr] at hy
                cases hy
                exact hless.asymm _ _ hrc
              · rw [if_neg e1, if_neg (by omega)] at hy
                exact hdom c1 _ _ (by omega) hc1hi hxc hy
            · rw [if_neg e] at hx
              by_cases e1 : c1 = root
              · rw [if_neg (by omega), if_pos e1, hxc] at hy
                cases hy
                exact hP2 k c _ _ hk1 (by omega) hc hchi hx hxc
              · rw [if_neg (by omega), if_neg e1] at hy
                exact hP1 k hk1 hk2 e c1 x y hc1 hc1hi hx hy)
          (by
            intro p g x y hp hcp hg hghi hx hy
            have e : p = root := by omega
            subst e
            rw [hget p, if_neg (by omega), if_pos rfl, hxc] at hx
            cases hx
            rw [hget g, if_neg (by omega), if_neg (by omega)] at hy
            exact hP1 c (by omega) hchi (by omega) g _ _ hg hghi hxc hy)
        exact ⟨(Rearranged.of_swapAt d (first + lo) (first + hi) (first + root) (first + c)
          (by omega) (by omega)).trans r1, r2⟩

/-- The root of a heap is not less than any of its elements. -/
theorem heap_root_max {α : Type} {less : α → α → Bool} (hless : LessOrder less)
    (d : List α) (first n : Nat) (hlen : first + n ≤ d.length)
    (hheap : ∀ k, k < n → HeapAt less d first n k) (x0 : α) (hx0 : d[first]? = some x0) :
    ∀ k, k < n → ∀ xk, d[first + k]? = some xk → less x0 xk = false := by
  intro k
  induction k using Nat.strong_induction_on with
  | _ k ih =>
    intro hk xk hxk
    by_cases e : k = 0
    · subst e
      rw [Nat.add_zero, hx0] at hxk
      cases hxk
      exact hless.irrefl _
    · obtain ⟨xp, hxp⟩ := getElem?_of_lt d (first + (k - 1) / 2) (by omega)
      have h1 := ih ((k - 1) / 2) (by omega) (by omega) xp hxp
      have h2 := hheap ((k - 1) / 2) (by omega) k xp xk (by omega) hk hxp hxk
      exact hless.negTrans _ _ _ h1 h2

theorem range_reverse_succ (n : Nat) : (List.range (n + 1)).reverse = n :: (List.range n).reverse := by
  rw [List.range_succ, List.reverse_append]
  rfl

/-- The first loop of `heapSort_func` builds the heap from the last node with
a child down to the root. -/
theorem heapSort_build_spec {α : Type} {less : α → α → Bool} (hless : LessOrder less)
    (hi first : Nat) :
    ∀ (n : Nat) (d d1 : List α),
      (List.range n).reverse.foldlM
          (fun data i => siftDown_func less hi first (hi + 1) data i) d = some d1 →
      first + hi ≤ d.length →
      (∀ k, n ≤ k → k < hi → HeapAt less d first hi k) →
      Rearranged d d1 first (first + hi) ∧ ∀ k, k < hi → HeapAt less d1 first hi k := by
  intro n
  induction n with
  | zero =>
    intro d d1 h _ hheap
    simp only [List.range_zero, List.reverse_nil, List.foldlM_nil] at h
    cases h
    exact ⟨Rearranged.refl _ _ _, fun k hk => hheap k (Nat.zero_le _) hk⟩
  | succ n ih =>
    intro d d1 h hlen hheap
    rw [range_reverse_succ, List.foldlM_cons] at h
    cases hs : siftDown_func less hi first (hi + 1) d n with
    | none => rw [hs] at h; simp at h
    | some d2 =>
      rw [hs] at h
      simp only [Option.bind_eq_bind, Option.some_bind] at h
      obtain ⟨r1, r2⟩ := siftDown_func_spec hless hi first n (hi + 1) d n d2 hs (Nat.le_refl _)
        hlen (fun k hk1 hk2 hk3 => hheap k (by omega) hk2)
        (by intro p c x y hp hroot; omega)
      obtain ⟨r3, r4⟩ := ih d2 d1 h (by rw [r1.length_eq]; exact hlen) r2
      exact ⟨(r1.mono (by omega) (Nat.le_refl _)).trans r3, r4⟩

/-- The second loop of `heapSort_func` moves the root of the heap behind the
heap, again and again, until the heap is empty. -/
theorem heapSort_extract_spec {α : Type} {less : α → α → Bool} (hless : LessOrder less)
    (hi first : Nat) :
    ∀ (n : Nat) (d d1 : List α),
      (List.range n).reverse.foldlM
          (fun data i => siftDown_func less i first (hi + 1) (swapAt data first (first + i)) 0)
          d = some d1 →
      n ≤ hi → first + hi ≤ d.length →
      (∀ k, k < n → HeapAt less d first n k) →
      RangeSorted less d (first + n) (first + hi) →
      (∀ k q x y, k < n → n ≤ q → q < hi → d[first + k]? = some x → d[first + q]? = some y →
        less y x = false) →
      Rearranged d d1 first (first + hi) ∧ RangeSorted less d1 first (first + hi) := by
  intro n
  induction n with
  | zero =>
    intro d d1 h _ _ _ hsorted _
    simp only [List.range_zero, List.reverse_nil, List.foldlM_nil] at h
    cases h
    exact ⟨Rearranged.refl _ _ _, by simpa using hsorted⟩
  | succ n ih =>
    intro d d1 h hn hlen hheap hsorted hcross
    rw [range_reverse_succ, List.foldlM_cons] at h
    cases hs : siftDown_func less n first (hi + 1) (swapAt d first (first + n)) 0 with
    | none => rw [hs] at h; simp at h
    | some d3 =>
      rw [hs] at h
      simp only [Option.bind_eq_bind, Option.some_bind] at h
      obtain ⟨x0, hx0⟩ := getElem?_of_lt d first (by omega)
      obtain ⟨xn, hxn⟩ := getElem?_of_lt d (first + n) (by omega)
      have hmax := heap_root_max hless d first (n + 1) (by omega) hheap x0 hx0
      have hget : ∀ m, (swapAt d first (first + n))[first + m]?
          = if m = n then d[first]? else if m = 0 then d[first + n]? else d[first + m]? := by
        intro m
        rw [getElem?_swapAt d first (first + n) (first + m) (by omega) (by omega)]
        by_cases e1 : m = n
        · rw [if_pos e1, if_pos (by omega)]
        · rw [if_neg e1, if_neg (by omega)]
          by_cases e2 : m = 0
          · rw [if_pos e2, if_pos (by omega)]
          · rw [if_neg e2, if_neg (by omega)]
      have hr2 : Rearranged d (swapAt d first (first + n)) first (first + hi) :=
        Rearranged.of_swapAt d first (first + hi) first (first + n) (by omega) (by omega)
      have hlen2 : first + hi ≤ (swapAt d first (first + n)).length := by
        rw [swapAt_length]; exact hlen
      -- every element of the smaller heap is an element of the old heap
      have hold : ∀ m x, m < n → (swapAt d first (first + n))[first + m]? = some x →
          ∃ m1, m1 < n + 1 ∧ d[first + m1]? = some x := by
        intro m x hm hx
        rw [hget m, if_neg (by omega)] at hx
        by_cases e : m = 0
        · rw [if_pos e] at hx
          exact ⟨n, by omega, hx⟩
        · rw [if_neg e] at hx
          exact ⟨m, by omega, hx⟩
      generalize swapAt d first (first + n) = d2 at hs hget hr2 hlen2 hold
      obtain ⟨r1, r2⟩ := siftDown_func_spec hless n first 0 (hi + 1) d2 0 d3 hs (Nat.le_refl _)
        (by omega)
        (by
          intro k _ hk2 hk3 c x y hc hcn hx hy
          rw [hget k, if_neg (by omega), if_neg hk3] at hx
          rw [hget c, if_neg (by omega), if_neg (by omega)] at hy
          exact hheap k (by omega) c x y hc (by omega) hx hy)
        (by intro p c x y hp hroot; omega)
      have hr3 : Rearranged d2 d3 first (first + n) := by simpa using r1
      have hsame : ∀ q, n ≤ q → d3[first + q]? = d2[first + q]? :=
        fun q hq => hr3.frame (first + q) (Or.inr (by omega))
      have hcross3 : ∀ k q x y, k < n → n ≤ q → q < hi → d3[first + k]? = some x →
          d3[first + q]? = some y → less y x = false := by
        intro k q x y hk hq hqhi hx hy
        rw [hsame q hq, hget q] at hy
        have hall : RangeAll (fun x => ∃ m1, m1 < n + 1 ∧ d[first + m1]? = some x)
            d2 first (first + n) := by
          intro i x hi1 hi2 hx
          have := hold (i - first) x (by omega)
          rw [show first + (i - first) = i by omega] at this
          exact this hx
        obtain ⟨m1, hm1, hxm⟩ := hr3.inside _ hall (first + k) x (by omega) (by omega) hx
        by_cases e : q = n
        · rw [if_pos e, hx0] at hy
          cases hy
          exact hmax m1 hm1 x hxm
        · rw [if_neg e, if_neg (by omega)] at hy
          exact hcross m1 q x y hm1 (by omega) hqhi hxm hy
      have hsorted3 : RangeSorted less d3 (first + n) (first + hi) := by
        intro p q x y hp hpq hq hx hy
        have hx1 := hx
        rw [show p = first + (p - first) by omega, hsame (p - first) (by omega),
          hget (p - first)] at hx1
        have hy1 := hy
        rw [show q = first + (q - first) by omega, hsame (q - first) (by omega),
          hget (q - first), if_neg (by omega), if_neg (by omega)] at hy1
        by_cases e : p - first = n
        · rw [if_pos e, hx0] at hx1
          cases hx1
          exact hcross 0 (q - first) _ _ (by omega) (by omega) (by omega)
            (by simpa using hx0) hy1
        · rw [if_neg e, if_neg (by omega)] at hx1
          exact hsorted (first + (p - first)) (first + (q - first)) x y (by omega) (by omega)
            (by omega) hx1 hy1
      obtain ⟨r3, r4⟩ := ih d3 d1 h (by omega) (by rw [hr3.length_eq]; exact hlen2)
        (fun k hk => r2 k (Nat.zero_le _) hk) hsorted3 hcross3
      exact ⟨(hr2.trans (hr3.mono (Nat.le_refl _) (by omega))).trans r3, r4⟩

/-- The function `heapSort_func(data, a, b)` rearranges `data[a:b]` into
order. -/
theorem heapSort_func_spec {α : Type} {less : α → α → Bool} (hless : LessOrder less)
    (d : List α) (a b : Nat) (d1 : List α) (h : heapSort_func less d a b = some d1)
    (hab : a ≤ b) (hb : b ≤ d.length) :
    Rearranged d d1 a b ∧ RangeSorted less d1 a b := by
  unfold heapSort_func at h
  simp only [] at h
  cases hbuild : (List.range ((b - a - 1) / 2 + 1)).reverse.foldlM
      (fun data i => siftDown_func less (b - a) a (b - a + 1) data i) d with
  | none => rw [hbuild] at h; simp at h
  | some d2 =>
    rw [hbuild] at h
    simp only [Option.bind_eq_bind, Option.some_bind] at h
    obtain ⟨r1, r2⟩ := heapSort_build_spec hless (b - a) a ((b - a - 1) / 2 + 1) d d2 hbuild
      (by omega) (by intro k hk1 hk2 c x y hc hchi; omega)
    obtain ⟨r3, r4⟩ := heapSort_extract_spec hless (b - a) a (b - a) d2 d1 h (Nat.le_refl _)
      (by rw [r1.length_eq]; omega) r2
      (by intro p q x y h1 h2 h3; omega)
      (by intro k q x y h1 h2 h3; omega)
    have e : a + (b - a) = b := by omega
    rw [e] at r1 r3 r4
    exact ⟨r1.trans r3, r4⟩

/-! ## The pattern-defeating quicksort -/

theorem Partitioned.of_rearranged_left {α : Type} {less : α → α → Bool} {d d1 : List α}
    {a b mid : Nat} {pv : α} (h : Partitioned less d a b mid pv) (hr : Rearranged d d1 a mid) :
    Partitioned less d1 a b mid pv :=
  ⟨h.mid_ge, h.mid_lt, by rw [hr.frame mid (Or.inr (Nat.le_refl _))]; exact h.pivot,
    hr.inside _ h.left,
    fun k x hk1 hk2 hx =>
      h.right k x hk1 hk2 (by rw [← hr.frame k (Or.inr (by omega))]; exact hx)⟩

theorem Partitioned.of_rearranged_right {α : Type} {less : α → α → Bool} {d d1 : List α}
    {a b mid : Nat} {pv : α} (h : Partitioned less d a b mid pv)
    (hr : Rearranged d d1 (mid + 1) b) : Partitioned less d1 a b mid pv :=
  ⟨h.mid_ge, h.mid_lt, by rw [hr.frame mid (Or.inl (Nat.lt_succ_self _))]; exact h.pivot,
    fun k x hk1 hk2 hx =>
      h.left k x hk1 hk2 (by rw [← hr.frame k (Or.inl (by omega))]; exact hx),
    hr.inside _ h.right⟩

/-- An element that is not less than the pivot is not less than an element
that is less than the pivot. -/
theorem LessOrder.not_less_of_split {α : Type} {less : α → α → Bool} (hless : LessOrder less)
    {x y pv : α} (hx : less x pv = true) (hy : less y pv = false) : less y x = false := by
  cases hyx : less y x with
  | false => rfl
  | true => rw [hless.trans y x pv hyx hx] at hy; cases hy

theorem RangeAbove.right {α : Type} {less : α → α → Bool} (hless : LessOrder less)
    {d : List α} {a b mid : Nat} {pv : α} (habove : RangeAbove less d a b)
    (hp : Partitioned less d a b mid pv) : RangeAbove less d (mid + 1) b := by
  intro k x hk hx j y hj1 hj2 hy
  have hmid := hp.mid_ge
  by_cases h1 : k < a
  · exact habove k x h1 hx j y (by omega) hj2 hy
  · by_cases h2 : k = mid
    · subst h2
      rw [hp.pivot] at hx
      cases hx
      exact hp.right j y hj1 hj2 hy
    · exact hless.not_less_of_split (hp.left k x (by omega) (by omega) hx)
        (hp.right j y hj1 hj2 hy)

theorem RangeSorted.of_partitioned {α : Type} {less : α → α → Bool} (hless : LessOrder less)
    {d : List α} {a b mid : Nat} {pv : α} (hp : Partitioned less d a b mid pv)
    (hl : RangeSorted less d a mid) (hr : RangeSorted less d (mid + 1) b) :
    RangeSorted less d a b := by
  intro i j x y hi hij hj hx hy
  by_cases h1 : j < mid
  · exact hl i j x y hi hij h1 hx hy
  · by_cases h2 : mid < i
    · exact hr i j x y (by omega) hij hj hx hy
    · by_cases h3 : i = mid
      · subst h3
        rw [hp.pivot] at hx
        cases hx
        exact hp.right j y (by omega) hj hy
      · have hxl := hp.left i x hi (by omega) hx
        by_cases h4 : j = mid
        · subst h4
          rw [hp.pivot] at hy
          cases hy
          exact hless.asymm _ _ hxl
        · exact hless.not_less_of_split hxl (hp.right j y (by omega) hj hy)

/-- What `pdqsort_func` does in one round after the pivot is chosen and the
partial insertion sort has been tried. -/
theorem pdqsort_rest_spec {α : Type} (next : Nat → Nat) {less : α → α → Bool}
    (hless : LessOrder less) (fuel : Nat)
    (ih : ∀ (d : List α) (a b limit : Nat) (wb wp : Bool) (out : List α),
      pdqsort_loop next less fuel d a b limit wb wp = some out →
      a ≤ b → b ≤ d.length → RangeAbove less d a b →
      Rearranged d out a b ∧ RangeSorted less out a b)
    (a b limit pivot : Nat) (wb wp : Bool) (hap : a ≤ pivot) (hpb : pivot < b)
    (y : List α × Bool) (out : List α)
    (h : (match y with
      | (data, sorted) =>
        if sorted = true then some data
        else
          if a > 0 ∧ lessAt less data (a - 1) pivot = false then do
            let __discr ← partitionEqual_func less data a b pivot
            match __discr with
              | (data, mid) => pdqsort_loop next less fuel data mid b limit wb wp
          else do
            let __discr ← partition_func less data a b pivot
            match __discr with
              | (data, mid, alreadyPartitioned) =>
                let leftLen := mid - a;
                let rightLen := b - mid;
                let balanceThreshold := (b - a) / 8;
                if leftLen < rightLen then do
                  let data ← pdqsort_loop next less fuel data a mid limit true true
                  pdqsort_loop next less fuel data (mid + 1) b limit
                      (decide (leftLen ≥ balanceThreshold)) alreadyPartitioned
                else do
                  let data ← pdqsort_loop next less fuel data (mid + 1) b limit true true
                  pdqsort_loop next less fuel data a mid limit
                      (decide (rightLen ≥ balanceThreshold)) alreadyPartitioned) = some out)
    (hb : b ≤ y.1.length) (habove : RangeAbove less y.1 a b)
    (hsorted : y.2 = true → RangeSorted less y.1 a b) :
    Rearranged y.1 out a b ∧ RangeSorted less out a b := by
  obtain ⟨data, sorted⟩ := y
  cases sorted with
  | true =>
    simp only [if_true] at h
    cases h
    exact ⟨Rearranged.refl _ _ _, hsorted rfl⟩
  | false =>
    simp only [Bool.false_eq_true, if_false] at h
    show Rearranged data out a b ∧ RangeSorted less out a b
    have hb1 : b ≤ data.length := hb
    have habove1 : RangeAbove less data a b := habove
    by_cases heq : a > 0 ∧ lessAt less data (a - 1) pivot = false
    · rw [if_pos heq] at h
      cases hpe : partitionEqual_func less data a b pivot with
      | none => rw [hpe] at h; cases h
      | some r =>
        obtain ⟨d1, mid⟩ := r
        rw [hpe] at h
        have h2 : pdqsort_loop next less fuel d1 mid b limit wb wp = some out := h
        obtain ⟨pv, hpv, r1, hm1, hm2, hle, hgt⟩ :=
          partitionEqual_func_spec hless data a b pivot d1 mid hpe hap hpb hb1
        obtain ⟨pred, hpred⟩ := getElem?_of_lt data (a - 1) (by omega)
        have hpp : less pred pv = false := lessAt_false_elim heq.2 hpred hpv
        have habove2 : RangeAbove less d1 a b := RangeAbove.of_rearranged r1 habove1
        have hpred1 : d1[a - 1]? = some pred := by
          rw [r1.frame (a - 1) (Or.inl (by omega))]; exact hpred
        have habove3 : RangeAbove less d1 mid b := by
          intro k x hk hx j y hj1 hj2 hy
          by_cases hka : k < a
          · exact habove2 k x hka hx j y (by omega) hj2 hy
          · have hx1 : less pv x = false := hle k x (by omega) hk hx
            have hy1 : less pv y = true := hgt j y hj1 hj2 hy
            cases hyx : less y x with
            | false => rfl
            | true => rw [hless.trans pv y x hy1 hyx] at hx1; cases hx1
        obtain ⟨r2, s2⟩ := ih d1 mid b limit wb wp out h2 hm2 (by rw [r1.length_eq]; exact hb1)
          habove3
        have r3 : Rearranged d1 out a b := r2.mono (by omega) (Nat.le_refl _)
        have habove4 : RangeAbove less out a b := RangeAbove.of_rearranged r3 habove2
        have hpred2 : out[a - 1]? = some pred := by
          rw [r3.frame (a - 1) (Or.inl (by omega))]; exact hpred1
        refine ⟨r1.trans r3, ?_⟩
        intro i j x y hi hij hj hx hy
        by_cases him : mid ≤ i
        · exact s2 i j x y him hij hj hx hy
        · have hx1 : less pv x = false :=
            hle i x hi (by omega) (by rw [← r2.frame i (Or.inl (by omega))]; exact hx)
          have hy1 : less y pred = false := habove4 (a - 1) pred (by omega) hpred2 j y
            (by omega) hj hy
          exact hless.negTrans _ _ _ (hless.negTrans _ _ _ hy1 hpp) hx1
    · rw [if_neg heq] at h
      cases hpf : partition_func less data a b pivot with
      | none => rw [hpf] at h; cases h
      | some r =>
        obtain ⟨d1, mid, already⟩ := r
        rw [hpf] at h
        obtain ⟨pv, hpv, r1, hp1⟩ := partition_func_spec less data a b pivot d1 mid already hpf
          hap hpb hb1
        have hma := hp1.mid_ge
        have hmb := hp1.mid_lt
        have hlen1 : b ≤ d1.length := by rw [r1.length_eq]; exact hb1
        have habove2 : RangeAbove less d1 a b := RangeAbove.of_rearranged r1 habove1
        by_cases hlr : mid - a < b - mid
        · have h2 : (pdqsort_loop next less fuel d1 a mid limit true true >>= fun d2 =>
              pdqsort_loop next less fuel d2 (mid + 1) b limit
                (decide (mid - a ≥ (b - a) / 8)) already) = some out := by
            have h3 : (if mid - a < b - mid then _ else _) = some out := h
            rw [if_pos hlr] at h3
            exact h3
          cases hd2 : pdqsort_loop next less fuel d1 a mid limit true true with
          | none => rw [hd2] at h2; cases h2
          | some d2 =>
            rw [hd2] at h2
            have h4 : pdqsort_loop next less fuel d2 (mid + 1) b limit
                (decide (mid - a ≥ (b - a) / 8)) already = some out := h2
            obtain ⟨r2, s2⟩ := ih d1 a mid limit true true d2 hd2 hma (by omega)
              (habove2.shorten (by omega))
            have r2w : Rearranged d1 d2 a b := r2.mono (Nat.le_refl _) (by omega)
            have hp2 := hp1.of_rearranged_left r2
            have habove3 : RangeAbove less d2 a b := RangeAbove.of_rearranged r2w habove2
            obtain ⟨r3, s3⟩ := ih d2 (mid + 1) b limit _ already out h4 (by omega)
              (by rw [r2.length_eq]; exact hlen1) (habove3.right hless hp2)
            have r3w : Rearranged d2 out a b := r3.mono (by omega) (Nat.le_refl _)
            have hp3 := hp2.of_rearranged_right r3
            exact ⟨(r1.trans r2w).trans r3w, RangeSorted.of_partitioned hless hp3
              (s2.of_frame (fun k hk1 hk2 => r3.frame k (Or.inl (by omega)))) s3⟩
        · have h2 : (pdqsort_loop next less fuel d1 (mid + 1) b limit true true >>= fun d2 =>
              pdqsort_loop next less fuel d2 a mid limit
                (decide (b - mid ≥ (b - a) / 8)) already) = some out := by
            have h3 : (if mid - a < b - mid then _ else _) = some out := h
            rw [if_neg hlr] at h3
            exact h3
          cases hd2 : pdqsort_loop next less fuel d1 (mid + 1) b limit true true with
          | none => rw [hd2] at h2; cases h2
          | some d2 =>
            rw [hd2] at h2
            have h4 : pdqsort_loop next less fuel d2 a mid limit
                (decide (b - mid ≥ (b - a) / 8)) already = some out := h2
            obtain ⟨r2, s2⟩ := ih d1 (mid + 1) b limit true true d2 hd2 (by omega) hlen1
              (habove2.right hless hp1)
            have r2w : Rearranged d1 d2 a b := r2.mono (by omega) (Nat.le_refl _)
            have hp2 := hp1.of_rearranged_right r2
            have habove3 : RangeAbove less d2 a b := RangeAbove.of_rearranged r2w habove2
            obtain ⟨r3, s3⟩ := ih d2 a mid limit _ already out h4 hma
              (by rw [r2.length_eq]; omega) (habove3.shorten (by omega))
            have r3w : Rearranged d2 out a b := r3.mono (Nat.le_refl _) (by omega)
            have hp3 := hp2.of_rearranged_left r3
            exact ⟨(r1.trans r2w).trans r3w, RangeSorted.of_partitioned hless hp3 s3
              (s2.of_frame (fun k hk1 hk2 => r3.frame k (Or.inr (by omega))))⟩

/-- The function `pdqsort_func(data, a, b, limit)` rearranges `data[a:b]` into
order, when no element of `data[a:b]` is less than an element before index
`a`. -/
theorem pdqsort_loop_spec {α : Type} (next : Nat → Nat) {less : α → α → Bool}
    (hless : LessOrder less) :
    ∀ (fuel : Nat) (d : List α) (a b limit : Nat) (wb wp : Bool) (out : List α),
      pdqsort_loop next less fuel d a b limit wb wp = some out →
      a ≤ b → b ≤ d.length → RangeAbove less d a b →
      Rearranged d out a b ∧ RangeSorted less out a b := by
  intro fuel
  induction fuel with
  | zero => intro d a b limit wb wp out h; simp [pdqsort_loop] at h
  | succ fuel ih =>
    intro d a b limit wb wp out h hab hb habove
    rw [pdqsort_loop] at h
    by_cases h12 : b - a ≤ 12
    · rw [if_pos h12] at h
      cases h
      exact insertionSort_func_spec hless d a b hb
    rw [if_neg h12] at h
    by_cases hl : limit = 0
    · rw [if_pos hl] at h
      exact heapSort_func_spec hless d a b out h hab hb
    rw [if_neg hl] at h
    split at h
    split at h
    split at h
    rename_i _ data1 limit1 h1 _ pivot0 hint0 h2 _ data2 pivot2 hint2 h3
    have r1 : Rearranged d data1 a b := by
      by_cases hwb : (!wb) = true
      · rw [if_pos hwb] at h1
        cases h1
        exact breakPatterns_func_spec next d a b
      · rw [if_neg hwb] at h1
        cases h1
        exact Rearranged.refl _ _ _
    have hpiv := choosePivot_func_bounds less data1 a b (by omega)
    rw [h2] at hpiv
    have r2 : Rearranged data1 data2 a b ∧ a ≤ pivot2 ∧ pivot2 < b := by
      by_cases hdec : hint0 = sortedHint.decreasingHint
      · rw [if_pos hdec] at h3
        cases h3
        exact ⟨reverseRange_func_spec data1 a b, by omega, by omega⟩
      · rw [if_neg hdec] at h3
        cases h3
        exact ⟨Rearranged.refl _ _ _, hpiv.1, hpiv.2⟩
    obtain ⟨r2, hp1, hp2⟩ := r2
    have r12 : Rearranged d data2 a b := r1.trans r2
    have hlen2 : b ≤ data2.length := by rw [r12.length_eq]; exact hb
    have habove2 : RangeAbove less data2 a b := RangeAbove.of_rearranged r12 habove
    by_cases hcond : (wb && wp && decide (hint2 = sortedHint.increasingHint)) = true
    · have h4 : (if (wb && wp && decide (hint2 = sortedHint.increasingHint)) = true
          then partialInsertionSort_func less data2 a b >>= _ else _) = some out := h
      rw [if_pos hcond] at h4
      cases hpi : partialInsertionSort_func less data2 a b with
      | none => rw [hpi] at h4; cases h4
      | some r =>
        rw [hpi] at h4
        obtain ⟨r3, s3⟩ := partialInsertionSort_func_spec hless data2 a b r.1 r.2 hpi
          (by omega) hlen2 habove2
        obtain ⟨r4, s4⟩ := pdqsort_rest_spec next hless fuel ih a b limit1 pivot2 wb wp hp1 hp2
          r out h4 (by rw [r3.length_eq]; exact hlen2) (RangeAbove.of_rearranged r3 habove2) s3
        exact ⟨(r12.trans r3).trans r4, s4⟩
    · have h4 : (if (wb && wp && decide (hint2 = sortedHint.increasingHint)) = true
          then _ else some (data2, false) >>= _) = some out := h
      rw [if_neg hcond] at h4
      obtain ⟨r4, s4⟩ := pdqsort_rest_spec next hless fuel ih a b limit1 pivot2 wb wp hp1 hp2
        (data2, false) out h4 hlen2 habove2 (by intro hf; cases hf)
      exact ⟨r12.trans r4, s4⟩

/-- A slice in order from index 0 to its length is pairwise in order. -/
theorem pairwise_of_rangeSorted {α : Type} {less : α → α → Bool} (l : List α)
    (h : RangeSorted less l 0 l.length) : l.Pairwise (fun x y => less y x = false) := by
  rw [List.pairwise_iff_getElem]
  intro i j hi hj hij
  exact h i j l[i] l[j] (Nat.zero_le _) hij hj (List.getElem?_eq_getElem hi)
    (List.getElem?_eq_getElem hj)

/-- The function `sort.Slice(x, less)` returns `x` rearranged into order, for
every `less` that is a strict weak ordering. -/
theorem Slice_spec {α : Type} (next : Nat → Nat) {less : α → α → Bool}
    (hless : LessOrder less) (x out : List α) (h : Slice next less x = some out) :
    out.Perm x ∧ out.Pairwise (fun a b => less b a = false) := by
  unfold Slice at h
  obtain ⟨r, s⟩ := pdqsort_loop_spec next hless _ x 0 x.length _ true true out h (Nat.zero_le _)
    (Nat.le_refl _) (by intro k y hk; omega)
  refine ⟨r.perm, pairwise_of_rangeSorted out ?_⟩
  rw [r.length_eq]
  exact s

/-- The port of `sort.Slice` meets the contract of `sort.Slice`, whatever the
generator step. -/
theorem goSortSlice_contract (next : Nat → Nat) : SortSliceContract (goSortSlice next) := by
  intro less l hless
  obtain ⟨out, hout⟩ := Slice_returns next less l
  have hspec := Slice_spec next hless l out hout
  simp only [goSortSlice, hout, Option.getD_some]
  exact hspec

/-! ## `sort.Slice` on short slices -/

theorem lessAt_adjacent {α : Type} (less : α → α → Bool) (p q : List α) (y x : α) :
    lessAt less (p ++ y :: x :: q) (p.length + 1) p.length = less x y := by
  have h1 : (p ++ y :: x :: q)[p.length + 1]? = some x := by
    rw [List.getElem?_append_right (by omega)]
    simp
  have h0 : (p ++ y :: x :: q)[p.length]? = some y := by
    rw [List.getElem?_append_right (by omega)]
    simp
  simp [lessAt, h1, h0]

theorem swapAt_adjacent {α : Type} (p q : List α) (y x : α) :
    swapAt (p ++ y :: x :: q) (p.length + 1) p.length = p ++ x :: y :: q := by
  have h1 : (p ++ y :: x :: q)[p.length + 1]? = some x := by
    rw [List.getElem?_append_right (by omega)]
    simp
  have h0 : (p ++ y :: x :: q)[p.length]? = some y := by
    rw [List.getElem?_append_right (by omega)]
    simp
  simp only [swapAt, h1, h0]
  simp [List.set_append]

/-- The inner loop of the insertion sort, run at the element that follows a
front part, inserts that element into the front part from the right. -/
theorem insertionSort_inner_eq {α : Type} (less : α → α → Bool) (x : α) :
    ∀ (rfront back : List α),
      insertionSort_inner less 0 rfront.length (rfront.reverse ++ x :: back)
        = (List.orderedInsert (fun a b => less a b = false) x rfront).reverse ++ back := by
  intro rfront
  induction rfront with
  | nil => intro back; simp [insertionSort_inner]
  | cons y ys ih =>
    intro back
    have hlen : (y :: ys).length = ys.reverse.length + 1 := by simp
    have hdata : (y :: ys).reverse ++ x :: back = ys.reverse ++ y :: x :: back := by simp
    rw [hlen, hdata]
    simp only [insertionSort_inner, lessAt_adjacent, swapAt_adjacent, Nat.zero_lt_succ, true_and]
    cases hxy : less x y with
    | true =>
      have := ih (y :: back)
      simp only [List.length_reverse] at this ⊢
      rw [if_pos trivial, this]
      simp [List.orderedInsert, hxy]
    | false =>
      simp [List.orderedInsert, hxy]

theorem insertionSort_fold_eq {α : Type} (less : α → α → Bool) :
    ∀ (rest rsorted : List α),
      (List.range' rsorted.length rest.length).foldl
          (fun data i => insertionSort_inner less 0 i data) (rsorted.reverse ++ rest)
        = (rest.foldl (fun acc x => List.orderedInsert (fun a b => less a b = false) x acc)
            rsorted).reverse := by
  intro rest
  induction rest with
  | nil => intro rsorted; simp
  | cons x rest ih =>
    intro rsorted
    simp only [List.length_cons, List.range'_succ, List.foldl_cons]
    rw [insertionSort_inner_eq]
    have := ih (List.orderedInsert (fun a b => less a b = false) x rsorted)
    rw [List.orderedInsert_length] at this
    exact this

/-- The function `insertionSort_func` over a whole slice is the list insertion
sort of the reversed slice, reversed: elements are inserted from the right,
behind the elements they are not less than. -/
theorem insertionSort_func_eq {α : Type} (less : α → α → Bool) (l : List α) :
    insertionSort_func less l 0 l.length
      = (List.insertionSort (fun a b => less a b = false) l.reverse).reverse := by
  have hfold : List.insertionSort (fun a b => less a b = false) l.reverse
      = l.foldl (fun acc x => List.orderedInsert (fun a b => less a b = false) x acc) [] := by
    induction l using List.reverseRecOn with
    | nil => simp
    | append_singleton l x ih =>
      simp only [List.reverse_append, List.reverse_cons, List.reverse_nil, List.nil_append,
        List.singleton_append, List.insertionSort, List.foldl_append, List.foldl_cons,
        List.foldl_nil]
      rw [ih]
  rw [hfold]
  cases l with
  | nil => simp [insertionSort_func]
  | cons x rest =>
    have := insertionSort_fold_eq less rest [x]
    simp only [List.length_singleton, List.reverse_cons, List.reverse_nil, List.nil_append,
      List.singleton_append] at this
    simp only [insertionSort_func, List.length_cons, Nat.zero_add, Nat.add_sub_cancel]
    rw [this]
    simp [List.orderedInsert]

/-- On a slice of at most 12 elements `sort.Slice` is `insertionSort_func`. -/
theorem Slice_short {α : Type} (next : Nat → Nat) (less : α → α → Bool) (l : List α)
    (h : l.length ≤ 12) :
    Slice next less l = some (insertionSort_func less l 0 l.length) := by
  simp [Slice, pdqsort_loop, h]

/-- On a slice of at most 12 elements `sort.Slice` returns a permutation that
is in order and keeps the order of every pair whose second element is not
less than the first. -/
theorem goSortSlice_short (next : Nat → Nat) (l : List TableInfo) (h : l.length ≤ 12) :
    Slice next lessByLastModified l = some (goSortSlice next lessByLastModified l)
    ∧ (goSortSlice next lessByLastModified l).Perm l
    ∧ (goSortSlice next lessByLastModified l).Pairwise
        (fun a b => a.LastModifiedTime ≥ b.LastModifiedTime)
    ∧ ∀ a b, List.Sublist [a, b] l → lessByLastModified b a = false →
        List.Sublist [a, b] (goSortSlice next lessByLastModified l) := by
  have hs := Slice_short next lessByLastModified l h
  have hgo : goSortSlice next lessByLastModified l
      = (List.insertionSort (fun a b => lessByLastModified a b = false) l.reverse).reverse := by
    simp [goSortSlice, hs, insertionSort_func_eq]
  refine ⟨by rw [hs, hgo, insertionSort_func_eq], ?_, ?_, ?_⟩
  · rw [hgo]
    exact (List.reverse_perm _).trans
      ((List.perm_insertionSort _ _).trans (List.reverse_perm _))
  · rw [hgo, List.pairwise_reverse]
    haveI : IsTotal TableInfo (fun a b => lessByLastModified a b = false) :=
      ⟨fun a b => by
        cases hab : lessByLastModified a b
        · exact Or.inl rfl
        · exact Or.inr (lessByLastModified_order.asymm a b hab)⟩
    haveI : IsTrans TableInfo (fun a b => lessByLastModified a b = false) :=
      ⟨fun a b c hab hbc => lessByLastModified_order.negTrans a b c hab hbc⟩
    refine (List.sorted_insertionSort (fun a b => lessByLastModified a b = false)
      l.reverse).imp ?_
    intro a b hab
    exact (After_false_iff _ _).mp hab
  · intro a b hsub hba
    rw [hgo]
    have hrev : List.Sublist [b, a] l.reverse := by
      have := hsub.reverse
      simpa using this
    have := List.sublist_insertionSort (r := fun a b => lessByLastModified a b = false)
      (List.pairwise_pair.mpr hba) hrev
    simpa using this.reverse

/-- What `sort.Slice` returns on the thirteen records, whatever the
generator step. -/
theorem Slice_thirteen (next : Nat → Nat) :
    Slice next lessByLastModified thirteenInfos = some thirteenSorted := by
  rfl

/-! ## The claims -/

/-- C1: in every successful run of `listTablesByDataset`, whatever the
datasets, tables, metadata and cap, every list of the returned map is ordered
by `LastModifiedTime` descending: of two entries the earlier one is not
older.  In the scenario (tables `t1` at `T0`, `t2` at `T0 + 1h` in `alpha`)
the list of `alpha` is `[t2, t1]`.  Both hold with every sort that meets the
contract of `sort.Slice`, and with the port of `sort.Slice` itself, whatever
the generator step `next`. -/
theorem C1_lists_sorted_by_last_modified_descending
    (sortSlice : (TableInfo → TableInfo → Bool) → List TableInfo → List TableInfo)
    (hsort : SortSliceContract sortSlice) (next : Nat → Nat) :
    (∀ (client : Client) (cap : Int) (m : GoMap),
      (listTablesByDataset sortSlice client cap).result = .ok m →
      ∀ k l, m.get k = some l →
        l.Pairwise (fun a b => a.LastModifiedTime ≥ b.LastModifiedTime))
    ∧ (∃ m, (listTablesByDataset sortSlice scenarioAlpha 100).result = .ok m
        ∧ m.get "alpha" = some [mkTableInfo "alpha" "t2" (plainMetadata (T0 + hour)),
            mkTableInfo "alpha" "t1" (plainMetadata T0)])
    ∧ (∀ (client : Client) (cap : Int) (m : GoMap),
      (listTablesByDataset (goSortSlice next) client cap).result = .ok m →
      ∀ k l, m.get k = some l →
        l.Pairwise (fun a b => a.LastModifiedTime ≥ b.LastModifiedTime))
    ∧ (listTablesByDataset (goSortSlice next) scenarioAlpha 100).result
        = .ok [("alpha", [mkTableInfo "alpha" "t2" (plainMetadata (T0 + hour)),
            mkTableInfo "alpha" "t1" (plainMetadata T0)])] := by
  have hall : ∀ (sort : (TableInfo → TableInfo → Bool) → List TableInfo → List TableInfo),
      SortSliceContract sort →
      ∀ (client : Client) (cap : Int) (m : GoMap),
        (listTablesByDataset sort client cap).result = .ok m →
        ∀ k l, m.get k = some l →
          l.Pairwise (fun a b => a.LastModifiedTime ≥ b.LastModifiedTime) := by
    intro sort hs client cap m h k l hk
    refine datasetsLoop_entries sort cap
      (fun _ l => l.Pairwise (fun a b => a.LastModifiedTime ≥ b.LastModifiedTime))
      client.Datasets [] m ?_ ?_ h k l hk
    · intro k v hkv
      simp [GoMap.get] at hkv
    · intro d _ _ out _
      exact sortSlice_sorted_desc sort hs out
  have hscenario : ∀ (sort : (TableInfo → TableInfo → Bool) → List TableInfo → List TableInfo),
      SortSliceContract sort →
      (listTablesByDataset sort scenarioAlpha 100).result
        = .ok [("alpha", [mkTableInfo "alpha" "t2" (plainMetadata (T0 + hour)),
            mkTableInfo "alpha" "t1" (plainMetadata T0)])] := by
    intro sort hs
    have hrun : (listTablesByDataset sort scenarioAlpha 100).result
        = .ok [("alpha", sort lessByLastModified
            [mkTableInfo "alpha" "t1" (plainMetadata T0),
              mkTableInfo "alpha" "t2" (plainMetadata (T0 + hour))])] := rfl
    rw [hrun, sortSlice_pair sort hs _ _ (by decide)]
  refine ⟨hall sortSlice hsort, ⟨_, hscenario sortSlice hsort, rfl⟩,
    hall _ (goSortSlice_contract next), hscenario _ (goSortSlice_contract next)⟩

/-- C1, at the scenario with the port of `sort.Slice`: the run succeeds, the
list of `alpha` is `[t2, t1]`, and it is ordered. -/
theorem C1_lists_sorted_by_last_modified_descending_witness :
    SortSliceContract (goSortSlice stepIdentity)
    ∧ (listTablesByDataset (goSortSlice stepIdentity) scenarioAlpha 100).result
        = .ok [("alpha", [mkTableInfo "alpha" "t2" (plainMetadata (T0 + hour)),
            mkTableInfo "alpha" "t1" (plainMetadata T0)])]
    ∧ [mkTableInfo "alpha" "t2" (plainMetadata (T0 + hour)),
        mkTableInfo "alpha" "t1" (plainMetadata T0)].Pairwise
          (fun a b => a.LastModifiedTime ≥ b.LastModifiedTime) :=
  ⟨goSortSlice_contract stepIdentity, by decide,
    (C1_lists_sorted_by_last_modified_descending (goSortSlice stepIdentity)
      (goSortSlice_contract stepIdentity) stepIdentity).1 scenarioAlpha 100
      [("alpha", [mkTableInfo "alpha" "t2" (plainMetadata (T0 + hour)),
        mkTableInfo "alpha" "t1" (plainMetadata T0)])]
      (by decide) "alpha"
      [mkTableInfo "alpha" "t2" (plainMetadata (T0 + hour)),
        mkTableInfo "alpha" "t1" (plainMetadata T0)]
      (by decide)⟩

/-- C2: in every successful run of `listTablesByDataset`, a dataset
identifier is a key of the returned map if and only if the dataset pager
produced it and it does not contain `"_test"`; so no key contains `"_test"`;
and a dataset without `"_test"` whose table pager gives no table (and which
is not listed again later) is a key with the empty list.  In the scenario
(`alpha_test` listed next to `alpha`) `alpha` is a key and `alpha_test` is
not. -/
theorem C2_keys_are_the_listed_datasets_without_test
    (sortSlice : (TableInfo → TableInfo → Bool) → List TableInfo → List TableInfo)
    (hsort : SortSliceContract sortSlice) (client : Client) (cap : Int) (m : GoMap)
    (h : (listTablesByDataset sortSlice client cap).result = .ok m) :
    (∀ k, k ∈ m.keys ↔
        ((∃ d, NextResult.item d ∈ client.Datasets ∧ d.DatasetID = k)
          ∧ stringsContains k "_test" = false))
    ∧ (∀ k, k ∈ m.keys → ¬ ∃ before rest, k.data = before ++ "_test".data ++ rest)
    ∧ (∀ earlier d later, client.Datasets = earlier ++ .item d :: later →
        (∀ d1, NextResult.item d1 ∈ later → d1.DatasetID ≠ d.DatasetID) →
        stringsContains d.DatasetID "_test" = false →
        d.Tables = [] →
        d.DatasetID ∈ m.keys ∧ m.get d.DatasetID = some []) := by
  have hkeys : ∀ k, k ∈ m.keys ↔
      ((∃ d, NextResult.item d ∈ client.Datasets ∧ d.DatasetID = k)
        ∧ stringsContains k "_test" = false) := by
    intro k
    rw [datasetsLoop_keys sortSlice cap client.Datasets [] m h k]
    simp [GoMap.keys]
  refine ⟨hkeys, ?_, ?_⟩
  · intro k hk hsub
    have h1 := ((hkeys k).mp hk).2
    have h2 : stringsContains k "_test" = true :=
      (containsChars_iff "_test".data k.data).mpr hsub
    rw [h1] at h2
    cases h2
  · intro earlier d later hds hlater ht hempty
    unfold listTablesByDataset at h
    rw [hds] at h
    obtain ⟨out, hout, hget⟩ :=
      datasetsLoop_get_visited sortSlice cap d later earlier [] m hlater ht h
    rw [hempty, tablesLoop_nil] at hout
    cases hout
    rw [sortSlice_nil sortSlice hsort] at hget
    exact ⟨(GoMap.mem_keys_iff m _).mpr (by simp [hget]), hget⟩

/-- C2, at scenario 2 with the port of `sort.Slice` (`alpha_test` listed next
to `alpha`): the only key of the map is `alpha`; and at a dataset `empty`
without tables: `empty` is a key, with the empty list. -/
theorem C2_keys_are_the_listed_datasets_without_test_witness :
    (listTablesByDataset (goSortSlice stepIdentity) scenarioAlpha 100).result
        = .ok [("alpha", [mkTableInfo "alpha" "t2" (plainMetadata (T0 + hour)),
            mkTableInfo "alpha" "t1" (plainMetadata T0)])]
    ∧ GoMap.keys [("alpha", [mkTableInfo "alpha" "t2" (plainMetadata (T0 + hour)),
            mkTableInfo "alpha" "t1" (plainMetadata T0)])] = ["alpha"]
    ∧ stringsContains "alpha_test" "_test" = true
    ∧ stringsContains "alpha" "_test" = false
    ∧ (listTablesByDataset (goSortSlice stepIdentity) scenarioEmpty 100).result
        = .ok [("empty", [])]
    ∧ ("empty" ∈ GoMap.keys [("empty", [])] ∧ GoMap.get [("empty", [])] "empty" = some []) :=
  ⟨by decide, by decide, by decide, by decide, by decide,
    (C2_keys_are_the_listed_datasets_without_test (goSortSlice stepIdentity)
      (goSortSlice_contract stepIdentity) scenarioEmpty 100 [("empty", [])] (by decide)).2.2
      [.item { DatasetID := "alpha_test", Tables := [tableAt "x" T0] }]
      { DatasetID := "empty", Tables := [] } [] rfl
      (by intro d1 hd1; cases hd1) (by decide) rfl⟩

theorem forall₂_mem_right {α β : Type} {R : α → β → Prop} {l1 : List α} {l2 : List β}
    (h : List.Forall₂ R l1 l2) : ∀ b, b ∈ l2 → ∃ a, a ∈ l1 ∧ R a b := by
  induction h with
  | nil => intro b hb; cases hb
  | cons hab _ ih =>
    intro b hb
    rcases List.mem_cons.mp hb with hb | hb
    · subst hb
      exact ⟨_, List.mem_cons_self _ _, hab⟩
    · obtain ⟨a, ha, hr⟩ := ih b hb
      exact ⟨a, List.mem_cons_of_mem _ ha, hr⟩

/-- The partitioning fields of a record built by `mkTableInfo` agree. -/
theorem mkTableInfo_partitioning (ds tid : String) (md : TableMetadata) :
    ((mkTableInfo ds tid md).PartitioningType = ""
        ↔ (mkTableInfo ds tid md).IsPartitioned = false)
    ∧ ((mkTableInfo ds tid md).PartitioningType ≠ ""
        → (mkTableInfo ds tid md).IsPartitioned = true)
    ∧ ((mkTableInfo ds tid md).IsPartitioned = true
        → (mkTableInfo ds tid md).PartitioningType = "Time"
          ∨ (mkTableInfo ds tid md).PartitioningType = "Range") := by
  unfold mkTableInfo
  cases h1 : md.TimePartitioning <;> cases h2 : md.RangePartitioning <;> simp

/-- C6: every `TableInfo` that `listTablesByDataset` constructs, for every
metadata value, has `PartitioningType == ""` if and only if
`IsPartitioned == false`; a non-empty `PartitioningType` implies
`IsPartitioned`, and `IsPartitioned` implies that `PartitioningType` is
`"Time"` or `"Range"`.  This holds of the record built from any metadata and
of every entry of every list of the map a successful run returns. -/
theorem C6_partitioning_type_empty_iff_not_partitioned :
    (∀ (ds tid : String) (md : TableMetadata),
      ((mkTableInfo ds tid md).PartitioningType = ""
          ↔ (mkTableInfo ds tid md).IsPartitioned = false)
      ∧ ((mkTableInfo ds tid md).PartitioningType ≠ ""
          → (mkTableInfo ds tid md).IsPartitioned = true)
      ∧ ((mkTableInfo ds tid md).IsPartitioned = true
          → (mkTableInfo ds tid md).PartitioningType = "Time"
            ∨ (mkTableInfo ds tid md).PartitioningType = "Range"))
    ∧ (∀ (sortSlice : (TableInfo → TableInfo → Bool) → List TableInfo → List TableInfo),
        SortSliceContract sortSlice →
        ∀ (client : Client) (cap : Int) (m : GoMap),
          (listTablesByDataset sortSlice client cap).result = .ok m →
          ∀ k l, m.get k = some l → ∀ info, info ∈ l →
            (info.PartitioningType = "" ↔ info.IsPartitioned = false)
            ∧ (info.PartitioningType ≠ "" → info.IsPartitioned = true)
            ∧ (info.IsPartitioned = true
                → info.PartitioningType = "Time" ∨ info.PartitioningType = "Range")) := by
  refine ⟨mkTableInfo_partitioning, ?_⟩
  intro sortSlice hsort client cap m h k l hk
  refine datasetsLoop_entries sortSlice cap
    (fun _ l => ∀ info, info ∈ l →
      (info.PartitioningType = "" ↔ info.IsPartitioned = false)
      ∧ (info.PartitioningType ≠ "" → info.IsPartitioned = true)
      ∧ (info.IsPartitioned = true
          → info.PartitioningType = "Time" ∨ info.PartitioningType = "Range"))
    client.Datasets [] m ?_ ?_ h k l hk
  · intro k v hkv
    simp [GoMap.get] at hkv
  · intro d _ _ out hout info hinfo
    have hmem : info ∈ out :=
      ((hsort lessByLastModified out lessByLastModified_order).1).subset hinfo
    obtain ⟨recs, hrecs, hall⟩ := tablesLoop_ok d.DatasetID d.Tables cap [] out hout
    simp only [List.nil_append] at hrecs
    subst hrecs
    obtain ⟨r, _, t, md, _, _, hbuilt⟩ := forall₂_mem_right hall info hmem
    rw [hbuilt]
    exact mkTableInfo_partitioning _ _ _

/-- C6, at a dataset holding a time-partitioned, a range-partitioned, a
doubly partitioned and an unpartitioned table: the run succeeds and the
entry of the range-partitioned table satisfies the three statements. -/
theorem C6_partitioning_type_empty_iff_not_partitioned_witness :
    (listTablesByDataset (goSortSlice stepIdentity) scenarioPartitioned 100).result
        = .ok [("beta", scenarioPartitionedInfos)]
    ∧ ((mkTableInfo "beta" "byRange" (metadataWith T0 none (some { Field := "id" }))).PartitioningType
          = ""
        ↔ (mkTableInfo "beta" "byRange" (metadataWith T0 none (some { Field := "id" }))).IsPartitioned
          = false)
    ∧ ((mkTableInfo "beta" "byRange" (metadataWith T0 none (some { Field := "id" }))).PartitioningType
          ≠ ""
        → (mkTableInfo "beta" "byRange" (metadataWith T0 none (some { Field := "id" }))).IsPartitioned
          = true)
    ∧ ((mkTableInfo "beta" "byRange" (metadataWith T0 none (some { Field := "id" }))).IsPartitioned
          = true
        → (mkTableInfo "beta" "byRange" (metadataWith T0 none (some { Field := "id" }))).PartitioningType
            = "Time"
          ∨ (mkTableInfo "beta" "byRange"
              (metadataWith T0 none (some { Field := "id" }))).PartitioningType = "Range") :=
  ⟨by decide,
    C6_partitioning_type_empty_iff_not_partitioned.2 (goSortSlice stepIdentity)
      (goSortSlice_contract stepIdentity) scenarioPartitioned 100
      [("beta", scenarioPartitionedInfos)]
      (by decide) "beta" scenarioPartitionedInfos (by decide)
      (mkTableInfo "beta" "byRange" (metadataWith T0 none (some { Field := "id" })))
      (by decide)⟩

/-- C7: the partitioning classification is a function of the metadata alone,
with one outcome out of `"Time"`, `"Range"`, `""`: time partitioning set and
range partitioning nil gives `IsPartitioned = true`, `"Time"`; range set and
time nil gives `true`, `"Range"`; both nil gives `false`, `""`; both set
gives `true` and the single value `"Time"`. -/
theorem C7_partitioning_classification (ds tid : String) (md : TableMetadata) :
    ((mkTableInfo ds tid md).PartitioningType = "Time"
        ∨ (mkTableInfo ds tid md).PartitioningType = "Range"
        ∨ (mkTableInfo ds tid md).PartitioningType = "")
    ∧ (∀ ds1 tid1, (mkTableInfo ds1 tid1 md).PartitioningType
          = (mkTableInfo ds tid md).PartitioningType
        ∧ (mkTableInfo ds1 tid1 md).IsPartitioned = (mkTableInfo ds tid md).IsPartitioned)
    ∧ (md.TimePartitioning ≠ none → md.RangePartitioning = none →
        (mkTableInfo ds tid md).IsPartitioned = true
        ∧ (mkTableInfo ds tid md).PartitioningType = "Time")
    ∧ (md.RangePartitioning ≠ none → md.TimePartitioning = none →
        (mkTableInfo ds tid md).IsPartitioned = true
        ∧ (mkTableInfo ds tid md).PartitioningType = "Range")
    ∧ (md.TimePartitioning = none → md.RangePartitioning = none →
        (mkTableInfo ds tid md).IsPartitioned = false
        ∧ (mkTableInfo ds tid md).PartitioningType = "")
    ∧ (md.TimePartitioning ≠ none → md.RangePartitioning ≠ none →
        (mkTableInfo ds tid md).IsPartitioned = true
        ∧ (mkTableInfo ds tid md).PartitioningType = "Time"
        ∧ (mkTableInfo ds tid md).PartitioningType ≠ "Range") := by
  unfold mkTableInfo
  cases h1 : md.TimePartitioning <;> cases h2 : md.RangePartitioning <;> simp

/-- C7, at the four kinds of metadata: the four outcomes. -/
theorem C7_partitioning_classification_witness :
    ((mkTableInfo "beta" "byTime" (metadataWith T0 (some { Field := "day" }) none)).IsPartitioned
        = true
      ∧ (mkTableInfo "beta" "byTime"
          (metadataWith T0 (some { Field := "day" }) none)).PartitioningType = "Time")
    ∧ ((mkTableInfo "beta" "byRange" (metadataWith T0 none (some { Field := "id" }))).IsPartitioned
        = true
      ∧ (mkTableInfo "beta" "byRange"
          (metadataWith T0 none (some { Field := "id" }))).PartitioningType = "Range")
    ∧ ((mkTableInfo "beta" "plain" (metadataWith T0 none none)).IsPartitioned = false
      ∧ (mkTableInfo "beta" "plain" (metadataWith T0 none none)).PartitioningType = "")
    ∧ ((mkTableInfo "beta" "both"
          (metadataWith T0 (some { Field := "day" }) (some { Field := "id" }))).IsPartitioned = true
      ∧ (mkTableInfo "beta" "both"
          (metadataWith T0 (some { Field := "day" }) (some { Field := "id" }))).PartitioningType
          = "Time"
      ∧ (mkTableInfo "beta" "both"
          (metadataWith T0 (some { Field := "day" }) (some { Field := "id" }))).PartitioningType
          ≠ "Range") :=
  ⟨(C7_partitioning_classification "beta" "byTime"
      (metadataWith T0 (some { Field := "day" }) none)).2.2.1 (by decide) (by decide),
    (C7_partitioning_classification "beta" "byRange"
      (metadataWith T0 none (some { Field := "id" }))).2.2.2.1 (by decide) (by decide),
    (C7_partitioning_classification "beta" "plain"
      (metadataWith T0 none none)).2.2.2.2.1 (by decide) (by decide),
    (C7_partitioning_classification "beta" "both"
      (metadataWith T0 (some { Field := "day" }) (some { Field := "id" }))).2.2.2.2.2
      (by decide) (by decide)⟩

theorem mkTableInfo_fields (ds tid : String) (md : TableMetadata) :
    (mkTableInfo ds tid md).DatasetID = ds
    ∧ (mkTableInfo ds tid md).TableID = tid
    ∧ (mkTableInfo ds tid md).LastModifiedTime = md.LastModifiedTime
    ∧ (mkTableInfo ds tid md).NumRows = md.NumRows := by
  unfold mkTableInfo
  cases h1 : md.TimePartitioning <;> cases h2 : md.RangePartitioning <;> simp

/-- C10: the cap is applied before the sort.  In every successful run, for a
dataset `d` without `"_test"` that the dataset pager lists (and does not list
again later, as when it is listed once), the list stored under `d` is a
permutation of the records built, in pager order, from exactly the first
`min(n, cap + 1)` replies of its table pager (`n` the number of replies):
nothing is dropped or duplicated by the sort, and each record has
`DatasetID == d` and the `TableID`, `LastModifiedTime` and `NumRows` of its
table.  For `cap >= 0` the number `(cap + 1).toNat` is `cap + 1`. -/
theorem C10_cap_applies_before_sort
    (sortSlice : (TableInfo → TableInfo → Bool) → List TableInfo → List TableInfo)
    (hsort : SortSliceContract sortSlice) (client : Client) (cap : Int) (m : GoMap)
    (earlier later : List (NextResult Dataset)) (d : Dataset)
    (hds : client.Datasets = earlier ++ .item d :: later)
    (honce : ∀ d1, NextResult.item d1 ∈ later → d1.DatasetID ≠ d.DatasetID)
    (ht : stringsContains d.DatasetID "_test" = false)
    (h : (listTablesByDataset sortSlice client cap).result = .ok m) :
    ∃ l recs, m.get d.DatasetID = some l
      ∧ l.Perm recs
      ∧ List.Forall₂ (builtFrom d.DatasetID) (d.Tables.take (cap + 1).toNat) recs
      ∧ List.Forall₂
          (fun r info => ∃ table md, r = NextResult.item table ∧ table.Metadata = .ok md
            ∧ info.DatasetID = d.DatasetID ∧ info.TableID = table.TableID
            ∧ info.LastModifiedTime = md.LastModifiedTime ∧ info.NumRows = md.NumRows)
          (d.Tables.take (cap + 1).toNat) recs
      ∧ recs.length = min d.Tables.length (cap + 1).toNat
      ∧ l.length = min d.Tables.length (cap + 1).toNat := by
  unfold listTablesByDataset at h
  rw [hds] at h
  obtain ⟨out, hout, hget⟩ :=
    datasetsLoop_get_visited sortSlice cap d later earlier [] m honce ht h
  obtain ⟨recs, hrecs, hall⟩ := tablesLoop_ok d.DatasetID d.Tables cap [] out hout
  simp only [List.nil_append] at hrecs
  subst hrecs
  have hperm := (hsort lessByLastModified out lessByLastModified_order).1
  have hlen : out.length = min d.Tables.length (cap + 1).toNat := by
    rw [← hall.length_eq, List.length_take]
    exact Nat.min_comm _ _
  refine ⟨_, out, hget, hperm, hall, ?_, hlen, ?_⟩
  · refine hall.imp ?_
    rintro r info ⟨table, md, hr, hm, hinfo⟩
    obtain ⟨h1, h2, h3, h4⟩ := mkTableInfo_fields d.DatasetID table.TableID md
    exact ⟨table, md, hr, hm, hinfo ▸ h1, hinfo ▸ h2, hinfo ▸ h3, hinfo ▸ h4⟩
  · rw [hperm.length_eq, hlen]

/-- C10, at the scenario with cap 0: `alpha` lists `t1` (older) before `t2`
(newer); only `t1` is examined, so the list of `alpha` is `[t1]` and the
most recently modified table `t2` is absent. -/
theorem C10_cap_applies_before_sort_witness :
    (listTablesByDataset (goSortSlice stepIdentity) scenarioAlpha 0).result
        = .ok [("alpha", [mkTableInfo "alpha" "t1" (plainMetadata T0)])]
    ∧ ∃ l recs,
        GoMap.get [("alpha", [mkTableInfo "alpha" "t1" (plainMetadata T0)])]
          "alpha" = some l
      ∧ l.Perm recs
      ∧ List.Forall₂ (builtFrom "alpha")
          ([tableAt "t1" T0, tableAt "t2" (T0 + hour)].take ((0 : Int) + 1).toNat) recs
      ∧ List.Forall₂
          (fun r info => ∃ table md, r = NextResult.item table ∧ table.Metadata = .ok md
            ∧ info.DatasetID = "alpha" ∧ info.TableID = table.TableID
            ∧ info.LastModifiedTime = md.LastModifiedTime ∧ info.NumRows = md.NumRows)
          ([tableAt "t1" T0, tableAt "t2" (T0 + hour)].take ((0 : Int) + 1).toNat) recs
      ∧ recs.length = min [tableAt "t1" T0, tableAt "t2" (T0 + hour)].length ((0 : Int) + 1).toNat
      ∧ l.length = min [tableAt "t1" T0, tableAt "t2" (T0 + hour)].length ((0 : Int) + 1).toNat :=
  ⟨by decide,
    C10_cap_applies_before_sort (goSortSlice stepIdentity) (goSortSlice_contract stepIdentity)
      scenarioAlpha 0
      [("alpha", [mkTableInfo "alpha" "t1" (plainMetadata T0)])]
      [.item { DatasetID := "alpha_test", Tables := [tableAt "x" T0] }]
      []
      { DatasetID := "alpha", Tables := [tableAt "t1" T0, tableAt "t2" (T0 + hour)] }
      rfl (by intro d1 hd1; cases hd1) (by decide) (by decide)⟩

/-- A failed metadata fetch ends the dataset loop at once, with the wrapped
error: it is the last call made. -/
theorem datasetsLoop_metadata_failed
    (sortSlice : (TableInfo → TableInfo → Bool) → List TableInfo → List TableInfo)
    (cap : Int) (ds tid : String) (err : GoError) (datasets : List (NextResult Dataset)) :
    ∀ (acc : GoMap),
      Call.metadata ds tid (some err) ∈ (datasetsLoop sortSlice cap datasets acc).calls →
      (datasetsLoop sortSlice cap datasets acc).result
          = .error (err.withMessage "Failed to get table metadata")
        ∧ ∃ before, (datasetsLoop sortSlice cap datasets acc).calls
            = before ++ [Call.metadata ds tid (some err)]
          ∧ ∀ c ∈ before, ∀ ds1 tid1 err1, c ≠ Call.metadata ds1 tid1 (some err1) := by
  induction datasets with
  | nil => intro acc h; simp [datasetsLoop_nil] at h
  | cons r rest ih =>
    intro acc h
    cases r with
    | failure err1 => rw [datasetsLoop_failure] at h; simp at h
    | item d =>
      cases ht : stringsContains d.DatasetID "_test" with
      | true =>
        rw [datasetsLoop_skip _ _ _ _ _ ht] at h ⊢
        simp only [Run.after, List.mem_cons, false_or] at h
        obtain ⟨hr, before, hcalls, hb⟩ := ih acc (h.resolve_left (by simp))
        refine ⟨hr, .datasetsNext (.item d.DatasetID) :: before, by simp [Run.after, hcalls], ?_⟩
        intro c hc ds1 tid1 err1
        rcases List.mem_cons.mp hc with hc | hc
        · subst hc; simp
        · exact hb c hc ds1 tid1 err1
      | false =>
        rw [datasetsLoop_visit _ _ _ _ _ ht] at h ⊢
        cases hres : (tablesLoop d.DatasetID d.Tables cap []).result with
        | error err1 =>
          rw [Run.andThen_error _ _ _ hres] at h ⊢
          simp only [Run.after, List.mem_cons, false_or] at h
          obtain ⟨hr, before, hcalls, hb⟩ :=
            tablesLoop_metadata_failed d.DatasetID d.Tables cap [] ds tid err
              (h.resolve_left (by simp))
          rw [hres] at hr
          refine ⟨by simpa [Run.after] using hr, .datasetsNext (.item d.DatasetID) :: before,
            by simp [Run.after, hcalls], ?_⟩
          intro c hc ds1 tid1 err2
          rcases List.mem_cons.mp hc with hc | hc
          · subst hc; simp
          · exact hb c hc ds1 tid1 err2
        | ok out =>
          rw [Run.andThen_ok _ _ _ hres] at h ⊢
          simp only [Run.after, List.mem_cons, false_or, List.mem_append] at h
          have hnot : ∀ ds1 tid1 err1, Call.metadata ds1 tid1 (some err1)
              ∉ (tablesLoop d.DatasetID d.Tables cap []).calls := by
            intro ds1 tid1 err1 hmem
            have := (tablesLoop_metadata_failed d.DatasetID d.Tables cap [] ds1 tid1 err1 hmem).1
            rw [hres] at this
            cases this
          have hrest : Call.metadata ds tid (some err) ∈ (datasetsLoop sortSlice cap rest
              (acc.set d.DatasetID (sortSlice lessByLastModified out))).calls := by
            rcases h with h | h | h
            · cases h
            · exact absurd h (hnot ds tid err)
            · exact h
          obtain ⟨hr, before, hcalls, hb⟩ := ih _ hrest
          refine ⟨hr, .datasetsNext (.item d.DatasetID)
            :: (tablesLoop d.DatasetID d.Tables cap []).calls ++ before, ?_, ?_⟩
          · simp [Run.after, hcalls]
          · intro c hc ds1 tid1 err1
            simp only [List.cons_append, List.mem_cons, List.mem_append] at hc
            rcases hc with hc | hc | hc
            · subst hc; simp
            · intro he
              subst he
              exact hnot ds1 tid1 err1 hc
            · exact hb c hc ds1 tid1 err1

/-- C5: in every run in which the metadata fetch of some examined table
fails, `listTablesByDataset` returns no map and the error that wraps the
underlying cause with the message `"Failed to get table metadata"`; the
failing fetch is the last call made (no later table or dataset is listed or
fetched) and no earlier fetch failed; and `main`, started with such a client,
prints no report line and exits with status 1 after the fatal log line. -/
theorem C5_metadata_failure_aborts_run
    (sortSlice : (TableInfo → TableInfo → Bool) → List TableInfo → List TableInfo)
    (client : Client) (cap : Int) (ds tid : String) (err : GoError)
    (hfail : Call.metadata ds tid (some err) ∈ (listTablesByDataset sortSlice client cap).calls) :
    (listTablesByDataset sortSlice client cap).result
        = .error (err.withMessage "Failed to get table metadata")
    ∧ (GoError.withMessage err "Failed to get table metadata").unwrap = some err
    ∧ (GoError.withMessage err "Failed to get table metadata").Error
        = "Failed to get table metadata: " ++ err.Error
    ∧ (∃ before, (listTablesByDataset sortSlice client cap).calls
          = before ++ [Call.metadata ds tid (some err)]
        ∧ ∀ c ∈ before, ∀ ds1 tid1 err1, c ≠ Call.metadata ds1 tid1 (some err1))
    ∧ (∀ (env : Env) (program projectID keyPath : String),
        env.sortSlice = sortSlice → cap = maxTables →
        stringsContains keyPath projectID = true →
        env.NewClient projectID keyPath = .ok client →
        main [program, projectID, keyPath] env
          = { events := .newClient projectID keyPath
                :: (listTablesByDataset sortSlice client cap).calls.map Event.call
                ++ [.fatalf "Failed to list tables: %v"
                    [.err (err.withMessage "Failed to get table metadata")]]
              exitCode := 1 }) := by
  have hboth := datasetsLoop_metadata_failed sortSlice cap ds tid err client.Datasets [] hfail
  rw [← listTablesByDataset] at hboth
  obtain ⟨hr, hcalls⟩ := hboth
  refine ⟨hr, rfl, rfl, hcalls, ?_⟩
  intro env program projectID keyPath hs hc hk hnew
  subst hs hc
  simp only [main, hk, hnew, Bool.not_true, Bool.false_eq_true, if_false]
  rw [hr]

/-- C5, at scenario 5 (the fetch for the second table `t2` of `alpha` fails,
with a table and a dataset still to come): the call log ends with the failed
fetch and the run returns the wrapped error. -/
theorem C5_metadata_failure_aborts_run_witness :
    (listTablesByDataset (goSortSlice stepIdentity) scenarioMetadataFails 100).calls
        = [.datasetsNext (.item "first"),
           .tablesNext "first" (.item "a"), .metadata "first" "a" none,
           .tablesNext "first" .done,
           .datasetsNext (.item "alpha"),
           .tablesNext "alpha" (.item "t1"), .metadata "alpha" "t1" none,
           .tablesNext "alpha" (.item "t2"),
           .metadata "alpha" "t2" (some (.cause "permission denied"))]
    ∧ (listTablesByDataset (goSortSlice stepIdentity) scenarioMetadataFails 100).result
        = .error (.withMessage (.cause "permission denied") "Failed to get table metadata") :=
  ⟨by decide,
    (C5_metadata_failure_aborts_run (goSortSlice stepIdentity) scenarioMetadataFails 100
      "alpha" "t2" (.cause "permission denied") (by decide)).1⟩

/-- C3: for every cap `>= 0`, the table loop of a dataset fetches metadata
for at most `cap + 1` tables and on success records exactly the tables it
fetched, so every list of the returned map has at most `cap + 1` entries;
and when the table pager has more than `cap` tables (`cap + 1` good ones in
front), the loop records those `cap + 1`, asks the pager once more, ends
normally whatever that call and the rest of the pager answer, and the run
goes on with the next reply of the dataset pager. -/
theorem C3_at_most_cap_plus_one_tables_examined (cap : Int) (hcap : 0 ≤ cap) :
    (∀ (d : String) (tables : List (NextResult Table)),
      (((tablesLoop d tables cap []).calls.filter Call.isMetadata).length : Int) ≤ cap + 1
      ∧ ∀ out, (tablesLoop d tables cap []).result = .ok out →
          out.length = ((tablesLoop d tables cap []).calls.filter Call.isMetadata).length
          ∧ (out.length : Int) ≤ cap + 1)
    ∧ (∀ (sortSlice : (TableInfo → TableInfo → Bool) → List TableInfo → List TableInfo),
        SortSliceContract sortSlice →
        ∀ (client : Client) (m : GoMap),
          (listTablesByDataset sortSlice client cap).result = .ok m →
          ∀ k l, m.get k = some l → (l.length : Int) ≤ cap + 1)
    ∧ (∀ (d : String) (front back : List (NextResult Table)) (recs : List TableInfo),
        (front.length : Int) = cap + 1 →
        List.Forall₂ (builtFrom d) front recs →
        (tablesLoop d (front ++ back) cap []).result = .ok recs
        ∧ (((tablesLoop d (front ++ back) cap []).calls.filter Call.isMetadata).length : Int)
            = cap + 1
        ∧ (tablesLoop d (front ++ back) cap []).calls.getLast?
            = some (.tablesNext d (match back.head? with
                | none => .done
                | some r => tableReply r)))
    ∧ (∀ (sortSlice : (TableInfo → TableInfo → Bool) → List TableInfo → List TableInfo)
        (d : Dataset) (front back : List (NextResult Table)) (recs : List TableInfo)
        (rest : List (NextResult Dataset)) (acc : GoMap),
        d.Tables = front ++ back →
        (front.length : Int) = cap + 1 →
        List.Forall₂ (builtFrom d.DatasetID) front recs →
        stringsContains d.DatasetID "_test" = false →
        datasetsLoop sortSlice cap (.item d :: rest) acc
          = { calls := .datasetsNext (.item d.DatasetID)
                :: (tablesLoop d.DatasetID d.Tables cap []).calls
                ++ (datasetsLoop sortSlice cap rest
                    (acc.set d.DatasetID (sortSlice lessByLastModified recs))).calls
              result := (datasetsLoop sortSlice cap rest
                    (acc.set d.DatasetID (sortSlice lessByLastModified recs))).result }) := by
  have hto : ((cap + 1).toNat : Int) = cap + 1 := Int.toNat_of_nonneg (by omega)
  refine ⟨?_, ?_, ?_, ?_⟩
  · intro d tables
    have hcount := tablesLoop_metadata_count d tables cap []
    refine ⟨by omega, ?_⟩
    intro out hout
    have heq := tablesLoop_metadata_count_ok d tables cap [] out hout
    simp only [List.length_nil, Nat.add_zero] at heq
    exact ⟨heq.symm, by omega⟩
  · intro sortSlice hsort client m h k l hk
    refine datasetsLoop_entries sortSlice cap (fun _ l => (l.length : Int) ≤ cap + 1)
      client.Datasets [] m ?_ ?_ h k l hk
    · intro k v hkv
      simp [GoMap.get] at hkv
    · intro d _ _ out hout
      have hcount := tablesLoop_metadata_count d.DatasetID d.Tables cap []
      have heq := tablesLoop_metadata_count_ok d.DatasetID d.Tables cap [] out hout
      simp only [List.length_nil, Nat.add_zero] at heq
      have hlen := ((hsort lessByLastModified out lessByLastModified_order).1).length_eq
      show ((sortSlice lessByLastModified out).length : Int) ≤ cap + 1
      omega
  · intro d front back recs hlen hall
    have hlen1 : front.length = (cap + 1).toNat := by omega
    obtain ⟨h1, h2, h3⟩ := tablesLoop_cap_reached d front back cap [] recs hlen1 hall
    refine ⟨by simpa using h1, by omega, h3⟩
  · intro sortSlice d front back recs rest acc htables hlen hall ht
    have hlen1 : front.length = (cap + 1).toNat := by omega
    obtain ⟨h1, _, _⟩ := tablesLoop_cap_reached d.DatasetID front back cap [] recs hlen1 hall
    rw [← htables] at h1
    simp only [List.nil_append] at h1
    rw [datasetsLoop_visit _ _ _ _ _ ht, Run.andThen_ok _ _ _ h1]
    simp [Run.after]

/-- C3, at cap 1 and a dataset `gamma` with four tables: two tables are
fetched and recorded, the third pager call ends the loop normally, and the
run goes on to list `delta`. -/
theorem C3_at_most_cap_plus_one_tables_examined_witness :
    (tablesLoop "gamma" ([tableAt "g1" T0, tableAt "g2" T0]
          ++ [tableAt "g3" T0, tableAt "g4" T0]) 1 []).result
        = .ok [mkTableInfo "gamma" "g1" (plainMetadata T0),
            mkTableInfo "gamma" "g2" (plainMetadata T0)]
    ∧ (((tablesLoop "gamma" ([tableAt "g1" T0, tableAt "g2" T0]
          ++ [tableAt "g3" T0, tableAt "g4" T0]) 1 []).calls.filter
            Call.isMetadata).length : Int) = 1 + 1
    ∧ (tablesLoop "gamma" ([tableAt "g1" T0, tableAt "g2" T0]
          ++ [tableAt "g3" T0, tableAt "g4" T0]) 1 []).calls.getLast?
        = some (.tablesNext "gamma" (.item "g3"))
    ∧ (listTablesByDataset (goSortSlice stepIdentity) scenarioCapReached 1).result
        = .ok [("gamma", [mkTableInfo "gamma" "g1" (plainMetadata T0),
            mkTableInfo "gamma" "g2" (plainMetadata T0)]),
          ("delta", [mkTableInfo "delta" "d1" (plainMetadata T0)])] :=
  ⟨((C3_at_most_cap_plus_one_tables_examined 1 (by decide)).2.2.1 "gamma"
      [tableAt "g1" T0, tableAt "g2" T0]
      [tableAt "g3" T0, tableAt "g4" T0]
      [mkTableInfo "gamma" "g1" (plainMetadata T0), mkTableInfo "gamma" "g2" (plainMetadata T0)]
      (by decide)
      (List.Forall₂.cons ⟨_, _, rfl, rfl, rfl⟩
        (List.Forall₂.cons ⟨_, _, rfl, rfl, rfl⟩ List.Forall₂.nil))).1,
    by decide, by decide, by decide⟩

/-- C4, evaluated where it fails: with cap 0 the table pager of `alpha`
gives `t1` and then fails with "backend error".  The failed call is made (it
is in the call log), yet the run does not abort: it goes on to `omega` and
returns a map and no error. -/
theorem C4_pager_failure_after_cap_is_swallowed :
    listTablesByDataset (goSortSlice stepIdentity) scenarioPagerFailsAfterCap 0
      = { calls :=
            [.datasetsNext (.item "alpha"),
             .tablesNext "alpha" (.item "t1"), .metadata "alpha" "t1" none,
             .tablesNext "alpha" (.failure (.cause "backend error")),
             .datasetsNext (.item "omega"),
             .tablesNext "omega" (.item "z"), .metadata "omega" "z" none,
             .tablesNext "omega" .done,
             .datasetsNext .done]
          result := .ok [("alpha", [mkTableInfo "alpha" "t1" (plainMetadata T0)]),
            ("omega", [mkTableInfo "omega" "z" (plainMetadata T0)])] } := by
  decide

/-- C9: `main` checks its invocation before any network I/O.  With a
program name and a number of positional arguments other than two it prints
the usage message and exits with status 1; with two arguments of which the
key path does not contain the project ID it logs the fatal message and exits
with status 1; in both cases no client is constructed and no listing or
metadata call is made.  When the key path contains the project ID, client
construction is the first thing that happens. -/
theorem C9_main_validates_invocation_first (env : Env) (program : String) :
    (∀ positional : List String, positional.length ≠ 2 →
      main (program :: positional) env
        = { events := [.printf "Usage: %s <projectID> <keyPath>" [.str program],
              .println "",
              .println "Given a Bigquery projectID, list the tables for all datasets accessible by the given credentials"]
            exitCode := 1 })
    ∧ (∀ projectID keyPath : String, stringsContains keyPath projectID = false →
      main [program, projectID, keyPath] env
        = { events := [.fatalf
              "The project ID %s does not appear in the key path %s (and is usually an error)"
              [.str projectID, .str keyPath]]
            exitCode := 1 })
    ∧ (∀ args : List String,
        (args.length ≠ 3 ∨ ∃ projectID keyPath, args = [program, projectID, keyPath]
          ∧ stringsContains keyPath projectID = false) →
        args ≠ [] →
        (main args env).exitCode = 1
        ∧ ∀ e, e ∈ (main args env).events →
            (∀ p k, e ≠ .newClient p k) ∧ (∀ c, e ≠ .call c))
    ∧ (∀ projectID keyPath : String, stringsContains keyPath projectID = true →
      (main [program, projectID, keyPath] env).events.head?
        = some (.newClient projectID keyPath)) := by
  refine ⟨?_, ?_, ?_, ?_⟩
  · intro positional hlen
    match positional, hlen with
    | [], _ => rfl
    | [_], _ => rfl
    | [_, _], h => exact absurd rfl h
    | _ :: _ :: _ :: _, _ => rfl
  · intro projectID keyPath hk
    simp [main, hk]
  · intro args hargs hne
    have husage : ∀ (p : String) (positional : List String), positional.length ≠ 2 →
        main (p :: positional) env
          = { events := [.printf "Usage: %s <projectID> <keyPath>" [.str p],
                .println "",
                .println "Given a Bigquery projectID, list the tables for all datasets accessible by the given credentials"]
              exitCode := 1 } := by
      intro p positional hlen
      match positional, hlen with
      | [], _ => rfl
      | [_], _ => rfl
      | [_, _], h => exact absurd rfl h
      | _ :: _ :: _ :: _, _ => rfl
    rcases hargs with hlen | ⟨projectID, keyPath, hargs, hk⟩
    · cases args with
      | nil => exact absurd rfl hne
      | cons p positional =>
        rw [husage p positional (by simpa using hlen)]
        refine ⟨rfl, ?_⟩
        intro e he
        simp only [List.mem_cons, List.not_mem_nil, or_false] at he
        rcases he with he | he | he <;> subst he <;> simp
    · subst hargs
      have hfatal : main [program, projectID, keyPath] env
          = { events := [.fatalf
                "The project ID %s does not appear in the key path %s (and is usually an error)"
                [.str projectID, .str keyPath]]
              exitCode := 1 } := by
        simp [main, hk]
      rw [hfatal]
      refine ⟨rfl, ?_⟩
      intro e he
      simp only [List.mem_singleton] at he
      subst he
      simp
  · intro projectID keyPath hk
    simp only [main, hk, Bool.not_true, Bool.false_eq_true, if_false]
    cases env.NewClient projectID keyPath with
    | error err => rfl
    | ok client =>
      simp only
      cases (listTablesByDataset env.sortSlice client maxTables).result <;> rfl

/-- C9, at three invocations: one argument only; a key path that does not
contain the project ID; a key path that does. -/
theorem C9_main_validates_invocation_first_witness :
    main ["list_datasets", "my-project"] (envOf scenarioAlpha)
        = { events := [.printf "Usage: %s <projectID> <keyPath>" [.str "list_datasets"],
              .println "",
              .println "Given a Bigquery projectID, list the tables for all datasets accessible by the given credentials"]
            exitCode := 1 }
    ∧ main ["list_datasets", "my-project", "/keys/other.json"] (envOf scenarioAlpha)
        = { events := [.fatalf
              "The project ID %s does not appear in the key path %s (and is usually an error)"
              [.str "my-project", .str "/keys/other.json"]]
            exitCode := 1 }
    ∧ (main ["list_datasets", "my-project", "/keys/my-project.json"]
          (envOf scenarioAlpha)).events.head?
        = some (.newClient "my-project" "/keys/my-project.json") :=
  ⟨(C9_main_validates_invocation_first (envOf scenarioAlpha) "list_datasets").1
      ["my-project"] (by decide),
    (C9_main_validates_invocation_first (envOf scenarioAlpha) "list_datasets").2.1
      "my-project" "/keys/other.json" (by decide),
    (C9_main_validates_invocation_first (envOf scenarioAlpha) "list_datasets").2.2.2
      "my-project" "/keys/my-project.json" (by decide)⟩

/-- C8, as amended: within the list of a dataset, tables with equal
`LastModifiedTime` keep their enumeration order when the list has at most 12
entries, where `sort.Slice` is an insertion sort.  For a dataset without
`"_test"` that is listed (and not listed again later) and of which at most 12
tables are examined, the stored list is what `sort.Slice` returns on the
records in enumeration order, and every pair `A`, `B` of records with `A`
enumerated before `B` and equal `LastModifiedTime` has `A` before `B` in the
stored list. -/
theorem C8_ties_keep_enumeration_order_up_to_twelve_tables
    (next : Nat → Nat) (client : Client) (cap : Int) (m : GoMap)
    (earlier later : List (NextResult Dataset)) (d : Dataset)
    (hds : client.Datasets = earlier ++ .item d :: later)
    (honce : ∀ d1, NextResult.item d1 ∈ later → d1.DatasetID ≠ d.DatasetID)
    (ht : stringsContains d.DatasetID "_test" = false)
    (h : (listTablesByDataset (goSortSlice next) client cap).result = .ok m)
    (hshort : min d.Tables.length (cap + 1).toNat ≤ 12) :
    ∃ l recs, m.get d.DatasetID = some l
      ∧ List.Forall₂ (builtFrom d.DatasetID) (d.Tables.take (cap + 1).toNat) recs
      ∧ Slice next lessByLastModified recs = some l
      ∧ ∀ A B, List.Sublist [A, B] recs → A.LastModifiedTime = B.LastModifiedTime →
          List.Sublist [A, B] l := by
  unfold listTablesByDataset at h
  rw [hds] at h
  obtain ⟨out, hout, hget⟩ :=
    datasetsLoop_get_visited (goSortSlice next) cap d later earlier [] m honce ht h
  obtain ⟨recs, hrecs, hall⟩ := tablesLoop_ok d.DatasetID d.Tables cap [] out hout
  simp only [List.nil_append] at hrecs
  subst hrecs
  have hlen : out.length ≤ 12 := by
    rw [← hall.length_eq, List.length_take]
    omega
  obtain ⟨hsome, _, _, hstable⟩ := goSortSlice_short next out hlen
  refine ⟨_, out, hget, hall, hsome, ?_⟩
  intro A B hsub htime
  refine hstable A B hsub ?_
  simp [lessByLastModified, After, htime]

/-- C8 as amended, at a dataset with three tables of which the first and the
third have the same `LastModifiedTime`: the newer `t2` comes first, and `t1`
stays before `t3`. -/
theorem C8_ties_keep_enumeration_order_up_to_twelve_tables_witness :
    (listTablesByDataset (goSortSlice stepIdentity) scenarioTies 100).result
        = .ok [("alpha", [alphaInfo "t2" (T0 + hour), alphaInfo "t1" T0, alphaInfo "t3" T0])]
    ∧ ∃ l recs,
        GoMap.get [("alpha", [alphaInfo "t2" (T0 + hour), alphaInfo "t1" T0, alphaInfo "t3" T0])]
          "alpha" = some l
      ∧ List.Forall₂ (builtFrom "alpha")
          ([tableAt "t1" T0, tableAt "t2" (T0 + hour), tableAt "t3" T0].take
            ((100 : Int) + 1).toNat) recs
      ∧ Slice stepIdentity lessByLastModified recs = some l
      ∧ ∀ A B, List.Sublist [A, B] recs → A.LastModifiedTime = B.LastModifiedTime →
          List.Sublist [A, B] l :=
  ⟨by decide,
    C8_ties_keep_enumeration_order_up_to_twelve_tables stepIdentity scenarioTies 100
      [("alpha", [alphaInfo "t2" (T0 + hour), alphaInfo "t1" T0, alphaInfo "t3" T0])]
      [] []
      { DatasetID := "alpha",
        Tables := [tableAt "t1" T0, tableAt "t2" (T0 + hour), tableAt "t3" T0] }
      rfl (by intro d1 hd1; cases hd1) (by decide) (by decide) (by decide)⟩

/-- C8, refuted at thirteen tables: `alpha` lists `t1` ... `t12`, all last
modified at `T0`, and then `t13`, modified an hour later.  With the cap of
`main` all thirteen are examined; `sort.Slice` returns
`t13, t7, t3, t4, t5, t6, t1, t8, ..., t12, t2`.  `t1` was enumerated before
`t7` and has the same `LastModifiedTime`, yet `t7` comes before `t1` in the
returned list. -/
theorem C8_ties_reordered_at_thirteen_tables :
    (listTablesByDataset (goSortSlice stepIdentity) scenarioThirteen maxTables).result
        = .ok [("alpha", thirteenSorted)]
    ∧ List.Forall₂ (builtFrom "alpha") thirteenTables thirteenInfos
    ∧ Slice stepIdentity lessByLastModified thirteenInfos = some thirteenSorted
    ∧ List.Sublist [alphaInfo "t1" T0, alphaInfo "t7" T0] thirteenInfos
    ∧ (alphaInfo "t1" T0).LastModifiedTime = (alphaInfo "t7" T0).LastModifiedTime
    ∧ ¬ List.Sublist [alphaInfo "t1" T0, alphaInfo "t7" T0] thirteenSorted
    ∧ List.Sublist [alphaInfo "t7" T0, alphaInfo "t1" T0] thirteenSorted := by
  refine ⟨by decide, ?_, by decide, by decide, by decide, by decide, by decide⟩
  unfold thirteenTables thirteenInfos
  repeat first
    | exact List.Forall₂.nil
    | refine List.Forall₂.cons ⟨_, _, rfl, rfl, rfl⟩ ?_

end ListDatasets
